import Mathlib

/-!
# amgcl `level::cpu::instance` : relaxation, residual, V-cycle and K-cycle

Shallow embedding of `src/amgcl/level_cpu.hpp`.

* `value_t` is an arbitrary field `K` with decidable equality (exact arithmetic);
  `index_t` and `unsigned` are `Nat`.
* Every array access is checked: an access outside the array is `Fault.index`.
  A division whose divisor is zero has no value in exact arithmetic: `relax`, `cycle`
  and `kcycle` stop there with `Fault.divide` (the quotient `fdiv`), where the code goes
  on with an infinity or a NaN in that entry. `relax_on`, `cycle_on` and `kcycle_on` are
  the same statements with the quotient as a parameter `dv`: with `fdiv` they are
  `relax`, `cycle` and `kcycle`; with `tdiv q` every division has the value `q a b`,
  also for a zero divisor, and the run goes on as the code does. What is said of
  lengths and of indices is said for every `q`.
* The class `instance` is split into its matrices (`Instance`: `A`, `P`, `R`, `Ai`,
  never written after construction) and its members declared `mutable`
  (`Workspace`: `u`, `f`, `t`, `cg`).  A range of levels `[lvl, end)` is the list of
  the instances in it, together with the list of their workspaces; the solve
  functions return the new workspaces and the new contents of `x`.
* The rows of a `#pragma omp parallel for` loop are run in index order; no row
  reads what another row of the same loop writes.
* Which overload of `vector_copy` a call of `relax` selects depends on the type of
  `x`; it is the flag `swap` of `relax` and `cycle`. The recursive calls pass vectors of
  the level (`u`, `cg[1]`), for which it is `std::swap`.
* `sqrt` is a parameter of `resid`.
* The two constructors return the matrices and the workspace of the level they build
  (`instance_interior`, `instance_coarsest`); `size()` is `Workspace.size`. The helper
  `sparse::matrix_nonzeros`, which `nonzeros()` calls, is declared outside this file and
  is modelled from the specification.

The file has the embedding of the code first, then the values the code computes written
as functions of the vectors alone (`relax_val`, `cycle_val`, `kcycle_val`), the
well-formedness predicates, concrete inputs, the constructors, the calls made on a
hierarchy, the code with the quotient as a parameter and the calls that `cycle` and
`kcycle` make. The theorems start with the loops, show that the code computes those
values (`cycle_kcycle_sim`), which lengths it keeps whatever the matrices and the
quotient are (`cycle_kcycle_on_len`), that it runs to its end on well-formed data when
every division has a value (`cycle_kcycle_on_returns`), and that the recursion follows the
table of calls (`invoke_eq_body`); the claims are stated along the way.
-/

set_option linter.unusedSectionVars false

namespace amgcl

/-- What an operation does instead of returning a value. -/
inductive Fault where
  | index
  | divide
  deriving DecidableEq, Repr

/-- The compressed-row matrix `sparse::matrix<value_t, index_t>`. -/
structure matrix (K : Type) where
  rows : Nat
  row : List Nat
  col : List Nat
  val : List K

/-- The parameter record `amgcl::level::params` as far as this file reads it. -/
structure params where
  ncycle : Nat
  npre : Nat
  npost : Nat
  kcycle : Nat

/-- The matrices of one level (the members of `instance` that are not `mutable`). -/
structure Instance (K : Type) where
  A : matrix K
  P : matrix K
  R : matrix K
  Ai : matrix K

/-- The `mutable` members of one level; `cg0 .. cg3` are `cg[0] .. cg[3]`. -/
structure Workspace (K : Type) where
  u : List K
  f : List K
  t : List K
  cg0 : List K
  cg1 : List K
  cg2 : List K
  cg3 : List K

section code

variable {K : Type} [Field K] [DecidableEq K]

/-- The read `xs[i]`. -/
def rd {α : Type} (xs : List α) (i : Nat) : Except Fault α :=
  match xs[i]? with
  | some v => Except.ok v
  | none => Except.error Fault.index

/-- The write `xs[i] = v`. -/
def wr {α : Type} (xs : List α) (i : Nat) (v : α) : Except Fault (List α) :=
  if i < xs.length then Except.ok (xs.set i v) else Except.error Fault.index

/-- The quotient `a / b` of two values. -/
def fdiv (a b : K) : Except Fault K :=
  if b = 0 then Except.error Fault.divide else Except.ok (a / b)

/-- The loop `for (i = 0; i < n; ++i) buf[i] = body(i)`. -/
def fill_rows {α : Type} (n : Nat) (body : Nat → Except Fault α) (buf : List α) :
    Except Fault (List α) :=
  (List.range n).foldlM (fun b i => do
    let v ← body i
    wr b i v) buf

/-- The loop `for (i = 0; i < n; ++i) buf[i] += body(i)`. -/
def add_rows (n : Nat) (body : Nat → Except Fault K) (buf : List K) :
    Except Fault (List K) :=
  (List.range n).foldlM (fun b i => do
    let v ← body i
    let bi ← rd b i
    wr b i (bi + v)) buf

/-- The row loop `temp = 0; for (j = M.row[i], e = M.row[i+1]; j < e; ++j)
temp += M.val[j] * x[M.col[j]]`. -/
def row_dot (M : matrix K) (x : List K) (i : Nat) : Except Fault K := do
  let b ← rd M.row i
  let e ← rd M.row (i + 1)
  (List.range' b (e - b)).foldlM (fun temp j => do
    let v ← rd M.val j
    let c ← rd M.col j
    let xc ← rd x c
    pure (temp + v * xc)) 0

/-- The row loop `temp = rhs[i]; for (j = M.row[i], e = M.row[i+1]; j < e; ++j)
temp -= M.val[j] * x[M.col[j]]`. -/
def row_res (M : matrix K) (rhs x : List K) (i : Nat) : Except Fault K := do
  let temp ← rd rhs i
  let b ← rd M.row i
  let e ← rd M.row (i + 1)
  (List.range' b (e - b)).foldlM (fun temp j => do
    let v ← rd M.val j
    let c ← rd M.col j
    let xc ← rd x c
    pure (temp - v * xc)) temp

/-- The body of the row loop of `relax`: the value stored in `t[i]`. -/
def relax_row (A : matrix K) (rhs x : List K) (i : Nat) : Except Fault K := do
  let temp ← rd rhs i
  let b ← rd A.row i
  let e ← rd A.row (i + 1)
  let td ← (List.range' b (e - b)).foldlM (fun (td : K × K) j => do
    let c ← rd A.col j
    let v ← rd A.val j
    let xc ← rd x c
    pure (td.1 - v * xc, if c = i then v else td.2)) (temp, 1)
  let xi ← rd x i
  let q ← fdiv td.1 td.2
  pure (xi + 0.72 * q)

/-- The two overloads of `vector_copy(u, v)`: `std::swap(u, v)` when both have the
same type (`swap = true`), `std::copy(u.begin(), u.end(), &v[0])` otherwise.
Returns the new `u` and the new `v`. -/
def vector_copy {α : Type} (swap : Bool) (u v : List α) : Except Fault (List α × List α) :=
  if swap then Except.ok (v, u)
  else if u.length ≤ v.length then Except.ok (u, u ++ v.drop u.length)
  else Except.error Fault.index

/-- One relaxation step `relax(rhs, x)`; `swap` tells which overload of
`vector_copy` the type of `x` selects. -/
def relax (lvl : Instance K) (w : Workspace K) (swap : Bool) (rhs x : List K) :
    Except Fault (Workspace K × List K) := do
  let t ← fill_rows lvl.A.rows (relax_row lvl.A rhs x) w.t
  let tx ← vector_copy swap t x
  pure ({ w with t := tx.1 }, tx.2)

/-- The reduction `inner_prod(x, y)` over the `A.rows` entries of the level. -/
def inner_prod (lvl : Instance K) (x y : List K) : Except Fault K :=
  (List.range lvl.A.rows).foldlM (fun sum i => do
    let xi ← rd x i
    let yi ← rd y i
    pure (sum + xi * yi)) 0

/-- The residual `resid(rhs, x)`; `sqrt` is the square root of the value type. -/
def resid (sqrt : K → K) (lvl : Instance K) (rhs x : List K) : Except Fault K := do
  let norm ← (List.range lvl.A.rows).foldlM (fun norm i => do
    let temp ← row_res lvl.A rhs x i
    pure (norm + temp * temp)) 0
  pure (sqrt norm)

/-- The call `std::copy(&src[0], &src[0] + n, &dst[0])`. -/
def copy_n {α : Type} (n : Nat) (src dst : List α) : Except Fault (List α) :=
  fill_rows n (rd src) dst

/-- The call `std::fill(&dst[0], &dst[0] + n, v)`. -/
def fill_n {α : Type} (n : Nat) (v : α) (dst : List α) : Except Fault (List α) :=
  fill_rows n (fun _ => pure v) dst

/-- The call `std::transform(&a[0], &a[0] + n, &b[0], &a[0], op)`. -/
def transform (n : Nat) (op : K → K → K) (a b : List K) : Except Fault (List K) :=
  (List.range n).foldlM (fun buf i => do
    let ai ← rd buf i
    let bi ← rd b i
    wr buf i (op ai bi)) a

/-- The loop `for (k = 0; k < n; ++k) s = body(s)`. -/
def times {σ : Type} (n : Nat) (body : σ → Except Fault σ) (s : σ) : Except Fault σ :=
  match n with
  | 0 => pure s
  | n + 1 => body s >>= times n body

/-- The direct solve `x = Ai * rhs` of the coarsest level. -/
def solve (lvl : Instance K) (rhs x : List K) : Except Fault (List K) :=
  fill_rows lvl.A.rows (row_dot lvl.Ai rhs) x

mutual

/-- The V-cycle `cycle(lvl, end, prm, rhs, x)` on the range `lvl :: rest`, whose
workspaces are `w :: ws`. -/
def cycle (prm : params) (swap : Bool) : List (Instance K) → Workspace K → List (Workspace K) →
    List K → List K → Except Fault (Workspace K × List (Workspace K) × List K)
  | lvl :: nxt :: rest, w, ws, rhs, x =>
    times prm.ncycle (fun (st : Workspace K × List (Workspace K) × List K) => do
      match st.2.1 with
      | wn :: ws =>
        let wx ← times prm.npre (fun wx => relax lvl wx.1 swap rhs wx.2) (st.1, st.2.2)
        let t ← fill_rows lvl.A.rows (row_res lvl.A rhs wx.2) wx.1.t
        let f ← fill_rows nxt.A.rows (row_dot lvl.R t) wn.f
        let u := List.replicate wn.u.length (0 : K)
        let sub ← if wn.cg0.isEmpty
          then cycle prm true (nxt :: rest) { wn with f := f, u := u } ws f u
          else kcycle prm (nxt :: rest) { wn with f := f, u := u } ws f u
        let x ← add_rows lvl.A.rows (row_dot lvl.P sub.2.2) wx.2
        let wx ← times prm.npost (fun wx => relax lvl wx.1 swap rhs wx.2) ({ wx.1 with t := t }, x)
        pure (wx.1, { sub.1 with u := sub.2.2 } :: sub.2.1, wx.2)
      | [] => throw Fault.index) (w, ws, x)
  | [lvl], w, ws, rhs, x => do
    let x ← solve lvl rhs x
    pure (w, ws, x)
  | [], _, _, _, _ => throw Fault.index
termination_by lv => (lv.length, 0)

/-- The K-cycle `kcycle(lvl, end, prm, rhs, x)` on the range `lvl :: rest`, whose
workspaces are `w :: ws`. -/
def kcycle (prm : params) : List (Instance K) → Workspace K → List (Workspace K) →
    List K → List K → Except Fault (Workspace K × List (Workspace K) × List K)
  | lvl :: nxt :: rest, w, ws, rhs, x => do
    let n := lvl.A.rows
    let r ← copy_n n rhs w.cg0
    let st ← [0, 1].foldlM (fun (st : (Workspace K × List (Workspace K) × List K) × K) iter => do
      let w := st.1.1
      let s ← fill_n n (0 : K) w.cg1
      let sub ← cycle prm true (lvl :: nxt :: rest) { w with cg1 := s } st.1.2.1 w.cg0 s
      let w := sub.1
      let s := sub.2.2
      let rho2 := st.2
      let rho1 ← inner_prod lvl w.cg0 s
      let p ← if iter ≠ 0 then do
          let beta ← fdiv rho1 rho2
          transform n (fun pp ss => ss + beta * pp) w.cg2 s
        else copy_n n s w.cg2
      let q ← fill_rows n (row_dot lvl.A p) w.cg3
      let qp ← inner_prod lvl q p
      let alpha ← fdiv rho1 qp
      let x ← transform n (fun xx pp => xx + alpha * pp) st.1.2.2 p
      let r ← transform n (fun rr qq => rr - alpha * qq) w.cg0 q
      pure (({ w with cg0 := r, cg1 := s, cg2 := p, cg3 := q }, sub.2.1, x), rho1))
      (({ w with cg0 := r }, ws, x), (0 : K))
    pure st.1
  | [lvl], w, ws, rhs, x => do
    let x ← solve lvl rhs x
    pure (w, ws, x)
  | [], _, _, _, _ => throw Fault.index
termination_by lv => (lv.length, 1)

end

end code

/-! ## The values the code computes, as functions of the vectors alone -/

section values

variable {K : Type} [Field K] [DecidableEq K]

/-- The indices `j` of the stored entries of row `i`: `M.row[i] ≤ j < M.row[i+1]`. -/
def row_entries (M : matrix K) (i : Nat) : List Nat :=
  List.range' (M.row.getD i 0) (M.row.getD (i + 1) 0 - M.row.getD i 0)

/-- The sum of `M.val[j] * x[M.col[j]]` over the stored entries `j` of row `i`:
entry `i` of the product `M * x`. -/
def row_sum (M : matrix K) (x : List K) (i : Nat) : K :=
  ((row_entries M i).map (fun j => M.val.getD j 0 * x.getD (M.col.getD j 0) 0)).sum

/-- The value `relax` divides by in row `i`: the value of the last stored entry of
the row whose column is `i`, and 1 when the row has none. -/
def diag (A : matrix K) (i : Nat) : K :=
  (row_entries A i).foldl (fun d j => if A.col.getD j 0 = i then A.val.getD j 0 else d) 1

/-- The sum in the relaxation formula as the specification words it: over the stored
entries `j` of row `i` whose column is not `i`. -/
def row_sum_offdiag (M : matrix K) (x : List K) (i : Nat) : K :=
  (((row_entries M i).filter (fun j => M.col.getD j 0 ≠ i)).map
    (fun j => M.val.getD j 0 * x.getD (M.col.getD j 0) 0)).sum

/-- The first `m` entries of the product `M * x`. -/
def mat_vec (m : Nat) (M : matrix K) (x : List K) : List K :=
  (List.range m).map (row_sum M x)

/-- The vector `rhs - A * x`. -/
def residual (A : matrix K) (rhs x : List K) : List K :=
  (List.range A.rows).map (fun i => rhs.getD i 0 - row_sum A x i)

/-- The dot product of the first `n` entries of `x` and `y`. -/
def dot (n : Nat) (x y : List K) : K :=
  ((List.range n).map (fun i => x.getD i 0 * y.getD i 0)).sum

/-- The vector of the `n` entries `g 0, .., g (n-1)`. -/
def vec (n : Nat) (g : Nat → K) : List K := (List.range n).map g

/-- The contents of `x` after `relax(rhs, x)`. -/
def relax_val (A : matrix K) (rhs x : List K) : Except Fault (List K) :=
  if ∀ i < A.rows, diag A i ≠ 0 then
    Except.ok (vec A.rows fun i =>
      x.getD i 0 + 0.72 * ((rhs.getD i 0 - row_sum A x i) / diag A i))
  else Except.error Fault.divide

/-- The two steps of `kcycle` on a level with operator `A`, with the call
`cycle(lvl, end, prm, r, s)` on a zeroed `s` written as the function `M` of `r`. -/
def kcycle_with (M : List K → Except Fault (List K)) (A : matrix K) (rhs x : List K) :
    Except Fault (List K) := do
  let n := A.rows
  let r0 := vec n fun i => rhs.getD i 0
  let s0 ← M r0
  let p0 := vec n fun i => s0.getD i 0
  let q0 := mat_vec n A p0
  let alpha0 ← fdiv (dot n r0 s0) (dot n q0 p0)
  let x1 := vec n fun i => x.getD i 0 + alpha0 * p0.getD i 0
  let r1 := vec n fun i => r0.getD i 0 - alpha0 * q0.getD i 0
  let s1 ← M r1
  let beta ← fdiv (dot n r1 s1) (dot n r0 s0)
  let p1 := vec n fun i => s1.getD i 0 + beta * p0.getD i 0
  let q1 := mat_vec n A p1
  let alpha1 ← fdiv (dot n r1 s1) (dot n q1 p1)
  pure (vec n fun i => x1.getD i 0 + alpha1 * p1.getD i 0)

/-- One pass of the loop of `cycle` over `prm.ncycle` on a level `lvl` whose next
level has `nc` unknowns, with the recursive call on `[next, end)` written as the
function `sub` of the right-hand side and the initial guess. -/
def cycle_step (prm : params) (lvl : Instance K) (nc : Nat)
    (sub : List K → List K → Except Fault (List K)) (rhs x : List K) :
    Except Fault (List K) := do
  let x1 ← times prm.npre (relax_val lvl.A rhs) x
  let c ← sub (mat_vec nc lvl.R (residual lvl.A rhs x1)) (List.replicate nc (0 : K))
  times prm.npost (relax_val lvl.A rhs)
    (vec lvl.A.rows fun i => x1.getD i 0 + row_sum lvl.P c i)

/-- The contents of `x` after `cycle(lvl, end, prm, rhs, x)` on the range
`lvl :: rest`; `ks` tells, for each level after the first, whether its `cg[0]` is
non-empty. -/
def cycle_val (prm : params) : List (Instance K) → List Bool → List K → List K →
    Except Fault (List K)
  | lvl :: nxt :: rest, k :: ks, rhs, x =>
    times prm.ncycle (cycle_step prm lvl nxt.A.rows (fun f u =>
      if k then
        match rest with
        | [] => pure (mat_vec nxt.A.rows nxt.Ai f)
        | _ :: _ =>
          kcycle_with (fun r => cycle_val prm (nxt :: rest) ks r
            (List.replicate nxt.A.rows (0 : K))) nxt.A f u
      else cycle_val prm (nxt :: rest) ks f u) rhs) x
  | _ :: _ :: _, [], _, _ => Except.error Fault.index
  | [lvl], _, rhs, _ => pure (mat_vec lvl.A.rows lvl.Ai rhs)
  | [], _, _, _ => Except.error Fault.index

/-- The contents of `x` after `kcycle(lvl, end, prm, rhs, x)` on the range
`lvl :: rest`. -/
def kcycle_val (prm : params) : List (Instance K) → List Bool → List K → List K →
    Except Fault (List K)
  | lvl :: nxt :: rest, ks, rhs, x =>
    kcycle_with
      (fun r => cycle_val prm (lvl :: nxt :: rest) ks r (List.replicate lvl.A.rows (0 : K)))
      lvl.A rhs x
  | [lvl], _, rhs, _ => pure (mat_vec lvl.A.rows lvl.Ai rhs)
  | [], _, _, _ => Except.error Fault.index

end values

/-! ## Well-formed inputs -/

section wellformed

variable {K : Type}

/-- The CSR arrays of `M` describe a matrix of `m` rows whose columns are below `k`:
`row` holds `m + 1` non-decreasing offsets bounded by the lengths of `col` and `val`. -/
def matrix.wf (M : matrix K) (m k : Nat) : Prop :=
  M.rows = m ∧ M.row.length = m + 1 ∧
  (∀ i < m, M.row.getD i 0 ≤ M.row.getD (i + 1) 0) ∧
  (∀ i < m + 1, M.row.getD i 0 ≤ M.col.length ∧ M.row.getD i 0 ≤ M.val.length) ∧
  (∀ c ∈ M.col, c < k)

instance (M : matrix K) (m k : Nat) : Decidable (M.wf m k) := by
  unfold matrix.wf
  infer_instance

/-- The reads of row `i` of `M` against a vector of `k` entries stay inside the arrays. -/
def row_ok (M : matrix K) (k i : Nat) : Prop :=
  i + 1 < M.row.length ∧
  ∀ j ∈ List.range' (M.row.getD i 0) (M.row.getD (i + 1) 0 - M.row.getD i 0),
    j < M.col.length ∧ j < M.val.length ∧ M.col.getD j 0 < k

/-- The matrices of a range of levels fit together: `A` is square, `R` maps to and
`P` maps from the next level, and the last level holds a square `Ai`. -/
def levels_ok : List (Instance K) → Prop
  | [] => False
  | [lvl] => lvl.A.wf lvl.A.rows lvl.A.rows ∧ lvl.Ai.wf lvl.A.rows lvl.A.rows
  | lvl :: nxt :: rest =>
    lvl.A.wf lvl.A.rows lvl.A.rows ∧ lvl.R.wf nxt.A.rows lvl.A.rows ∧
    lvl.P.wf lvl.A.rows nxt.A.rows ∧ levels_ok (nxt :: rest)

/-- Whether `levels_ok` holds. -/
def levels_ok_dec : (lv : List (Instance K)) → Decidable (levels_ok lv)
  | [] => isFalse (fun h => h)
  | [lvl] =>
    inferInstanceAs (Decidable (lvl.A.wf lvl.A.rows lvl.A.rows ∧
      lvl.Ai.wf lvl.A.rows lvl.A.rows))
  | lvl :: nxt :: rest =>
    have : Decidable (levels_ok (nxt :: rest)) := levels_ok_dec (nxt :: rest)
    inferInstanceAs (Decidable (lvl.A.wf lvl.A.rows lvl.A.rows ∧
      lvl.R.wf nxt.A.rows lvl.A.rows ∧ lvl.P.wf lvl.A.rows nxt.A.rows ∧
      levels_ok (nxt :: rest)))

instance (lv : List (Instance K)) : Decidable (levels_ok lv) := levels_ok_dec lv

/-- The level has K-cycle workspace: `cg[0]` is not empty. -/
def Workspace.kflag (w : Workspace K) : Bool := !w.cg0.isEmpty

/-- The four `cg` vectors have `n` entries each. -/
def Workspace.cg_ok (w : Workspace K) (n : Nat) : Prop :=
  w.cg0.length = n ∧ w.cg1.length = n ∧ w.cg2.length = n ∧ w.cg3.length = n

/-- The workspace of a level of `n` unknowns below the first level of a range:
`u`, `f` and `t` have `n` entries, and `cg` is either unallocated or has four
vectors of `n` entries. -/
def Workspace.ok (w : Workspace K) (n : Nat) : Prop :=
  w.u.length = n ∧ w.f.length = n ∧ w.t.length = n ∧ (w.cg0 = [] ∨ w.cg_ok n)

/-- The workspaces `ws` fit the levels `lv`. -/
def workspaces_ok : List (Instance K) → List (Workspace K) → Prop
  | [], [] => True
  | lvl :: lv, w :: ws => w.ok lvl.A.rows ∧ workspaces_ok lv ws
  | _, _ => False

instance [DecidableEq K] (w : Workspace K) (n : Nat) : Decidable (w.cg_ok n) := by
  unfold Workspace.cg_ok
  infer_instance

instance [DecidableEq K] (w : Workspace K) (n : Nat) : Decidable (w.ok n) := by
  unfold Workspace.ok
  infer_instance

/-- Whether `workspaces_ok` holds. -/
def workspaces_ok_dec [DecidableEq K] :
    (lv : List (Instance K)) → (ws : List (Workspace K)) → Decidable (workspaces_ok lv ws)
  | [], [] => isTrue trivial
  | [], _ :: _ => isFalse (fun h => h)
  | _ :: _, [] => isFalse (fun h => h)
  | lvl :: lv, w :: ws =>
    have : Decidable (workspaces_ok lv ws) := workspaces_ok_dec lv ws
    inferInstanceAs (Decidable (w.ok lvl.A.rows ∧ workspaces_ok lv ws))

instance [DecidableEq K] (lv : List (Instance K)) (ws : List (Workspace K)) :
    Decidable (workspaces_ok lv ws) := workspaces_ok_dec lv ws

/-- The workspace `v` differs from `w` in `t` at most, and `t` has kept its length. -/
def Workspace.only_t (v w : Workspace K) : Prop :=
  v.u = w.u ∧ v.f = w.f ∧ v.cg0 = w.cg0 ∧ v.cg1 = w.cg1 ∧ v.cg2 = w.cg2 ∧ v.cg3 = w.cg3 ∧
  v.t.length = w.t.length

/-- How a run of the code `c` and the value `v` computed from the vectors alone
correspond: a result of `c` satisfies `Inv` and `v` is its part `proj`, a fault of `c`
is the same fault of `v`. -/
def Sim {σ τ : Type} (Inv : σ → Prop) (proj : σ → τ) (c : Except Fault σ)
    (v : Except Fault τ) : Prop :=
  match c with
  | Except.ok s => Inv s ∧ v = Except.ok (proj s)
  | Except.error e => v = Except.error e

/-- No workspace of the list but the last has K-cycle vectors: `cg[0]` is empty. -/
def no_kcycle (ws : List (Workspace K)) : Prop := ∀ w ∈ ws.dropLast, w.cg0 = []

/-- Two workspaces whose vectors have the same lengths. -/
def Workspace.same_shape (w v : Workspace K) : Prop :=
  w.u.length = v.u.length ∧ w.f.length = v.f.length ∧ w.t.length = v.t.length ∧
  w.cg0.length = v.cg0.length ∧ w.cg1.length = v.cg1.length ∧
  w.cg2.length = v.cg2.length ∧ w.cg3.length = v.cg3.length

end wellformed

/-! ## Correspondence of a run of the code with the values -/

section correspondence

variable {K : Type} [Field K] [DecidableEq K]

/-- What the simulation of `cycle` on the range `lvl :: rest` says. -/
def CycleSim (prm : params) (lvl : Instance K) (rest : List (Instance K)) : Prop :=
  ∀ (swap : Bool) (w : Workspace K) (ws : List (Workspace K)) (rhs x : List K),
    w.t.length = lvl.A.rows → workspaces_ok rest ws →
    rhs.length = lvl.A.rows → x.length = lvl.A.rows →
    Sim (fun (r : Workspace K × List (Workspace K) × List K) =>
        r.1.only_t w ∧ List.Forall₂ Workspace.same_shape r.2.1 ws ∧
        r.2.2.length = lvl.A.rows) (fun r => r.2.2)
      (cycle prm swap (lvl :: rest) w ws rhs x)
      (cycle_val prm (lvl :: rest) (ws.map Workspace.kflag) rhs x)

/-- What the simulation of `kcycle` on the range `lvl :: rest` says. -/
def KcycleSim (prm : params) (lvl : Instance K) (rest : List (Instance K)) : Prop :=
  ∀ (w : Workspace K) (ws : List (Workspace K)) (rhs x : List K),
    w.t.length = lvl.A.rows → w.cg_ok lvl.A.rows → workspaces_ok rest ws →
    rhs.length = lvl.A.rows → x.length = lvl.A.rows →
    Sim (fun (r : Workspace K × List (Workspace K) × List K) =>
        r.1.same_shape w ∧ List.Forall₂ Workspace.same_shape r.2.1 ws ∧
        r.2.2.length = lvl.A.rows) (fun r => r.2.2)
      (kcycle prm (lvl :: rest) w ws rhs x)
      (kcycle_val prm (lvl :: rest) (ws.map Workspace.kflag) rhs x)

/-- No row of a level that is relaxed (every level but the last) has a stored diagonal
value of zero, so that every division of `relax` has a value. -/
def relax_defined : List (Instance K) → Prop
  | [] => True
  | [_] => True
  | lvl :: nxt :: rest => (∀ i < lvl.A.rows, diag lvl.A i ≠ 0) ∧ relax_defined (nxt :: rest)

end correspondence

/-! ## Diagonal dominance -/

section dominance

variable {K : Type} [LinearOrderedField K]

/-- The sum of `|A.val[j]|` over the stored entries `j` of row `i` off the diagonal. -/
def row_offdiag_abs (A : matrix K) (i : Nat) : K :=
  (((row_entries A i).filter (fun j => A.col.getD j 0 ≠ i)).map
    (fun j => |A.val.getD j 0|)).sum

/-- The sum of `|A.val[j]|` over the stored entries `j` of column `k` off the diagonal,
in the rows `i < A.rows`. -/
def col_offdiag_abs (A : matrix K) (k : Nat) : K :=
  ((List.range A.rows).map (fun i =>
    (((row_entries A i).filter (fun j => A.col.getD j 0 = k ∧ A.col.getD j 0 ≠ i)).map
      (fun j => |A.val.getD j 0|)).sum)).sum

/-- Every row `i < A.rows` has a stored entry of column `i`. -/
def has_diagonal (A : matrix K) : Prop :=
  ∀ i < A.rows, ∃ j ∈ row_entries A i, A.col.getD j 0 = i

/-- The matrix is (row-)diagonally dominant: in every row the off-diagonal entries sum,
in absolute value, to at most the absolute value of the diagonal `relax` divides by. -/
def row_dominant (A : matrix K) : Prop :=
  ∀ i < A.rows, row_offdiag_abs A i ≤ |diag A i|

/-- Every row `i < A.rows` has exactly one stored entry of column `i`, and its value
is `d`. -/
def one_diagonal (A : matrix K) (d : K) : Prop :=
  ∀ i < A.rows, ∃ j ∈ row_entries A i, A.col.getD j 0 = i ∧ A.val.getD j 0 = d ∧
    ∀ j' ∈ row_entries A i, A.col.getD j' 0 = i → j' = j

/-- The matrix is column-diagonally dominant with respect to the diagonal value `d`. -/
def col_dominant (A : matrix K) (d : K) : Prop :=
  ∀ k < A.rows, col_offdiag_abs A k ≤ |d|

end dominance

/-! ## Concrete inputs -/

section inputs

/-- The 2 x 2 matrix with rows `(2, -1)` and `(0, 3)`. -/
def exM : matrix ℚ := ⟨2, [0, 2, 3], [0, 1, 1], [2, -1, 3]⟩

/-- A matrix without rows. -/
def exE : matrix ℚ := ⟨0, [0], [], []⟩

/-- A coarsest level with `A = Ai = exM`. -/
def exL : Instance ℚ := ⟨exM, exE, exE, exM⟩

/-- A workspace for a level of two unknowns, without K-cycle vectors. -/
def exW : Workspace ℚ := ⟨[0, 0], [0, 0], [0, 0], [], [], [], []⟩

/-- The fine operator of a two-level example: rows `(2, -1)` and `(-1, 2)`. -/
def exA : matrix ℚ := ⟨2, [0, 2, 4], [0, 1, 0, 1], [2, -1, -1, 2]⟩

/-- The prolongation of the two-level example: both fine unknowns copy the coarse one. -/
def exP : matrix ℚ := ⟨2, [0, 1, 2], [0, 0], [1, 1]⟩

/-- The restriction of the two-level example: the coarse unknown sums the fine ones. -/
def exR : matrix ℚ := ⟨1, [0, 2], [0, 1], [1, 1]⟩

/-- The coarse operator `(2)` of the two-level example. -/
def exAc : matrix ℚ := ⟨1, [0, 1], [0], [2]⟩

/-- The inverse `(1/2)` of the coarse operator. -/
def exAci : matrix ℚ := ⟨1, [0, 1], [0], [1 / 2]⟩

/-- The fine level of the two-level example. -/
def exF : Instance ℚ := ⟨exA, exP, exR, exE⟩

/-- The coarse level of the two-level example. -/
def exC : Instance ℚ := ⟨exAc, exE, exE, exAci⟩

/-- A workspace for the fine level with K-cycle vectors. -/
def exWF : Workspace ℚ := ⟨[], [], [0, 0], [0, 0], [0, 0], [0, 0], [0, 0]⟩

/-- A workspace for the coarse level. -/
def exWC : Workspace ℚ := ⟨[0], [0], [0], [], [], [], []⟩

/-- A 2 x 2 matrix with rows `(0, 5)` and `(0, 3)`: row 0 has no diagonal entry. -/
def exN : matrix ℚ := ⟨2, [0, 1, 2], [1, 1], [5, 3]⟩

/-- A level whose operator is `exN`. -/
def exLN : Instance ℚ := ⟨exN, exE, exE, exE⟩

/-- The 1 x 1 identity matrix. -/
def exI : matrix ℚ := ⟨1, [0, 1], [0], [1]⟩

/-- The 1 x 1 matrix with a stored zero. -/
def exZ : matrix ℚ := ⟨1, [0, 1], [0], [0]⟩

/-- A level of one unknown with `A = P = R = (1)`. -/
def exT : Instance ℚ := ⟨exI, exI, exI, exE⟩

/-- A coarsest level of one unknown with `A = Ai = (1)`. -/
def exTc : Instance ℚ := ⟨exI, exE, exE, exI⟩

/-- A level of one unknown with `A = (0)` and `P = R = (1)`. -/
def exTz : Instance ℚ := ⟨exZ, exI, exI, exE⟩

/-- A coarsest level with `A = (2)` and `Ai = (1)`, which is not the inverse of `A`. -/
def exTw : Instance ℚ := ⟨exAc, exE, exE, exI⟩

/-- A workspace for a level of one unknown with K-cycle vectors. -/
def exWK : Workspace ℚ := ⟨[0], [0], [0], [0], [0], [0], [0]⟩

/-- The real 2 x 2 matrix with rows `(24, 0)` and `(65, 72)`: strictly diagonally
dominant by rows, with a diagonal entry in every row. -/
def exDr : matrix ℝ := ⟨2, [0, 1, 3], [0, 0, 1], [24, 65, 72]⟩

/-- A real matrix without rows. -/
def exEr : matrix ℝ := ⟨0, [0], [], []⟩

/-- A level whose operator is `exDr`. -/
def exLr : Instance ℝ := ⟨exDr, exEr, exEr, exEr⟩

/-- The real 2 x 2 matrix with rows `(2, -1)` and `(-1, 2)`. -/
def exSr : matrix ℝ := ⟨2, [0, 2, 4], [0, 1, 0, 1], [2, -1, -1, 2]⟩

/-- A level whose operator is `exSr`. -/
def exLs : Instance ℝ := ⟨exSr, exEr, exEr, exEr⟩

/-- A real workspace for a level of two unknowns. -/
def exWr : Workspace ℝ := ⟨[], [], [0, 0], [], [], [], []⟩

end inputs

/-! ## The result `x` of a call -/

section projections

variable {K : Type}

/-- The contents of `x` after a call of `cycle` or `kcycle`, or the fault of the call. -/
def x_of (r : Except Fault (Workspace K × List (Workspace K) × List K)) :
    Except Fault (List K) :=
  (fun s => s.2.2) <$> r

end projections

section calls

variable {K : Type} [Field K] [DecidableEq K]

/-- The call of `cycle` or `kcycle` that `cycle` makes on `[next, end)`, as a function
of the right-hand side and the initial guess. -/
def sub_call (prm : params) (nxt : Instance K) (rest : List (Instance K))
    (wn : Workspace K) (ws : List (Workspace K)) (f u : List K) : Except Fault (List K) :=
  x_of (if wn.cg0.isEmpty then cycle prm true (nxt :: rest) wn ws f u
    else kcycle prm (nxt :: rest) wn ws f u)

/-- The K-cycle as the specification words its step 2a: `s` is computed by the plain
or accelerated cycle one level down, on the range `[next, end)`. -/
def kcycle_one_level_down (prm : params) (lvl nxt : Instance K) (rest : List (Instance K))
    (wn : Workspace K) (ws : List (Workspace K)) (rhs x : List K) : Except Fault (List K) :=
  kcycle_with (fun r => sub_call prm nxt rest wn ws r (List.replicate lvl.A.rows 0))
    lvl.A rhs x

end calls

/-! ## Construction, `size` and `nonzeros` -/

section construction

variable {K : Type} [Field K]

/-- The constructor `instance(a, p, r, prm, nlevel)` of an interior level. The matrices
are moved into `A`, `P` and `R`; `Ai` is default-constructed, and `dflt` is that matrix
(the class `sparse::matrix` is declared outside this file). A vector that is not resized
stays empty, and `resize(A.rows)` of an empty vector gives `A.rows` zeros. -/
def instance_interior (dflt a p r : matrix K) (prm : params) (nlevel : Nat) :
    Instance K × Workspace K :=
  let z : List K := List.replicate a.rows 0
  if nlevel ≠ 0 then
    if prm.kcycle ≠ 0 ∧ nlevel % prm.kcycle = 0 then
      (⟨a, p, r, dflt⟩, ⟨z, z, z, z, z, z, z⟩)
    else
      (⟨a, p, r, dflt⟩, ⟨z, z, z, [], [], [], []⟩)
  else
    (⟨a, p, r, dflt⟩, ⟨[], [], z, [], [], [], []⟩)

/-- The constructor `instance(a, ai, prm, nlevel)` of the coarsest level: `u`, `f` and
`t` are built with `A.rows` zeros, `P`, `R` and `cg` are default-constructed. -/
def instance_coarsest (dflt a ai : matrix K) (_prm : params) (_nlevel : Nat) :
    Instance K × Workspace K :=
  let z : List K := List.replicate a.rows 0
  (⟨a, dflt, dflt, ai⟩, ⟨z, z, z, [], [], [], []⟩)

/-- The member function `size()`: the length of `t`. -/
def Workspace.size (w : Workspace K) : Nat := w.t.length

end construction

/-! ## What holds of every result of a run -/

section post

variable {K : Type}

/-- Every result of the run `c` satisfies `Q`; nothing is said of a run that stops with
a fault. -/
def Post {σ : Type} (Q : σ → Prop) (c : Except Fault σ) : Prop :=
  ∀ s, c = Except.ok s → Q s

/-- The lengths that the constructors give to the vectors `relax` may exchange with `t`,
for a level of `n` unknowns: `t` has `n` entries, `u` and `cg[1]` have `n` entries or
none. -/
def Workspace.sized (w : Workspace K) (n : Nat) : Prop :=
  w.t.length = n ∧ (w.u.length = n ∨ w.u.length = 0) ∧ (w.cg1.length = n ∨ w.cg1.length = 0)

/-- The workspace `w` of the level `l` is `sized` for the operator of the level. -/
def sized_for (l : Instance K) (w : Workspace K) : Prop := w.sized l.A.rows

end post

section calls_on_hierarchy

variable {K : Type} [Field K] [DecidableEq K]

/-- Modelled from the spec: `sparse::matrix_nonzeros` of `amgcl/spmat.hpp`, which is not
among the sources; the data model of the specification has `nonzeros = row[rows]`. -/
def matrix_nonzeros (M : matrix K) : Except Fault Nat := rd M.row M.rows

/-- The member function `nonzeros()`: `sparse::matrix_nonzeros(A)`. -/
def nonzeros (lvl : Instance K) : Except Fault Nat := matrix_nonzeros lvl.A

/-- The level `l` with the workspace `w` is what one of the two constructors returns for
the operator `l.A`, at some position and for some parameters. -/
def built (l : Instance K) (w : Workspace K) : Prop :=
  (∃ (dflt p r : matrix K) (prm : params) (nlevel : Nat),
    (l, w) = instance_interior dflt l.A p r prm nlevel) ∨
  (∃ (dflt ai : matrix K) (prm : params) (nlevel : Nat),
    (l, w) = instance_coarsest dflt l.A ai prm nlevel)

/-- A call made on a hierarchy of levels: `relax` on the level of index `k`, or `cycle`
or `kcycle` on the range that starts at the level of index `k` and ends with the
hierarchy. -/
inductive Call (K : Type) where
  | relax (k : Nat) (swap : Bool) (rhs x : List K)
  | cycle (k : Nat) (prm : params) (swap : Bool) (rhs x : List K)
  | kcycle (k : Nat) (prm : params) (rhs x : List K)

/-- The index of the level the call is made on. -/
def Call.level : Call K → Nat
  | Call.relax k _ _ _ => k
  | Call.cycle k _ _ _ _ => k
  | Call.kcycle k _ _ _ => k

/-- The right-hand side of the call. -/
def Call.rhs : Call K → List K
  | Call.relax _ _ rhs _ => rhs
  | Call.cycle _ _ _ rhs _ => rhs
  | Call.kcycle _ _ rhs _ => rhs

/-- The vector `x` of the call. -/
def Call.x : Call K → List K
  | Call.relax _ _ _ x => x
  | Call.cycle _ _ _ _ x => x
  | Call.kcycle _ _ _ x => x

/-- The call is made on a level of the hierarchy `lv`, with an `rhs` and an `x` of as
many entries as the operator of that level has rows. -/
def Call.fits (lv : List (Instance K)) (c : Call K) : Prop :=
  match lv.drop c.level with
  | lvl :: _ => c.rhs.length = lvl.A.rows ∧ c.x.length = lvl.A.rows
  | [] => False

end calls_on_hierarchy

section two_runs

/-- Two runs correspond: both return, with results related by `R`, or both stop with the
same fault. -/
def RelE {σ τ : Type} (R : σ → τ → Prop) (c : Except Fault σ) (d : Except Fault τ) : Prop :=
  match c, d with
  | Except.ok s, Except.ok t => R s t
  | Except.error e, Except.error e' => e = e'
  | _, _ => False

end two_runs

section linear_maps

variable {K : Type} [Field K] [DecidableEq K]

/-- The vector `a * x + y` of `n` entries. -/
def axpy (n : Nat) (a : K) (x y : List K) : List K :=
  vec n fun i => a * x.getD i 0 + y.getD i 0

/-- The function `G` of a right-hand side and an initial guess of `n` entries each is
linear where it returns: if it returns `y1` for `(r1, x1)` and `y2` for `(r2, x2)`, then
it returns `a * y1 + y2` for `(a * r1 + r2, a * x1 + x2)`; its results have `n` entries. -/
def linear_on (n : Nat) (G : List K → List K → Except Fault (List K)) : Prop :=
  ∀ (a : K) (r1 r2 x1 x2 y1 y2 : List K),
    r1.length = n → r2.length = n → x1.length = n → x2.length = n →
    G r1 x1 = Except.ok y1 → G r2 x2 = Except.ok y2 →
    y1.length = n ∧ y2.length = n ∧
      G (axpy n a r1 r2) (axpy n a x1 x2) = Except.ok (axpy n a y1 y2)

end linear_maps

/-! ## The code with the quotient as a parameter -/

section code_on

variable {K : Type} [Field K] [DecidableEq K]

/-- A quotient that has a value whatever the divisor is, as the floating-point `a / b`
of the code has: `q a 0` is that value. A run with this quotient goes on after a zero
divisor, as the code does. -/
def tdiv (q : K → K → K) (a b : K) : Except Fault K := Except.ok (q a b)

/-- The body of the row loop of `relax` with the quotient `dv` for `temp / diag`. -/
def relax_row_on (dv : K → K → Except Fault K) (A : matrix K) (rhs x : List K) (i : Nat) :
    Except Fault K := do
  let temp ← rd rhs i
  let b ← rd A.row i
  let e ← rd A.row (i + 1)
  let td ← (List.range' b (e - b)).foldlM (fun (td : K × K) j => do
    let c ← rd A.col j
    let v ← rd A.val j
    let xc ← rd x c
    pure (td.1 - v * xc, if c = i then v else td.2)) (temp, 1)
  let xi ← rd x i
  let q ← dv td.1 td.2
  pure (xi + 0.72 * q)

/-- The function `relax(rhs, x)` with the quotient `dv`. -/
def relax_on (dv : K → K → Except Fault K) (lvl : Instance K) (w : Workspace K) (swap : Bool)
    (rhs x : List K) : Except Fault (Workspace K × List K) := do
  let t ← fill_rows lvl.A.rows (relax_row_on dv lvl.A rhs x) w.t
  let tx ← vector_copy swap t x
  pure ({ w with t := tx.1 }, tx.2)

/-- The statements of `cycle` on a range of two or more levels (the branch
`if (nxt != end)`), with the quotient `dv`: `callC` is the call `cycle(nxt, end, ...)` of
line 172 and `callK` the call `kcycle(nxt, end, ...)` of line 174. -/
def cycle_body (dv : K → K → Except Fault K) (prm : params) (swap : Bool) (lvl nxt : Instance K)
    (callC callK : Workspace K → List (Workspace K) → List K → List K →
      Except Fault (Workspace K × List (Workspace K) × List K))
    (w : Workspace K) (ws : List (Workspace K)) (rhs x : List K) :
    Except Fault (Workspace K × List (Workspace K) × List K) :=
  times prm.ncycle (fun (st : Workspace K × List (Workspace K) × List K) => do
    match st.2.1 with
    | wn :: ws =>
      let wx ← times prm.npre (fun wx => relax_on dv lvl wx.1 swap rhs wx.2) (st.1, st.2.2)
      let t ← fill_rows lvl.A.rows (row_res lvl.A rhs wx.2) wx.1.t
      let f ← fill_rows nxt.A.rows (row_dot lvl.R t) wn.f
      let u := List.replicate wn.u.length (0 : K)
      let sub ← if wn.cg0.isEmpty
        then callC { wn with f := f, u := u } ws f u
        else callK { wn with f := f, u := u } ws f u
      let x ← add_rows lvl.A.rows (row_dot lvl.P sub.2.2) wx.2
      let wx ← times prm.npost (fun wx => relax_on dv lvl wx.1 swap rhs wx.2)
        ({ wx.1 with t := t }, x)
      pure (wx.1, { sub.1 with u := sub.2.2 } :: sub.2.1, wx.2)
    | [] => throw Fault.index) (w, ws, x)

/-- The statements of `kcycle` on a range of two or more levels, with the quotient `dv`:
`call` is the call `cycle(lvl, end, prm, r, s)` of line 218. What `call` does with the
levels below is handed through as a value of any type `ρ`. -/
def kcycle_body {ρ : Type} (dv : K → K → Except Fault K) (lvl : Instance K)
    (call : Workspace K → ρ → List K → List K → Except Fault (Workspace K × ρ × List K))
    (w : Workspace K) (ws : ρ) (rhs x : List K) : Except Fault (Workspace K × ρ × List K) := do
  let n := lvl.A.rows
  let r ← copy_n n rhs w.cg0
  let st ← [0, 1].foldlM (fun (st : (Workspace K × ρ × List K) × K) iter => do
    let w := st.1.1
    let s ← fill_n n (0 : K) w.cg1
    let sub ← call { w with cg1 := s } st.1.2.1 w.cg0 s
    let w := sub.1
    let s := sub.2.2
    let rho2 := st.2
    let rho1 ← inner_prod lvl w.cg0 s
    let p ← if iter ≠ 0 then do
        let beta ← dv rho1 rho2
        transform n (fun pp ss => ss + beta * pp) w.cg2 s
      else copy_n n s w.cg2
    let q ← fill_rows n (row_dot lvl.A p) w.cg3
    let qp ← inner_prod lvl q p
    let alpha ← dv rho1 qp
    let x ← transform n (fun xx pp => xx + alpha * pp) st.1.2.2 p
    let r ← transform n (fun rr qq => rr - alpha * qq) w.cg0 q
    pure (({ w with cg0 := r, cg1 := s, cg2 := p, cg3 := q }, sub.2.1, x), rho1))
    (({ w with cg0 := r }, ws, x), (0 : K))
  pure st.1

mutual

/-- The function `cycle(lvl, end, prm, rhs, x)` with the quotient `dv`. -/
def cycle_on (dv : K → K → Except Fault K) (prm : params) (swap : Bool) :
    List (Instance K) → Workspace K → List (Workspace K) →
    List K → List K → Except Fault (Workspace K × List (Workspace K) × List K)
  | lvl :: nxt :: rest, w, ws, rhs, x =>
    cycle_body dv prm swap lvl nxt (cycle_on dv prm true (nxt :: rest))
      (kcycle_on dv prm (nxt :: rest)) w ws rhs x
  | [lvl], w, ws, rhs, x => do
    let x ← solve lvl rhs x
    pure (w, ws, x)
  | [], _, _, _, _ => throw Fault.index
termination_by lv => (lv.length, 0)

/-- The function `kcycle(lvl, end, prm, rhs, x)` with the quotient `dv`. -/
def kcycle_on (dv : K → K → Except Fault K) (prm : params) :
    List (Instance K) → Workspace K → List (Workspace K) →
    List K → List K → Except Fault (Workspace K × List (Workspace K) × List K)
  | lvl :: nxt :: rest, w, ws, rhs, x =>
    kcycle_body dv lvl (cycle_on dv prm true (lvl :: nxt :: rest)) w ws rhs x
  | [lvl], w, ws, rhs, x => do
    let x ← solve lvl rhs x
    pure (w, ws, x)
  | [], _, _, _, _ => throw Fault.index
termination_by lv => (lv.length, 1)

end

end code_on

/-! ## The calls of `cycle` and `kcycle` -/

section call_graph

variable {K : Type}

/-- The two solve functions. -/
inductive Solver where
  | cycle
  | kcycle
  deriving DecidableEq, Repr

/-- An invocation of a solve function: the function and the range `[lvl, end)` it is
called on. -/
structure Invocation (K : Type) where
  solver : Solver
  range : List (Instance K)

/-- The result of an invocation as a function of the arguments that are not the range:
the overload of `vector_copy` (which `kcycle` does not read), the workspaces, `rhs` and
`x`. -/
def Run (K : Type) : Type :=
  Bool → Workspace K → List (Workspace K) → List K → List K →
    Except Fault (Workspace K × List (Workspace K) × List K)

/-- The invocations that the body of an invocation makes: `cycle` on two or more levels
calls `cycle` (line 172) or `kcycle` (line 174) on `[nxt, end)`; `kcycle` on two or more
levels calls `cycle` on its own range (line 218); on one level neither calls. -/
def callees : Invocation K → List (Invocation K)
  | ⟨Solver.cycle, _ :: nxt :: rest⟩ =>
    [⟨Solver.cycle, nxt :: rest⟩, ⟨Solver.kcycle, nxt :: rest⟩]
  | ⟨Solver.kcycle, lvl :: nxt :: rest⟩ => [⟨Solver.cycle, lvl :: nxt :: rest⟩]
  | _ => []

/-- The measure of an invocation: the number of levels of its range, then `kcycle`
before `cycle`. -/
def solve_measure (d : Invocation K) : Nat × Nat :=
  (d.range.length, match d.solver with
    | Solver.cycle => 0
    | Solver.kcycle => 1)

end call_graph

section call_graph_code

variable {K : Type} [Field K] [DecidableEq K]

/-- The body of the invocation `d`, with the quotient `dv`: what it returns, given for
each invocation of `callees d`, and for no other, what that invocation returns. -/
def solve_body (dv : K → K → Except Fault K) (prm : params) :
    (d : Invocation K) → ((c : Invocation K) → c ∈ callees d → Run K) → Run K
  | ⟨Solver.cycle, lvl :: nxt :: rest⟩, call => fun swap =>
    cycle_body dv prm swap lvl nxt
      (call ⟨Solver.cycle, nxt :: rest⟩ (List.mem_cons_self _ _) true)
      (call ⟨Solver.kcycle, nxt :: rest⟩ (List.mem_cons_of_mem _ (List.mem_cons_self _ _)) true)
  | ⟨Solver.kcycle, lvl :: nxt :: rest⟩, call => fun _ =>
    kcycle_body dv lvl (call ⟨Solver.cycle, lvl :: nxt :: rest⟩ (List.mem_cons_self _ _) true)
  | ⟨_, [lvl]⟩, _ => fun _ w ws rhs x => do
    let x ← solve lvl rhs x
    pure (w, ws, x)
  | ⟨_, []⟩, _ => fun _ _ _ _ _ => throw Fault.index

/-- The invocation `d` of the code: `cycle` or `kcycle` on the range of `d`. -/
def invoke (prm : params) : Invocation K → Run K
  | ⟨Solver.cycle, lv⟩ => fun swap => cycle prm swap lv
  | ⟨Solver.kcycle, lv⟩ => fun _ => kcycle prm lv

/-- The invocation `d` of the code with the quotient `dv`. -/
def invoke_on (dv : K → K → Except Fault K) (prm : params) : Invocation K → Run K
  | ⟨Solver.cycle, lv⟩ => fun swap => cycle_on dv prm swap lv
  | ⟨Solver.kcycle, lv⟩ => fun _ => kcycle_on dv prm lv

/-- The callee `call` with a counter of its applications: the counter is handed through
with the state of the levels below, and every application adds one to it. -/
def counted {ρ : Type}
    (call : Workspace K → ρ → List K → List K → Except Fault (Workspace K × ρ × List K))
    (w : Workspace K) (s : ρ × Nat) (rhs x : List K) :
    Except Fault (Workspace K × (ρ × Nat) × List K) :=
  (fun r => (r.1, (r.2.1, s.2 + 1), r.2.2)) <$> call w s.1 rhs x

end call_graph_code

section lengths_kept

variable {K : Type}

/-- What a call like that of `cycle`, on a range whose first level has `n` unknowns and
whose other levels are `rest`, keeps of the lengths of the vectors when it returns. -/
def CycleLen (n : Nat) (rest : List (Instance K))
    (call : Workspace K → List (Workspace K) → List K → List K →
      Except Fault (Workspace K × List (Workspace K) × List K)) : Prop :=
  ∀ (w : Workspace K) (ws : List (Workspace K)) (rhs x : List K),
    w.t.length = n → List.Forall₂ sized_for rest ws →
    (x.length = n ∨ x.length = 0) →
    Post (fun (r : Workspace K × List (Workspace K) × List K) =>
        r.1.only_t w ∧ List.Forall₂ Workspace.same_shape r.2.1 ws ∧
        r.2.2.length = x.length)
      (call w ws rhs x)

/-- What a call like that of `kcycle`, on a range whose first level has `n` unknowns and
whose other levels are `rest`, keeps of the lengths of the vectors when it returns. -/
def KcycleLen (n : Nat) (rest : List (Instance K))
    (call : Workspace K → List (Workspace K) → List K → List K →
      Except Fault (Workspace K × List (Workspace K) × List K)) : Prop :=
  ∀ (w : Workspace K) (ws : List (Workspace K)) (rhs x : List K),
    w.sized n → List.Forall₂ sized_for rest ws →
    Post (fun (r : Workspace K × List (Workspace K) × List K) =>
        r.1.same_shape w ∧ List.Forall₂ Workspace.same_shape r.2.1 ws ∧
        r.2.2.length = x.length)
      (call w ws rhs x)

end lengths_kept

section returning_runs

variable {K : Type}

/-- The run `c` returns, and its result satisfies `Q`. -/
def Returns {σ : Type} (Q : σ → Prop) (c : Except Fault σ) : Prop :=
  ∃ s, c = Except.ok s ∧ Q s

/-- A call like that of `cycle` on the range `lvl :: rest` returns, whenever `t`, `rhs`
and `x` have `A.rows` entries and the workspaces of `rest` fit their levels; it keeps the
lengths. -/
def CycleRet (lvl : Instance K) (rest : List (Instance K))
    (call : Workspace K → List (Workspace K) → List K → List K →
      Except Fault (Workspace K × List (Workspace K) × List K)) : Prop :=
  ∀ (w : Workspace K) (ws : List (Workspace K)) (rhs x : List K),
    w.t.length = lvl.A.rows → workspaces_ok rest ws →
    rhs.length = lvl.A.rows → x.length = lvl.A.rows →
    Returns (fun (r : Workspace K × List (Workspace K) × List K) =>
        r.1.only_t w ∧ List.Forall₂ Workspace.same_shape r.2.1 ws ∧
        r.2.2.length = lvl.A.rows)
      (call w ws rhs x)

/-- A call like that of `kcycle` on the range `lvl :: rest` returns, whenever the four
`cg` vectors of the level, `rhs` and `x` have `A.rows` entries and the workspaces of
`rest` fit their levels; it keeps the lengths. -/
def KcycleRet (lvl : Instance K) (rest : List (Instance K))
    (call : Workspace K → List (Workspace K) → List K → List K →
      Except Fault (Workspace K × List (Workspace K) × List K)) : Prop :=
  ∀ (w : Workspace K) (ws : List (Workspace K)) (rhs x : List K),
    w.t.length = lvl.A.rows → w.cg_ok lvl.A.rows → workspaces_ok rest ws →
    rhs.length = lvl.A.rows → x.length = lvl.A.rows →
    Returns (fun (r : Workspace K × List (Workspace K) × List K) =>
        r.1.same_shape w ∧ List.Forall₂ Workspace.same_shape r.2.1 ws ∧
        r.2.2.length = lvl.A.rows)
      (call w ws rhs x)

end returning_runs

section calls_run

variable {K : Type} [Field K] [DecidableEq K]

/-- The workspaces of the hierarchy `lv` after the call `c`, made when they are `ws`, with
the quotient `dv`. -/
def Call.run_on (dv : K → K → Except Fault K) (lv : List (Instance K))
    (ws : List (Workspace K)) : Call K → Except Fault (List (Workspace K))
  | Call.relax k swap rhs x =>
    match lv.drop k, ws.drop k with
    | lvl :: _, w :: post => do
      let r ← relax_on dv lvl w swap rhs x
      pure (ws.take k ++ r.1 :: post)
    | _, _ => throw Fault.index
  | Call.cycle k prm swap rhs x =>
    match lv.drop k, ws.drop k with
    | lvl :: rest, w :: post => do
      let r ← cycle_on dv prm swap (lvl :: rest) w post rhs x
      pure (ws.take k ++ r.1 :: r.2.1)
    | _, _ => throw Fault.index
  | Call.kcycle k prm rhs x =>
    match lv.drop k, ws.drop k with
    | lvl :: rest, w :: post => do
      let r ← kcycle_on dv prm (lvl :: rest) w post rhs x
      pure (ws.take k ++ r.1 :: r.2.1)
    | _, _ => throw Fault.index

/-- The workspaces of the hierarchy `lv` after the calls `cs`, made one after the other,
with the quotient `dv`. -/
def run_calls_on (dv : K → K → Except Fault K) (lv : List (Instance K)) :
    List (Call K) → List (Workspace K) → Except Fault (List (Workspace K))
  | [], ws => pure ws
  | c :: cs, ws => c.run_on dv lv ws >>= run_calls_on dv lv cs

end calls_run

section calls_safe

variable {K : Type} [Field K] [DecidableEq K]

/-- A call of `kcycle` is made on a level that has its four `cg` vectors, or on the last
level of the hierarchy; `relax` and `cycle` may be called on any level. -/
def Call.safe (lv : List (Instance K)) (ws : List (Workspace K)) : Call K → Prop
  | Call.kcycle k _ _ _ =>
    match lv.drop k, ws.drop k with
    | lvl :: rest, w :: _ => rest = [] ∨ w.cg_ok lvl.A.rows
    | _, _ => False
  | _ => True

end calls_safe

section faults

/-- The run `c` returns or stops at an access outside an array: it does not stop at a
division. -/
def index_only {σ : Type} (c : Except Fault σ) : Prop :=
  ∀ e, c = Except.error e → e = Fault.index

end faults

section call_depth

variable {K : Type} [Field K] [DecidableEq K]

/-- The invocation `d` run with calls nested at most `n` deep, with the quotient `dv`:
the body of `d` applied to what its callees return with calls nested at most `n - 1` deep.
It is `none` when the nesting allowed is used up before every call has returned. -/
def solve_fuel (dv : K → K → Except Fault K) (prm : params) :
    Nat → (d : Invocation K) → Option (Run K)
  | 0, _ => none
  | n + 1, d =>
    if h : ∀ c ∈ callees d, (solve_fuel dv prm n c).isSome = true then
      some (solve_body dv prm d (fun c hc => (solve_fuel dv prm n c).get (h c hc)))
    else none

end call_depth

/-! ## Reads, writes and loops -/

section loops

variable {K : Type} [Field K] [DecidableEq K]

@[simp] theorem bind_ok {α β : Type} (a : α) (f : α → Except Fault β) :
    (Except.ok a >>= f) = f a := rfl

@[simp] theorem bind_error {α β : Type} (e : Fault) (f : α → Except Fault β) :
    ((Except.error e : Except Fault α) >>= f) = Except.error e := rfl

@[simp] theorem pure_eq_ok {α : Type} (a : α) : (pure a : Except Fault α) = Except.ok a := rfl

@[simp] theorem map_ok {α β : Type} (f : α → β) (a : α) :
    (f <$> (Except.ok a : Except Fault α)) = Except.ok (f a) := rfl

@[simp] theorem map_error {α β : Type} (f : α → β) (e : Fault) :
    (f <$> (Except.error e : Except Fault α)) = Except.error e := rfl

theorem rd_of_lt {α : Type} (xs : List α) (i : Nat) (d : α) (h : i < xs.length) :
    rd xs i = Except.ok (xs.getD i d) := by
  simp [rd, List.getD, List.getElem?_eq_getElem h]

theorem wr_of_lt {α : Type} (xs : List α) (i : Nat) (v : α) (h : i < xs.length) :
    wr xs i v = Except.ok (xs.set i v) := by
  simp [wr, h]

theorem fdiv_of_ne (a b : K) (h : b ≠ 0) : fdiv a b = Except.ok (a / b) := by
  simp [fdiv, h]

@[simp] theorem length_vec (n : Nat) (g : Nat → K) : (vec n g).length = n := by
  simp [vec]

@[simp] theorem getD_vec (n : Nat) (g : Nat → K) (i : Nat) (h : i < n) :
    (vec n g).getD i 0 = g i := by
  simp [vec, List.getD, List.getElem?_map, List.getElem?_range h]

theorem vec_congr (n : Nat) (g h : Nat → K) (e : ∀ i < n, g i = h i) : vec n g = vec n h := by
  apply List.map_congr_left
  intro i hi
  exact e i (List.mem_range.mp hi)

theorem vec_getD_self (n : Nat) (x : List K) (h : x.length = n) :
    vec n (fun i => x.getD i 0) = x := by
  apply List.ext_getElem
  · simp [h]
  · intro i h1 h2
    simp [vec, List.getD, List.getElem?_eq_getElem h2]

end loops

section loops2

variable {K : Type} [Field K] [DecidableEq K]

theorem fill_rows_aux {α : Type} (body : Nat → Except Fault α) (g : Nat → α) (buf : List α) :
    ∀ k, k ≤ buf.length → (∀ i < k, body i = Except.ok (g i)) →
      fill_rows k body buf = Except.ok ((List.range k).map g ++ buf.drop k) := by
  intro k
  induction k with
  | zero => intro _ _; simp [fill_rows]
  | succ k ih =>
    intro hk hb
    have ih1 := ih (by omega) (fun i hi => hb i (by omega))
    unfold fill_rows at ih1 ⊢
    rw [List.range_succ, List.foldlM_append, ih1]
    have hlen : k < ((List.range k).map g ++ buf.drop k).length := by
      simp; omega
    simp only [bind_ok, List.foldlM_cons, List.foldlM_nil, hb k (by omega)]
    rw [wr_of_lt _ _ _ hlen]
    simp only [bind_ok, pure_eq_ok]
    congr 1
    have hk' : k < buf.length := by omega
    rw [List.set_append_right _ _ (by simp)]
    simp only [List.length_map, List.length_range, Nat.sub_self, List.map_append, List.map_cons,
      List.map_nil, List.append_assoc, List.singleton_append]
    congr 1
    rw [List.drop_eq_getElem_cons hk', List.set_cons_zero]

theorem fill_rows_ok {α : Type} (n : Nat) (body : Nat → Except Fault α) (g : Nat → α)
    (buf : List α) (hlen : buf.length = n) (hb : ∀ i < n, body i = Except.ok (g i)) :
    fill_rows n body buf = Except.ok ((List.range n).map g) := by
  rw [fill_rows_aux body g buf n (by omega) hb, ← hlen]
  simp

theorem fill_rows_error {α : Type} (body : Nat → Except Fault α) (g : Nat → α) (e : Fault)
    (buf : List α) (k : Nat) (hg : ∀ i < k, body i = Except.ok (g i))
    (hk : body k = Except.error e) :
    ∀ n, k < n → n ≤ buf.length → fill_rows n body buf = Except.error e := by
  intro n
  induction n with
  | zero => intro h; omega
  | succ n ih =>
    intro hkn hn
    unfold fill_rows at ih ⊢
    rw [List.range_succ, List.foldlM_append]
    by_cases h : k < n
    · rw [ih h (by omega)]
      rfl
    · have hkn' : k = n := by omega
      subst hkn'
      have h1 := fill_rows_aux body g buf k (by omega) hg
      unfold fill_rows at h1
      rw [h1]
      simp [hk]

theorem add_rows_aux (body : Nat → Except Fault K) (g : Nat → K) (buf : List K) :
    ∀ k, k ≤ buf.length → (∀ i < k, body i = Except.ok (g i)) →
      add_rows k body buf =
        Except.ok ((List.range k).map (fun i => buf.getD i 0 + g i) ++ buf.drop k) := by
  intro k
  induction k with
  | zero => intro _ _; simp [add_rows]
  | succ k ih =>
    intro hk hb
    have ih1 := ih (by omega) (fun i hi => hb i (by omega))
    unfold add_rows at ih1 ⊢
    rw [List.range_succ, List.foldlM_append, ih1]
    have hk' : k < buf.length := by omega
    have hlen : k < ((List.range k).map (fun i => buf.getD i 0 + g i) ++ buf.drop k).length := by
      simp; omega
    simp only [bind_ok, List.foldlM_cons, List.foldlM_nil, hb k (by omega)]
    rw [rd_of_lt _ _ 0 hlen]
    simp only [bind_ok]
    rw [wr_of_lt _ _ _ hlen]
    simp only [bind_ok, pure_eq_ok]
    congr 1
    rw [List.set_append_right _ _ (by simp)]
    have hget : (List.map (fun i => buf.getD i 0 + g i) (List.range k) ++ List.drop k buf).getD k 0
        = buf.getD k 0 := by
      rw [List.getD_append_right _ _ _ _ (by simp)]
      simp [List.getD]
    rw [hget]
    simp only [List.length_map, List.length_range, Nat.sub_self, List.map_append, List.map_cons,
      List.map_nil, List.append_assoc, List.singleton_append]
    congr 1
    rw [List.drop_eq_getElem_cons hk', List.set_cons_zero]

theorem add_rows_ok (n : Nat) (body : Nat → Except Fault K) (g : Nat → K) (buf : List K)
    (hlen : buf.length = n) (hb : ∀ i < n, body i = Except.ok (g i)) :
    add_rows n body buf = Except.ok (vec n fun i => buf.getD i 0 + g i) := by
  rw [add_rows_aux body g buf n (by omega) hb, ← hlen]
  simp [vec]

theorem transform_aux (op : K → K → K) (a b : List K) :
    ∀ k, k ≤ a.length → k ≤ b.length →
      transform k op a b =
        Except.ok ((List.range k).map (fun i => op (a.getD i 0) (b.getD i 0)) ++ a.drop k) := by
  intro k
  induction k with
  | zero => intro _ _; simp [transform]
  | succ k ih =>
    intro hk hb
    have ih1 := ih (by omega) (by omega)
    unfold transform at ih1 ⊢
    rw [List.range_succ, List.foldlM_append, ih1]
    have hk' : k < a.length := by omega
    have hlen : k < ((List.range k).map (fun i => op (a.getD i 0) (b.getD i 0))
        ++ a.drop k).length := by
      simp; omega
    simp only [bind_ok, List.foldlM_cons, List.foldlM_nil]
    rw [rd_of_lt _ _ 0 hlen, rd_of_lt b k 0 (by omega)]
    simp only [bind_ok]
    rw [wr_of_lt _ _ _ hlen]
    simp only [bind_ok, pure_eq_ok]
    congr 1
    rw [List.set_append_right _ _ (by simp)]
    have hget : (List.map (fun i => op (a.getD i 0) (b.getD i 0)) (List.range k)
        ++ List.drop k a).getD k 0 = a.getD k 0 := by
      rw [List.getD_append_right _ _ _ _ (by simp)]
      simp [List.getD]
    rw [hget]
    simp only [List.length_map, List.length_range, Nat.sub_self, List.map_append, List.map_cons,
      List.map_nil, List.append_assoc, List.singleton_append]
    congr 1
    rw [List.drop_eq_getElem_cons hk', List.set_cons_zero]

theorem transform_ok (n : Nat) (op : K → K → K) (a b : List K)
    (ha : a.length = n) (hb : b.length = n) :
    transform n op a b = Except.ok (vec n fun i => op (a.getD i 0) (b.getD i 0)) := by
  rw [transform_aux op a b n (by omega) (by omega), ← ha]
  simp [vec]

end loops2

section rows

variable {K : Type} [Field K] [DecidableEq K]

theorem foldlM_pure {σ ι : Type} (l : List ι) (body : σ → ι → Except Fault σ)
    (step : σ → ι → σ) (h : ∀ s, ∀ j ∈ l, body s j = Except.ok (step s j)) (s0 : σ) :
    l.foldlM body s0 = Except.ok (l.foldl step s0) := by
  induction l generalizing s0 with
  | nil => rfl
  | cons a l ih =>
    rw [List.foldlM_cons, h s0 a (List.mem_cons_self _ _)]
    simp only [bind_ok, List.foldl_cons]
    exact ih (fun s j hj => h s j (List.mem_cons_of_mem _ hj)) _

theorem foldl_add (l : List Nat) (g : Nat → K) (init : K) :
    l.foldl (fun temp j => temp + g j) init = init + (l.map g).sum := by
  induction l generalizing init with
  | nil => simp
  | cons a l ih => simp [ih, add_assoc]

theorem foldl_sub (l : List Nat) (g : Nat → K) (init : K) :
    l.foldl (fun temp j => temp - g j) init = init - (l.map g).sum := by
  induction l generalizing init with
  | nil => simp
  | cons a l ih => simp [ih, sub_sub]

theorem foldl_pair (l : List Nat) (g : Nat → K) (c : Nat → Nat) (v : Nat → K) (i : Nat)
    (init : K × K) :
    l.foldl (fun (td : K × K) j => (td.1 - g j, if c j = i then v j else td.2)) init =
      (init.1 - (l.map g).sum, l.foldl (fun d j => if c j = i then v j else d) init.2) := by
  induction l generalizing init with
  | nil => simp
  | cons a l ih => simp [ih, sub_sub]

theorem row_ok_of_wf (M : matrix K) (m k i : Nat) (h : M.wf m k) (hi : i < m) :
    row_ok M k i := by
  obtain ⟨_, hlen, hmono, hbound, hcol⟩ := h
  refine ⟨by omega, ?_⟩
  intro j hj
  rw [List.mem_range'_1] at hj
  have hb := hbound (i + 1) (by omega)
  have hjc : j < M.col.length := by omega
  refine ⟨hjc, by omega, ?_⟩
  apply hcol
  rw [List.getD_eq_getElem _ _ hjc]
  exact List.getElem_mem _

theorem row_dot_ok (M : matrix K) (x : List K) (i : Nat) (h : row_ok M x.length i) :
    row_dot M x i = Except.ok (row_sum M x i) := by
  obtain ⟨hlen, hent⟩ := h
  unfold row_dot
  rw [rd_of_lt _ _ 0 (show i < M.row.length by omega), rd_of_lt _ _ 0 hlen]
  simp only [bind_ok]
  rw [foldlM_pure _ _ (fun temp j => temp + M.val.getD j 0 * x.getD (M.col.getD j 0) 0)]
  · rw [foldl_add]
    simp [row_sum, row_entries]
  · intro s j hj
    obtain ⟨h1, h2, h3⟩ := hent j hj
    rw [rd_of_lt _ _ 0 h2, rd_of_lt _ _ 0 h1]
    simp only [bind_ok]
    rw [rd_of_lt _ _ 0 h3]
    rfl

theorem row_res_ok (M : matrix K) (rhs x : List K) (i : Nat) (h : row_ok M x.length i)
    (hr : i < rhs.length) :
    row_res M rhs x i = Except.ok (rhs.getD i 0 - row_sum M x i) := by
  obtain ⟨hlen, hent⟩ := h
  unfold row_res
  rw [rd_of_lt _ _ 0 hr, rd_of_lt _ _ 0 (show i < M.row.length by omega), rd_of_lt _ _ 0 hlen]
  simp only [bind_ok]
  rw [foldlM_pure _ _ (fun temp j => temp - M.val.getD j 0 * x.getD (M.col.getD j 0) 0)]
  · rw [foldl_sub]
    simp [row_sum, row_entries]
  · intro s j hj
    obtain ⟨h1, h2, h3⟩ := hent j hj
    rw [rd_of_lt _ _ 0 h2, rd_of_lt _ _ 0 h1]
    simp only [bind_ok]
    rw [rd_of_lt _ _ 0 h3]
    rfl

theorem relax_row_eq (A : matrix K) (rhs x : List K) (i : Nat) (h : row_ok A x.length i)
    (hr : i < rhs.length) (hx : i < x.length) :
    relax_row A rhs x i =
      (fdiv (rhs.getD i 0 - row_sum A x i) (diag A i) >>= fun q =>
        Except.ok (x.getD i 0 + 0.72 * q)) := by
  obtain ⟨hlen, hent⟩ := h
  unfold relax_row
  rw [rd_of_lt _ _ 0 hr, rd_of_lt _ _ 0 (show i < A.row.length by omega), rd_of_lt _ _ 0 hlen]
  simp only [bind_ok]
  rw [foldlM_pure _ _ (fun (td : K × K) j =>
    (td.1 - A.val.getD j 0 * x.getD (A.col.getD j 0) 0,
      if A.col.getD j 0 = i then A.val.getD j 0 else td.2))]
  · rw [foldl_pair, rd_of_lt _ _ 0 hx]
    simp only [bind_ok, pure_eq_ok]
    rfl
  · intro s j hj
    obtain ⟨h1, h2, h3⟩ := hent j hj
    rw [rd_of_lt _ _ 0 h1, rd_of_lt _ _ 0 h2]
    simp only [bind_ok]
    rw [rd_of_lt _ _ 0 h3]
    rfl

theorem inner_prod_ok (lvl : Instance K) (x y : List K) (hx : lvl.A.rows ≤ x.length)
    (hy : lvl.A.rows ≤ y.length) :
    inner_prod lvl x y = Except.ok (dot lvl.A.rows x y) := by
  unfold inner_prod
  rw [foldlM_pure _ _ (fun sum i => sum + x.getD i 0 * y.getD i 0)]
  · rw [foldl_add]
    simp [dot]
  · intro s j hj
    rw [List.mem_range] at hj
    rw [rd_of_lt _ _ 0 (show j < x.length by omega), rd_of_lt _ _ 0 (show j < y.length by omega)]
    rfl

end rows

/-! ## The code computes the values `relax_val`, `cycle_val` and `kcycle_val` -/

section simulation

variable {K : Type} [Field K] [DecidableEq K]

theorem sim_ok {σ τ : Type} {Inv : σ → Prop} {proj : σ → τ} {c : Except Fault σ}
    {v : Except Fault τ} (s : σ) (hc : c = Except.ok s) (hi : Inv s)
    (hv : v = Except.ok (proj s)) : Sim Inv proj c v := by
  subst hc
  exact ⟨hi, hv⟩

theorem sim_error {σ τ : Type} {Inv : σ → Prop} {proj : σ → τ} {c : Except Fault σ}
    {v : Except Fault τ} (e : Fault) (hc : c = Except.error e) (hv : v = Except.error e) :
    Sim Inv proj c v := by
  subst hc
  exact hv

theorem sim_bind {σ τ σ' τ' : Type} {Inv : σ → Prop} {proj : σ → τ} {Inv' : σ' → Prop}
    {proj' : σ' → τ'} {c : Except Fault σ} {v : Except Fault τ}
    {f : σ → Except Fault σ'} {g : τ → Except Fault τ'}
    (h : Sim Inv proj c v) (hf : ∀ s, Inv s → Sim Inv' proj' (f s) (g (proj s))) :
    Sim Inv' proj' (c >>= f) (v >>= g) := by
  cases c with
  | error e =>
    have hv : v = Except.error e := h
    subst hv
    exact rfl
  | ok s =>
    obtain ⟨hi, hv⟩ : Inv s ∧ v = Except.ok (proj s) := h
    subst hv
    exact hf s hi

theorem sim_mono {σ τ : Type} {Inv Inv' : σ → Prop} {proj : σ → τ} {c : Except Fault σ}
    {v : Except Fault τ} (h : Sim Inv proj c v) (hi : ∀ s, Inv s → Inv' s) :
    Sim Inv' proj c v := by
  cases c with
  | error e => exact h
  | ok s => exact ⟨hi s h.1, h.2⟩

theorem sim_times {σ τ : Type} {Inv : σ → Prop} {proj : σ → τ}
    {f : σ → Except Fault σ} {g : τ → Except Fault τ}
    (hf : ∀ s, Inv s → Sim Inv proj (f s) (g (proj s))) :
    ∀ (n : Nat) (s : σ), Inv s → Sim Inv proj (times n f s) (times n g (proj s)) := by
  intro n
  induction n with
  | zero => intro s hs; exact ⟨hs, rfl⟩
  | succ n ih =>
    intro s hs
    exact sim_bind (hf s hs) ih

theorem sim_val {σ τ : Type} {Inv : σ → Prop} {proj : σ → τ} {c : Except Fault σ}
    {v : Except Fault τ} (h : Sim Inv proj c v) : (proj <$> c) = v := by
  cases c with
  | error e => exact (show v = Except.error e from h).symm
  | ok s => exact h.2.symm

theorem relax_eq (lvl : Instance K) (w : Workspace K) (swap : Bool) (rhs x : List K)
    (hA : ∀ i < lvl.A.rows, row_ok lvl.A lvl.A.rows i) (hr : rhs.length = lvl.A.rows)
    (hx : x.length = lvl.A.rows) (ht : w.t.length = lvl.A.rows) :
    relax lvl w swap rhs x =
      (relax_val lvl.A rhs x >>= fun y =>
        Except.ok ({ w with t := if swap then x else y }, y)) := by
  have hrow : ∀ i < lvl.A.rows, relax_row lvl.A rhs x i =
      (fdiv (rhs.getD i 0 - row_sum lvl.A x i) (diag lvl.A i) >>= fun q =>
        Except.ok (x.getD i 0 + 0.72 * q)) := by
    intro i hi
    exact relax_row_eq _ _ _ _ (hx ▸ hA i hi) (by omega) (by omega)
  unfold relax relax_val
  by_cases hd : ∀ i < lvl.A.rows, diag lvl.A i ≠ 0
  · rw [if_pos hd]
    rw [fill_rows_ok _ _ (fun i =>
      x.getD i 0 + 0.72 * ((rhs.getD i 0 - row_sum lvl.A x i) / diag lvl.A i)) _ ht]
    · simp only [bind_ok]
      cases swap with
      | true => simp [vector_copy, vec]
      | false =>
        have : (List.map (fun i => x.getD i 0 +
            0.72 * ((rhs.getD i 0 - row_sum lvl.A x i) / diag lvl.A i))
            (List.range lvl.A.rows)).length ≤ x.length := by simp [hx]
        simp [vector_copy, vec, hx]
    · intro i hi
      rw [hrow i hi, fdiv_of_ne _ _ (hd i hi)]
      rfl
  · rw [if_neg hd]
    have hex : ∃ i, i < lvl.A.rows ∧ diag lvl.A i = 0 := by
      by_contra hne
      apply hd
      intro i hi h0
      exact hne ⟨i, hi, h0⟩
    classical
    have hk := Nat.find_spec hex
    have hmin := fun i (hi : i < Nat.find hex) => Nat.find_min hex hi
    rw [fill_rows_error _ (fun i =>
      x.getD i 0 + 0.72 * ((rhs.getD i 0 - row_sum lvl.A x i) / diag lvl.A i))
      Fault.divide _ (Nat.find hex) _ _ lvl.A.rows hk.1 (by omega)]
    · rfl
    · intro i hi
      have hilt : i < lvl.A.rows := by omega
      have hne : diag lvl.A i ≠ 0 := fun h0 => hmin i hi ⟨hilt, h0⟩
      rw [hrow i hilt, fdiv_of_ne _ _ hne]
      rfl
    · rw [hrow _ hk.1]
      simp [fdiv, hk.2]

theorem relax_val_length (A : matrix K) (rhs x y : List K)
    (h : relax_val A rhs x = Except.ok y) : y.length = A.rows := by
  unfold relax_val at h
  split at h
  · injection h with h
    subst h
    simp
  · cases h

theorem relax_sim (lvl : Instance K) (w0 : Workspace K) (swap : Bool) (rhs : List K)
    (hA : ∀ i < lvl.A.rows, row_ok lvl.A lvl.A.rows i) (hr : rhs.length = lvl.A.rows)
    (ht : w0.t.length = lvl.A.rows) (wx : Workspace K × List K)
    (hi : wx.1.only_t w0 ∧ wx.2.length = lvl.A.rows) :
    Sim (fun (r : Workspace K × List K) => r.1.only_t w0 ∧ r.2.length = lvl.A.rows) Prod.snd
      (relax lvl wx.1 swap rhs wx.2) (relax_val lvl.A rhs wx.2) := by
  obtain ⟨hw, hx⟩ := hi
  have ht' : wx.1.t.length = lvl.A.rows := by rw [hw.2.2.2.2.2.2, ht]
  rw [relax_eq lvl wx.1 swap rhs wx.2 hA hr hx ht']
  cases hv : relax_val lvl.A rhs wx.2 with
  | error e => exact rfl
  | ok y =>
    have hy := relax_val_length _ _ _ _ hv
    refine ⟨⟨?_, hy⟩, rfl⟩
    obtain ⟨h1, h2, h3, h4, h5, h6, h7⟩ := hw
    refine ⟨h1, h2, h3, h4, h5, h6, ?_⟩
    cases swap with
    | true => simp [hx, ht]
    | false => simp [hy, ht]

end simulation

section shapes

variable {K : Type} [Field K] [DecidableEq K]

theorem cycle_val_cons (prm : params) (lvl nxt : Instance K) (rest : List (Instance K))
    (k : Bool) (ks : List Bool) (rhs x : List K) :
    cycle_val prm (lvl :: nxt :: rest) (k :: ks) rhs x =
      times prm.ncycle (cycle_step prm lvl nxt.A.rows (fun f u =>
        if k then kcycle_val prm (nxt :: rest) ks f u
        else cycle_val prm (nxt :: rest) ks f u) rhs) x := by
  cases rest <;> rfl

theorem sim_cases {σ τ : Type} {Inv : σ → Prop} {proj : σ → τ} {c : Except Fault σ}
    {v : Except Fault τ} (h : Sim Inv proj c v) :
    (∃ e, c = Except.error e ∧ v = Except.error e) ∨
    (∃ s, c = Except.ok s ∧ Inv s ∧ v = Except.ok (proj s)) := by
  cases c with
  | error e => exact Or.inl ⟨e, rfl, h⟩
  | ok s => exact Or.inr ⟨s, rfl, h.1, h.2⟩

theorem same_shape_refl (w : Workspace K) : w.same_shape w :=
  ⟨rfl, rfl, rfl, rfl, rfl, rfl, rfl⟩

theorem same_shape_of_only_t {v w : Workspace K} (h : v.only_t w) : v.same_shape w := by
  obtain ⟨h1, h2, h3, h4, h5, h6, h7⟩ := h
  exact ⟨by rw [h1], by rw [h2], h7, by rw [h3], by rw [h4], by rw [h5], by rw [h6]⟩

theorem same_shape_trans {a b c : Workspace K} (h : a.same_shape b) (g : b.same_shape c) :
    a.same_shape c := by
  obtain ⟨h1, h2, h3, h4, h5, h6, h7⟩ := h
  obtain ⟨g1, g2, g3, g4, g5, g6, g7⟩ := g
  exact ⟨h1.trans g1, h2.trans g2, h3.trans g3, h4.trans g4, h5.trans g5, h6.trans g6,
    h7.trans g7⟩

theorem kflag_of_same_shape {v w : Workspace K} (h : v.same_shape w) : v.kflag = w.kflag := by
  have h4 := h.2.2.2.1
  unfold Workspace.kflag
  cases hv : v.cg0 <;> cases hw : w.cg0 <;> simp [hv, hw] at h4 ⊢

theorem ok_of_same_shape {v w : Workspace K} {n : Nat} (h : v.same_shape w) (hw : w.ok n) :
    v.ok n := by
  obtain ⟨h1, h2, h3, h4, h5, h6, h7⟩ := h
  obtain ⟨g1, g2, g3, g4⟩ := hw
  refine ⟨h1.trans g1, h2.trans g2, h3.trans g3, ?_⟩
  rcases g4 with g4 | ⟨g4, g5, g6, g7⟩
  · left
    rw [g4] at h4
    exact List.length_eq_zero.mp h4
  · right
    exact ⟨h4.trans g4, h5.trans g5, h6.trans g6, h7.trans g7⟩

theorem shapes_refl (ws : List (Workspace K)) : List.Forall₂ Workspace.same_shape ws ws := by
  induction ws with
  | nil => exact List.Forall₂.nil
  | cons w ws ih => exact List.Forall₂.cons (same_shape_refl w) ih

theorem shapes_trans {a b c : List (Workspace K)}
    (h : List.Forall₂ Workspace.same_shape a b) (g : List.Forall₂ Workspace.same_shape b c) :
    List.Forall₂ Workspace.same_shape a c := by
  induction h generalizing c with
  | nil => cases g; exact List.Forall₂.nil
  | cons hab _ ih =>
    cases g with
    | cons hbc g' => exact List.Forall₂.cons (same_shape_trans hab hbc) (ih g')

theorem kflags_of_shapes {a b : List (Workspace K)}
    (h : List.Forall₂ Workspace.same_shape a b) :
    a.map Workspace.kflag = b.map Workspace.kflag := by
  induction h with
  | nil => rfl
  | cons hab _ ih => simp [kflag_of_same_shape hab, ih]

theorem workspaces_ok_of_shapes {lv : List (Instance K)} {a b : List (Workspace K)}
    (h : List.Forall₂ Workspace.same_shape a b) (hb : workspaces_ok lv b) :
    workspaces_ok lv a := by
  induction h generalizing lv with
  | nil => exact hb
  | cons hab _ ih =>
    cases lv with
    | nil => exact hb.elim
    | cons l lv => exact ⟨ok_of_same_shape hab hb.1, ih hb.2⟩

theorem map_const_range (n : Nat) (v : K) :
    (List.range n).map (fun _ => v) = List.replicate n v := by
  simp [List.map_const']

theorem solve_ok (lvl : Instance K) (rhs x : List K)
    (hAi : ∀ i < lvl.A.rows, row_ok lvl.Ai rhs.length i) (hx : x.length = lvl.A.rows) :
    solve lvl rhs x = Except.ok (mat_vec lvl.A.rows lvl.Ai rhs) := by
  unfold solve
  rw [fill_rows_ok _ _ (row_sum lvl.Ai rhs) _ hx]
  · rfl
  · intro i hi
    exact row_dot_ok _ _ _ (hAi i hi)

end shapes

section refinement

variable {K : Type} [Field K] [DecidableEq K]

theorem rows_ok_of_wf (M : matrix K) (m k : Nat) (h : M.wf m k) :
    ∀ i < m, row_ok M k i :=
  fun i hi => row_ok_of_wf M m k i h hi

theorem residual_ok (A : matrix K) (rhs x buf : List K)
    (hA : ∀ i < A.rows, row_ok A x.length i) (hr : A.rows ≤ rhs.length)
    (hb : buf.length = A.rows) :
    fill_rows A.rows (row_res A rhs x) buf = Except.ok (residual A rhs x) :=
  fill_rows_ok A.rows _ (fun i => rhs.getD i 0 - row_sum A x i) _ hb
    (fun i hi => row_res_ok _ _ _ _ (hA i hi) (by omega))

theorem mat_vec_ok (m : Nat) (M : matrix K) (x buf : List K)
    (hM : ∀ i < m, row_ok M x.length i) (hb : buf.length = m) :
    fill_rows m (row_dot M x) buf = Except.ok (mat_vec m M x) :=
  fill_rows_ok m _ (row_sum M x) _ hb (fun i hi => row_dot_ok _ _ _ (hM i hi))

@[simp] theorem length_residual (A : matrix K) (rhs x : List K) :
    (residual A rhs x).length = A.rows := by
  simp [residual]

@[simp] theorem length_mat_vec (m : Nat) (M : matrix K) (x : List K) :
    (mat_vec m M x).length = m := by
  simp [mat_vec]

theorem cycle_sim_last (prm : params) (lvl : Instance K) (h : levels_ok [lvl]) :
    CycleSim prm lvl [] := by
  intro swap w ws rhs x ht hws hr hx
  have hAi := rows_ok_of_wf _ _ _ h.2
  rw [cycle, solve_ok lvl rhs x (hr ▸ hAi) hx]
  refine ⟨⟨?_, ?_, ?_⟩, rfl⟩
  · exact ⟨rfl, rfl, rfl, rfl, rfl, rfl, rfl⟩
  · exact shapes_refl ws
  · simp [mat_vec]

theorem kcycle_sim_last (prm : params) (lvl : Instance K) (h : levels_ok [lvl]) :
    KcycleSim prm lvl [] := by
  intro w ws rhs x ht hcg hws hr hx
  have hAi := rows_ok_of_wf _ _ _ h.2
  rw [kcycle, solve_ok lvl rhs x (hr ▸ hAi) hx]
  refine ⟨⟨?_, ?_, ?_⟩, rfl⟩
  · exact same_shape_refl w
  · exact shapes_refl ws
  · simp [mat_vec]

theorem cycle_sim_cons (prm : params) (lvl nxt : Instance K) (rest : List (Instance K))
    (h : levels_ok (lvl :: nxt :: rest)) (ihc : CycleSim prm nxt rest)
    (ihk : KcycleSim prm nxt rest) : CycleSim prm lvl (nxt :: rest) := by
  intro swap w ws0 rhs x ht hws hr hx
  obtain ⟨hA, hR, hP, hrest⟩ := h
  have hA := rows_ok_of_wf _ _ _ hA
  have hR := rows_ok_of_wf _ _ _ hR
  have hP := rows_ok_of_wf _ _ _ hP
  cases ws0 with
  | nil => exact hws.elim
  | cons wn0 ws0 =>
  obtain ⟨hwn0, hws0⟩ := hws
  rw [cycle, List.map_cons, cycle_val_cons]
  refine sim_times ?_ prm.ncycle (w, wn0 :: ws0, x)
    ⟨⟨rfl, rfl, rfl, rfl, rfl, rfl, rfl⟩, shapes_refl _, hx⟩
  rintro ⟨w1, wsl, x1⟩ ⟨hw1, hsh, hx1⟩
  cases hsh with
  | cons hwn hsh =>
  rename_i wn ws1
  simp only
  have hwnok : wn.ok nxt.A.rows := ok_of_same_shape hwn hwn0
  have hws1 : workspaces_ok rest ws1 := workspaces_ok_of_shapes hsh hws0
  have hks : ws1.map Workspace.kflag = ws0.map Workspace.kflag := kflags_of_shapes hsh
  have hkf : wn.kflag = wn0.kflag := kflag_of_same_shape hwn
  have s1 := sim_times (relax_sim lvl w swap rhs hA hr ht) prm.npre (w1, x1) ⟨hw1, hx1⟩
  unfold cycle_step
  rcases sim_cases s1 with ⟨e, hc, hv⟩ | ⟨wx, hc, ⟨hwx, hxl⟩, hv⟩
  · rw [hc, hv]
    exact rfl
  rw [hc, hv]
  simp only [bind_ok]
  have hwxt : wx.1.t.length = lvl.A.rows := by rw [hwx.2.2.2.2.2.2, ht]
  rw [residual_ok lvl.A rhs wx.2 _ (hxl ▸ hA) (by omega) hwxt]
  simp only [bind_ok]
  rw [mat_vec_ok nxt.A.rows lvl.R _ _ (by rw [length_residual]; exact hR) hwnok.2.1]
  simp only [bind_ok]
  rw [hwnok.1]
  have hsub : Sim (fun (r : Workspace K × List (Workspace K) × List K) =>
        r.1.same_shape wn ∧ List.Forall₂ Workspace.same_shape r.2.1 ws1 ∧
        r.2.2.length = nxt.A.rows) (fun r => r.2.2)
      (if wn.cg0.isEmpty = true then
        cycle prm true (nxt :: rest)
          { wn with f := mat_vec nxt.A.rows lvl.R (residual lvl.A rhs wx.2),
                    u := List.replicate nxt.A.rows 0 } ws1
          (mat_vec nxt.A.rows lvl.R (residual lvl.A rhs wx.2)) (List.replicate nxt.A.rows 0)
      else
        kcycle prm (nxt :: rest)
          { wn with f := mat_vec nxt.A.rows lvl.R (residual lvl.A rhs wx.2),
                    u := List.replicate nxt.A.rows 0 } ws1
          (mat_vec nxt.A.rows lvl.R (residual lvl.A rhs wx.2)) (List.replicate nxt.A.rows 0))
      (if wn0.kflag = true then
          kcycle_val prm (nxt :: rest) (List.map Workspace.kflag ws0)
            (mat_vec nxt.A.rows lvl.R (residual lvl.A rhs wx.2)) (List.replicate nxt.A.rows 0)
        else
          cycle_val prm (nxt :: rest) (List.map Workspace.kflag ws0)
            (mat_vec nxt.A.rows lvl.R (residual lvl.A rhs wx.2))
            (List.replicate nxt.A.rows 0)) := by
    rw [← hkf, ← hks]
    by_cases hcg : wn.cg0.isEmpty = true
    · have hk : wn.kflag = false := by simp [Workspace.kflag, hcg]
      rw [if_pos hcg, hk]
      simp only [Bool.false_eq_true, if_false]
      refine sim_mono (ihc true _ ws1 _ _ hwnok.2.2.1 hws1 (by simp) (by simp)) ?_
      rintro r ⟨h1, h2, h3⟩
      refine ⟨?_, h2, h3⟩
      have := same_shape_of_only_t h1
      obtain ⟨g1, g2, g3, g4, g5, g6, g7⟩ := this
      refine ⟨?_, ?_, g3, g4, g5, g6, g7⟩
      · rw [g1]; simp [hwnok.1]
      · rw [g2]; simp [hwnok.2.1]
    · have hk : wn.kflag = true := by simp [Workspace.kflag, hcg]
      rw [if_neg hcg, hk]
      simp only [if_true]
      have hcgok : wn.cg_ok nxt.A.rows := by
        rcases hwnok.2.2.2 with h0 | h0
        · rw [h0] at hcg; simp at hcg
        · exact h0
      refine sim_mono (ihk _ ws1 _ _ hwnok.2.2.1 hcgok hws1 (by simp) (by simp)) ?_
      rintro r ⟨h1, h2, h3⟩
      refine ⟨?_, h2, h3⟩
      obtain ⟨g1, g2, g3, g4, g5, g6, g7⟩ := h1
      refine ⟨?_, ?_, g3, g4, g5, g6, g7⟩
      · rw [g1]; simp [hwnok.1]
      · rw [g2]; simp [hwnok.2.1]
  have hcont : ∀ r : Workspace K × List (Workspace K) × List K,
      (r.1.same_shape wn ∧ List.Forall₂ Workspace.same_shape r.2.1 ws1 ∧
        r.2.2.length = nxt.A.rows) →
      Sim (fun (r : Workspace K × List (Workspace K) × List K) =>
          r.1.only_t w ∧ List.Forall₂ Workspace.same_shape r.2.1 (wn0 :: ws0) ∧
          r.2.2.length = lvl.A.rows) (fun r => r.2.2)
        (add_rows lvl.A.rows (row_dot lvl.P r.2.2) wx.2 >>= fun x =>
          times prm.npost (fun wx => relax lvl wx.1 swap rhs wx.2)
            ({ wx.1 with t := residual lvl.A rhs wx.2 }, x) >>= fun wx =>
          pure (wx.1, { r.1 with u := r.2.2 } :: r.2.1, wx.2))
        (times prm.npost (relax_val lvl.A rhs)
          (vec lvl.A.rows fun i => wx.2.getD i 0 + row_sum lvl.P r.2.2 i)) := by
    rintro ⟨y1, ysl, c⟩ ⟨hy1, hysl, hc1⟩
    simp only
    rw [add_rows_ok lvl.A.rows _ (row_sum lvl.P c) _ hxl
      (fun i hi => row_dot_ok _ _ _ (by rw [hc1]; exact hP i hi))]
    simp only [bind_ok]
    have s2 := sim_times (relax_sim lvl w swap rhs hA hr ht) prm.npost
      (({ wx.1 with t := residual lvl.A rhs wx.2 } : Workspace K),
        vec lvl.A.rows fun i => wx.2.getD i 0 + row_sum lvl.P c i)
      ⟨⟨hwx.1, hwx.2.1, hwx.2.2.1, hwx.2.2.2.1, hwx.2.2.2.2.1, hwx.2.2.2.2.2.1,
        by simp [ht]⟩, by simp⟩
    rw [← bind_pure (times prm.npost (relax_val lvl.A rhs) _)]
    refine sim_bind s2 ?_
    rintro ⟨w3, x3⟩ ⟨hw3, hx3⟩
    refine ⟨⟨hw3, ?_, hx3⟩, rfl⟩
    refine List.Forall₂.cons ?_ (shapes_trans hysl hsh)
    have h2 := same_shape_trans hy1 hwn
    obtain ⟨g1, g2, g3, g4, g5, g6, g7⟩ := h2
    exact ⟨by simp [hc1, hwn0.1], g2, g3, g4, g5, g6, g7⟩
  by_cases hcg : wn.cg0.isEmpty = true
  · rw [if_pos hcg] at hsub ⊢
    exact sim_bind hsub hcont
  · rw [if_neg hcg] at hsub ⊢
    exact sim_bind hsub hcont

theorem copy_n_ok (n : Nat) (src dst : List K) (hs : n ≤ src.length) (hd : dst.length = n) :
    copy_n n src dst = Except.ok (vec n fun i => src.getD i 0) :=
  fill_rows_ok n _ (fun i => src.getD i 0) _ hd (fun i hi => rd_of_lt _ _ 0 (by omega))

theorem fill_n_ok (n : Nat) (v : K) (dst : List K) (hd : dst.length = n) :
    fill_n n v dst = Except.ok (List.replicate n v) := by
  unfold fill_n
  rw [fill_rows_ok n (fun _ => pure v) (fun _ => v) dst hd (fun i hi => rfl), map_const_range]

theorem kcycle_sim_cons (prm : params) (lvl nxt : Instance K) (rest : List (Instance K))
    (h : levels_ok (lvl :: nxt :: rest)) (ihc : CycleSim prm lvl (nxt :: rest)) :
    KcycleSim prm lvl (nxt :: rest) := by
  intro w ws rhs x ht hcg hws hr hx
  obtain ⟨hA, hR, hP, hrest⟩ := h
  have hA := rows_ok_of_wf _ _ _ hA
  obtain ⟨hcg0, hcg1, hcg2, hcg3⟩ := hcg
  rw [kcycle, kcycle_val]
  simp only [List.foldlM_cons, List.foldlM_nil]
  rw [copy_n_ok _ _ _ (by omega) hcg0]
  simp only [bind_ok]
  rw [fill_n_ok _ _ _ hcg1]
  simp only [bind_ok]
  unfold kcycle_with
  simp only
  have hr0 : (vec lvl.A.rows fun i => rhs.getD i 0).length = lvl.A.rows := length_vec _ _
  have hz : (List.replicate lvl.A.rows (0 : K)).length = lvl.A.rows := List.length_replicate _ _
  have s1 := ihc true
    { w with cg0 := vec lvl.A.rows fun i => rhs.getD i 0, cg1 := List.replicate lvl.A.rows 0 }
    ws (vec lvl.A.rows fun i => rhs.getD i 0) (List.replicate lvl.A.rows 0) ht hws hr0 hz
  rcases sim_cases s1 with ⟨e, hc, hv⟩ | ⟨⟨w1, ws1, s0⟩, hc, ⟨hw1, hsh1, hs0⟩, hv⟩
  · rw [hc, hv]
    exact rfl
  rw [hc, hv]
  simp only [bind_ok]
  obtain ⟨e1, e2, e3, e4, e5, e6, e7⟩ := hw1
  simp only at e1 e2 e3 e4 e5 e6 e7 hs0 hv
  rw [e3, inner_prod_ok lvl _ s0 (le_of_eq hr0.symm) (le_of_eq hs0.symm)]
  simp only [bind_ok, ne_eq, not_true_eq_false, if_false]
  rw [copy_n_ok _ _ _ (by omega) (by rw [e5]; exact hcg2)]
  simp only [bind_ok]
  rw [mat_vec_ok _ _ _ _ (by rw [length_vec]; exact hA) (by rw [e6]; exact hcg3)]
  simp only [bind_ok]
  rw [inner_prod_ok lvl _ _ (by simp) (by simp)]
  simp only [bind_ok]
  generalize hr0d : (vec lvl.A.rows fun i => rhs.getD i 0) = r0 at *
  generalize hp0d : (vec lvl.A.rows fun i => s0.getD i 0) = p0 at *
  have hp0 : p0.length = lvl.A.rows := by rw [← hp0d]; exact length_vec _ _
  generalize hq0d : mat_vec lvl.A.rows lvl.A p0 = q0 at *
  have hq0 : q0.length = lvl.A.rows := by rw [← hq0d]; exact length_mat_vec _ _ _
  by_cases hd0 : dot lvl.A.rows q0 p0 = 0
  · simp only [fdiv, hd0, if_true]
    exact rfl
  rw [fdiv_of_ne _ _ hd0]
  simp only [bind_ok]
  rw [transform_ok _ _ _ _ hx hp0, transform_ok _ _ _ _ hr0 hq0]
  simp only [bind_ok, pure_eq_ok]
  generalize ha0d : dot lvl.A.rows r0 s0 / dot lvl.A.rows q0 p0 = alpha0 at *
  generalize hx1d : (vec lvl.A.rows fun i => x.getD i 0 + alpha0 * p0.getD i 0) = x1 at *
  have hx1 : x1.length = lvl.A.rows := by rw [← hx1d]; exact length_vec _ _
  generalize hr1d : (vec lvl.A.rows fun i => r0.getD i 0 - alpha0 * q0.getD i 0) = r1 at *
  have hr1 : r1.length = lvl.A.rows := by rw [← hr1d]; exact length_vec _ _
  rw [fill_n_ok _ _ _ hs0]
  simp only [bind_ok]
  have hws1 : workspaces_ok (nxt :: rest) ws1 := workspaces_ok_of_shapes hsh1 hws
  have hks : ws1.map Workspace.kflag = ws.map Workspace.kflag := kflags_of_shapes hsh1
  have s2 := ihc true
    { u := w1.u, f := w1.f, t := w1.t, cg0 := r1, cg1 := List.replicate lvl.A.rows 0,
      cg2 := p0, cg3 := q0 }
    ws1 r1 (List.replicate lvl.A.rows 0) (by rw [e7]; exact ht) hws1 hr1 hz
  rw [hks] at s2
  rcases sim_cases s2 with ⟨e, hc2, hv2⟩ | ⟨⟨w2, ws2, s1⟩, hc2, ⟨hw2, hsh2, hs1⟩, hv2⟩
  · rw [hc2, hv2]
    exact rfl
  rw [hc2, hv2]
  simp only [bind_ok]
  obtain ⟨f1, f2, f3, f4, f5, f6, f7⟩ := hw2
  simp only at f1 f2 f3 f4 f5 f6 f7 hs1 hv2
  rw [f3, inner_prod_ok lvl r1 s1 (le_of_eq hr1.symm) (le_of_eq hs1.symm)]
  simp only [bind_ok, one_ne_zero, not_false_eq_true, if_true]
  by_cases hb0 : dot lvl.A.rows r0 s0 = 0
  · simp only [fdiv, hb0, if_true]
    exact rfl
  rw [fdiv_of_ne _ _ hb0]
  simp only [bind_ok]
  generalize hbd : dot lvl.A.rows r1 s1 / dot lvl.A.rows r0 s0 = beta at *
  rw [f5, transform_ok _ _ p0 s1 hp0 hs1]
  simp only [bind_ok]
  generalize hp1d : (vec lvl.A.rows fun i => s1.getD i 0 + beta * p0.getD i 0) = p1 at *
  have hp1 : p1.length = lvl.A.rows := by rw [← hp1d]; exact length_vec _ _
  rw [mat_vec_ok _ _ p1 _ (by rw [hp1]; exact hA) (by rw [f6]; exact hq0)]
  simp only [bind_ok]
  generalize hq1d : mat_vec lvl.A.rows lvl.A p1 = q1 at *
  have hq1 : q1.length = lvl.A.rows := by rw [← hq1d]; exact length_mat_vec _ _ _
  rw [inner_prod_ok lvl q1 p1 (le_of_eq hq1.symm) (le_of_eq hp1.symm)]
  simp only [bind_ok]
  by_cases hd1 : dot lvl.A.rows q1 p1 = 0
  · simp only [fdiv, hd1, if_true]
    exact rfl
  rw [fdiv_of_ne _ _ hd1]
  simp only [bind_ok]
  rw [transform_ok _ _ x1 p1 hx1 hp1, transform_ok _ _ r1 q1 hr1 hq1]
  simp only [bind_ok, pure_eq_ok]
  refine ⟨⟨?_, shapes_trans hsh2 hsh1, length_vec _ _⟩, rfl⟩
  refine ⟨?_, ?_, ?_, ?_, ?_, ?_, ?_⟩ <;> simp only [length_vec]
  · rw [f1, e1]
  · rw [f2, e2]
  · rw [f7, e7]
  · exact hcg0.symm
  · rw [hs1]; exact hcg1.symm
  · rw [hp1]; exact hcg2.symm
  · rw [hq1]; exact hcg3.symm

theorem cycle_kcycle_sim (prm : params) (rest : List (Instance K)) :
    ∀ lvl : Instance K, levels_ok (lvl :: rest) →
      CycleSim prm lvl rest ∧ KcycleSim prm lvl rest := by
  induction rest with
  | nil =>
    intro lvl h
    exact ⟨cycle_sim_last prm lvl h, kcycle_sim_last prm lvl h⟩
  | cons nxt rest ih =>
    intro lvl h
    obtain ⟨ihc, ihk⟩ := ih nxt h.2.2.2
    have hc := cycle_sim_cons prm lvl nxt rest h ihc ihk
    exact ⟨hc, kcycle_sim_cons prm lvl nxt rest h hc⟩

end refinement

/-! ## The claims -/

section claims

variable {K : Type} [Field K] [DecidableEq K]

/-- C1: on a range of exactly one level `cycle` returns `x = Ai * rhs`: entry `i` of the
new `x` is the sum of `Ai.val[j] * rhs[Ai.col[j]]` over the stored entries `j` of row `i`
of `Ai`, for every `i < n`; the workspaces are returned as they were, and the same result
is returned for every other initial `x` of length `n`, every other parameter record and
either overload of `vector_copy`. -/
theorem cycle_one_level (prm : params) (swap : Bool) (lvl : Instance K) (w : Workspace K)
    (ws : List (Workspace K)) (rhs x : List K)
    (hAi : lvl.Ai.wf lvl.A.rows rhs.length) (hx : x.length = lvl.A.rows) :
    ∃ y : List K, cycle prm swap [lvl] w ws rhs x = Except.ok (w, ws, y) ∧
      y.length = lvl.A.rows ∧
      (∀ i < lvl.A.rows, y[i]? = some
        ((List.range' (lvl.Ai.row.getD i 0)
            (lvl.Ai.row.getD (i + 1) 0 - lvl.Ai.row.getD i 0)).map
          (fun j => lvl.Ai.val.getD j 0 * rhs.getD (lvl.Ai.col.getD j 0) 0)).sum) ∧
      (∀ (prm' : params) (swap' : Bool) (x' : List K), x'.length = lvl.A.rows →
        cycle prm' swap' [lvl] w ws rhs x' = Except.ok (w, ws, y)) := by
  have hrows := rows_ok_of_wf _ _ _ hAi
  refine ⟨mat_vec lvl.A.rows lvl.Ai rhs, ?_, length_mat_vec _ _ _, ?_, ?_⟩
  · rw [cycle, solve_ok lvl rhs x hrows hx]
    rfl
  · intro i hi
    simp [mat_vec, List.getElem?_range hi, row_sum, row_entries]
  · intro prm' swap' x' hx'
    rw [cycle, solve_ok lvl rhs x' hrows hx']
    rfl

theorem cycle_one_level_witness :
    exL.Ai.wf exL.A.rows ([1, 2] : List ℚ).length ∧ ([5, 7] : List ℚ).length = exL.A.rows ∧
    ∃ y : List ℚ, cycle ⟨3, 1, 2, 0⟩ false [exL] exW [] [1, 2] [5, 7] = Except.ok (exW, [], y) ∧
      y.length = exL.A.rows ∧
      (∀ i < exL.A.rows, y[i]? = some
        ((List.range' (exL.Ai.row.getD i 0)
            (exL.Ai.row.getD (i + 1) 0 - exL.Ai.row.getD i 0)).map
          (fun j => exL.Ai.val.getD j 0 * ([1, 2] : List ℚ).getD (exL.Ai.col.getD j 0) 0)).sum) ∧
      (∀ (prm' : params) (swap' : Bool) (x' : List ℚ), x'.length = exL.A.rows →
        cycle prm' swap' [exL] exW [] [1, 2] x' = Except.ok (exW, [], y)) :=
  ⟨by decide, rfl, cycle_one_level ⟨3, 1, 2, 0⟩ false exL exW [] [1, 2] [5, 7] (by decide) rfl⟩

end claims

section claims_one_level

variable {K : Type} [Field K] [DecidableEq K]

/-- C10: on a range of exactly one level `kcycle` and `cycle` are the same function:
for every `rhs`, every initial `x` of length `n` and all parameters both return
`x = Ai * rhs`, and both return the workspace of the level (`u`, `f`, `t`, `cg`) as it
was. -/
theorem kcycle_one_level_eq_cycle (prm : params) (swap : Bool) (lvl : Instance K)
    (w : Workspace K) (ws : List (Workspace K)) (rhs x : List K)
    (hAi : lvl.Ai.wf lvl.A.rows rhs.length) (hx : x.length = lvl.A.rows) :
    kcycle prm [lvl] w ws rhs x = cycle prm swap [lvl] w ws rhs x ∧
    kcycle prm [lvl] w ws rhs x = Except.ok (w, ws, mat_vec lvl.A.rows lvl.Ai rhs) ∧
    cycle prm swap [lvl] w ws rhs x = Except.ok (w, ws, mat_vec lvl.A.rows lvl.Ai rhs) := by
  have hrows := rows_ok_of_wf _ _ _ hAi
  have hc : cycle prm swap [lvl] w ws rhs x =
      Except.ok (w, ws, mat_vec lvl.A.rows lvl.Ai rhs) := by
    rw [cycle, solve_ok lvl rhs x hrows hx]
    rfl
  have hk : kcycle prm [lvl] w ws rhs x =
      Except.ok (w, ws, mat_vec lvl.A.rows lvl.Ai rhs) := by
    rw [kcycle, solve_ok lvl rhs x hrows hx]
    rfl
  exact ⟨hk.trans hc.symm, hk, hc⟩

theorem kcycle_one_level_eq_cycle_witness :
    exL.Ai.wf exL.A.rows ([1, 2] : List ℚ).length ∧ ([5, 7] : List ℚ).length = exL.A.rows ∧
    (kcycle ⟨3, 1, 2, 1⟩ [exL] exW [] [1, 2] [5, 7] =
        cycle ⟨3, 1, 2, 1⟩ true [exL] exW [] [1, 2] [5, 7] ∧
      kcycle ⟨3, 1, 2, 1⟩ [exL] exW [] [1, 2] [5, 7] =
        Except.ok (exW, [], mat_vec exL.A.rows exL.Ai [1, 2]) ∧
      cycle ⟨3, 1, 2, 1⟩ true [exL] exW [] [1, 2] [5, 7] =
        Except.ok (exW, [], mat_vec exL.A.rows exL.Ai [1, 2])) :=
  ⟨by decide, rfl,
    kcycle_one_level_eq_cycle ⟨3, 1, 2, 1⟩ true exL exW [] [1, 2] [5, 7] (by decide) rfl⟩

end claims_one_level

section unfolding

variable {K : Type} [Field K] [DecidableEq K]

theorem relax_x (lvl : Instance K) (w : Workspace K) (swap : Bool) (rhs x : List K)
    (hA : ∀ i < lvl.A.rows, row_ok lvl.A lvl.A.rows i) (hr : rhs.length = lvl.A.rows)
    (hx : x.length = lvl.A.rows) (ht : w.t.length = lvl.A.rows) :
    (Prod.snd <$> relax lvl w swap rhs x) = relax_val lvl.A rhs x := by
  rw [relax_eq lvl w swap rhs x hA hr hx ht]
  cases relax_val lvl.A rhs x <;> rfl

theorem relax_x_sim (lvl : Instance K) (w : Workspace K) (swap : Bool) (rhs : List K)
    (hA : ∀ i < lvl.A.rows, row_ok lvl.A lvl.A.rows i) (hr : rhs.length = lvl.A.rows)
    (ht : w.t.length = lvl.A.rows) (x : List K) (hx : x.length = lvl.A.rows) :
    Sim (fun y : List K => y.length = lvl.A.rows) id
      (Prod.snd <$> relax lvl w swap rhs x) (relax_val lvl.A rhs x) := by
  rw [relax_x lvl w swap rhs x hA hr hx ht]
  cases hv : relax_val lvl.A rhs x with
  | error e => exact rfl
  | ok y => exact ⟨relax_val_length _ _ _ _ hv, rfl⟩

theorem sim_id_eq {τ : Type} {Inv : τ → Prop} {c v : Except Fault τ}
    (h : Sim Inv id c v) : c = v := by
  cases c with
  | error e => exact (show v = Except.error e from h).symm
  | ok s => exact h.2.symm

theorem sim_id_of_eq {τ : Type} {Inv : τ → Prop} {c v : Except Fault τ}
    (h : c = v) (hi : ∀ s, v = Except.ok s → Inv s) : Sim Inv id c v := by
  subst h
  cases c with
  | error e => exact rfl
  | ok s => exact ⟨hi s rfl, rfl⟩

theorem x_of_cycle (prm : params) (swap : Bool) (lvl : Instance K) (rest : List (Instance K))
    (w : Workspace K) (ws : List (Workspace K)) (rhs x : List K)
    (h : levels_ok (lvl :: rest)) (ht : w.t.length = lvl.A.rows)
    (hws : workspaces_ok rest ws) (hr : rhs.length = lvl.A.rows)
    (hx : x.length = lvl.A.rows) :
    x_of (cycle prm swap (lvl :: rest) w ws rhs x) =
      cycle_val prm (lvl :: rest) (ws.map Workspace.kflag) rhs x :=
  sim_val ((cycle_kcycle_sim prm rest lvl h).1 swap w ws rhs x ht hws hr hx)

theorem x_of_kcycle (prm : params) (lvl : Instance K) (rest : List (Instance K))
    (w : Workspace K) (ws : List (Workspace K)) (rhs x : List K)
    (h : levels_ok (lvl :: rest)) (ht : w.t.length = lvl.A.rows)
    (hcg : w.cg_ok lvl.A.rows)
    (hws : workspaces_ok rest ws) (hr : rhs.length = lvl.A.rows)
    (hx : x.length = lvl.A.rows) :
    x_of (kcycle prm (lvl :: rest) w ws rhs x) =
      kcycle_val prm (lvl :: rest) (ws.map Workspace.kflag) rhs x :=
  sim_val ((cycle_kcycle_sim prm rest lvl h).2 w ws rhs x ht hcg hws hr hx)

theorem cycle_val_length (prm : params) (lvl : Instance K) (rest : List (Instance K))
    (w : Workspace K) (ws : List (Workspace K)) (rhs x y : List K)
    (h : levels_ok (lvl :: rest)) (ht : w.t.length = lvl.A.rows)
    (hws : workspaces_ok rest ws) (hr : rhs.length = lvl.A.rows)
    (hx : x.length = lvl.A.rows)
    (hy : cycle_val prm (lvl :: rest) (ws.map Workspace.kflag) rhs x = Except.ok y) :
    y.length = lvl.A.rows := by
  have hs := (cycle_kcycle_sim prm rest lvl h).1 true w ws rhs x ht hws hr hx
  rcases sim_cases hs with ⟨e, _, hv⟩ | ⟨s, _, hi, hv⟩
  · rw [hv] at hy; cases hy
  · rw [hv] at hy
    injection hy with hy
    rw [← hy]
    exact hi.2.2

theorem kcycle_val_length (prm : params) (lvl : Instance K) (rest : List (Instance K))
    (w : Workspace K) (ws : List (Workspace K)) (rhs x y : List K)
    (h : levels_ok (lvl :: rest)) (ht : w.t.length = lvl.A.rows)
    (hcg : w.cg_ok lvl.A.rows)
    (hws : workspaces_ok rest ws) (hr : rhs.length = lvl.A.rows)
    (hx : x.length = lvl.A.rows)
    (hy : kcycle_val prm (lvl :: rest) (ws.map Workspace.kflag) rhs x = Except.ok y) :
    y.length = lvl.A.rows := by
  have hs := (cycle_kcycle_sim prm rest lvl h).2 w ws rhs x ht hcg hws hr hx
  rcases sim_cases hs with ⟨e, _, hv⟩ | ⟨s, _, hi, hv⟩
  · rw [hv] at hy; cases hy
  · rw [hv] at hy
    injection hy with hy
    rw [← hy]
    exact hi.2.2

theorem sub_call_eq (prm : params) (nxt : Instance K) (rest : List (Instance K))
    (wn : Workspace K) (ws : List (Workspace K)) (f u : List K)
    (h : levels_ok (nxt :: rest)) (hwn : wn.ok nxt.A.rows) (hws : workspaces_ok rest ws)
    (hf : f.length = nxt.A.rows) (hu : u.length = nxt.A.rows) :
    sub_call prm nxt rest wn ws f u =
      if wn.kflag then kcycle_val prm (nxt :: rest) (ws.map Workspace.kflag) f u
      else cycle_val prm (nxt :: rest) (ws.map Workspace.kflag) f u := by
  unfold sub_call
  by_cases hcg : wn.cg0.isEmpty = true
  · have hk : wn.kflag = false := by simp [Workspace.kflag, hcg]
    rw [if_pos hcg, hk]
    simp only [Bool.false_eq_true, if_false]
    exact x_of_cycle prm true nxt rest wn ws f u h hwn.2.2.1 hws hf hu
  · have hk : wn.kflag = true := by simp [Workspace.kflag, hcg]
    rw [if_neg hcg, hk]
    simp only [if_true]
    have hcgok : wn.cg_ok nxt.A.rows := by
      rcases hwn.2.2.2 with h0 | h0
      · rw [h0] at hcg; simp at hcg
      · exact h0
    exact x_of_kcycle prm nxt rest wn ws f u h hwn.2.2.1 hcgok hws hf hu

end unfolding

section claim_recursive

variable {K : Type} [Field K] [DecidableEq K]

theorem cycle_unfold (prm : params) (swap : Bool) (lvl nxt : Instance K)
    (rest : List (Instance K)) (w wn : Workspace K) (ws : List (Workspace K))
    (rhs x : List K) (h : levels_ok (lvl :: nxt :: rest)) (ht : w.t.length = lvl.A.rows)
    (hws : workspaces_ok (nxt :: rest) (wn :: ws)) (hr : rhs.length = lvl.A.rows)
    (hx : x.length = lvl.A.rows) :
    x_of (cycle prm swap (lvl :: nxt :: rest) w (wn :: ws) rhs x) =
      times prm.ncycle (fun x => do
        let x' ← times prm.npre (fun x => Prod.snd <$> relax lvl w swap rhs x) x
        let c ← sub_call prm nxt rest wn ws
          (mat_vec nxt.A.rows lvl.R (residual lvl.A rhs x')) (List.replicate nxt.A.rows 0)
        times prm.npost (fun x => Prod.snd <$> relax lvl w swap rhs x)
          (vec lvl.A.rows fun i => x'.getD i 0 + row_sum lvl.P c i)) x := by
  rw [x_of_cycle prm swap lvl (nxt :: rest) w (wn :: ws) rhs x h ht hws hr hx, List.map_cons,
    cycle_val_cons]
  have hA := rows_ok_of_wf _ _ _ h.1
  symm
  refine sim_id_eq (@sim_times _ _ (fun y : List K => y.length = lvl.A.rows) id _ _ ?_
    prm.ncycle x hx)
  intro x0 hx0
  unfold cycle_step
  refine sim_bind (sim_times (relax_x_sim lvl w swap rhs hA hr ht) prm.npre x0 hx0) ?_
  intro x1 hx1
  simp only [id]
  refine @sim_bind _ _ _ _ (fun _ => True) id _ _ _ _ _ _
    (sim_id_of_eq (sub_call_eq prm nxt rest wn ws _ _ h.2.2.2 hws.1 hws.2
      (length_mat_vec _ _ _) (List.length_replicate _ _)) (fun _ _ => trivial)) ?_
  intro c _
  exact sim_times (relax_x_sim lvl w swap rhs hA hr ht) prm.npost _ (length_vec _ _)

/-- C3: on a well-formed range of at least two levels the `x` that `cycle` returns is
the `ncycle`-fold iteration of the step `x ← relax^npost(rhs, x' + P * c)`, where
`x' = relax^npre(rhs, x)` and `c` is what the call on `[next, end)` returns for the
right-hand side `R * (rhs - A * x')` and the zero initial guess: plain `cycle` when
`next.cg[0]` is empty and `kcycle` otherwise. For two levels with `ncycle = 1` and
`npre = npost = 0` the result is `x + P * (Ai * (R * (rhs - A * x)))`. -/
theorem cycle_recursive_case (prm : params) (swap : Bool) (lvl nxt : Instance K)
    (rest : List (Instance K)) (w wn : Workspace K) (ws : List (Workspace K))
    (rhs x : List K) (h : levels_ok (lvl :: nxt :: rest)) (ht : w.t.length = lvl.A.rows)
    (hws : workspaces_ok (nxt :: rest) (wn :: ws)) (hr : rhs.length = lvl.A.rows)
    (hx : x.length = lvl.A.rows) :
    x_of (cycle prm swap (lvl :: nxt :: rest) w (wn :: ws) rhs x) =
      times prm.ncycle (fun x => do
        let x' ← times prm.npre (fun x => Prod.snd <$> relax lvl w swap rhs x) x
        let c ← sub_call prm nxt rest wn ws
          (mat_vec nxt.A.rows lvl.R (residual lvl.A rhs x')) (List.replicate nxt.A.rows 0)
        times prm.npost (fun x => Prod.snd <$> relax lvl w swap rhs x)
          (vec lvl.A.rows fun i => x'.getD i 0 + row_sum lvl.P c i)) x ∧
    (rest = [] → prm.ncycle = 1 → prm.npre = 0 → prm.npost = 0 →
      x_of (cycle prm swap (lvl :: nxt :: rest) w (wn :: ws) rhs x) =
        Except.ok (vec lvl.A.rows fun i => x.getD i 0 +
          row_sum lvl.P (mat_vec nxt.A.rows nxt.Ai
            (mat_vec nxt.A.rows lvl.R (residual lvl.A rhs x))) i)) := by
  have hmain := cycle_unfold prm swap lvl nxt rest w wn ws rhs x h ht hws hr hx
  refine ⟨hmain, ?_⟩
  intro hrest hn hpre hpost
  subst hrest
  rw [hmain, hn, hpre, hpost]
  have hsub := sub_call_eq prm nxt [] wn ws
    (mat_vec nxt.A.rows lvl.R (residual lvl.A rhs x)) (List.replicate nxt.A.rows 0)
    h.2.2.2 hws.1 hws.2 (length_mat_vec _ _ _) (List.length_replicate _ _)
  have hsub2 : sub_call prm nxt [] wn ws
      (mat_vec nxt.A.rows lvl.R (residual lvl.A rhs x)) (List.replicate nxt.A.rows 0) =
      Except.ok (mat_vec nxt.A.rows nxt.Ai
        (mat_vec nxt.A.rows lvl.R (residual lvl.A rhs x))) := by
    rw [hsub]
    cases wn.kflag <;> rfl
  simp only [times, pure_eq_ok, bind_ok, hsub2]

end claim_recursive

section witness_recursive

theorem cycle_recursive_case_witness :
    levels_ok [exF, exC] ∧ exWF.t.length = exF.A.rows ∧ workspaces_ok [exC] [exWC] ∧
    ([1, 2] : List ℚ).length = exF.A.rows ∧ ([0, 0] : List ℚ).length = exF.A.rows ∧
    (x_of (cycle ⟨1, 0, 0, 0⟩ false [exF, exC] exWF [exWC] [1, 2] [0, 0]) =
      times 1 (fun x => do
        let x' ← times 0 (fun x => Prod.snd <$> relax exF exWF false [1, 2] x) x
        let c ← sub_call ⟨1, 0, 0, 0⟩ exC [] exWC []
          (mat_vec exC.A.rows exF.R (residual exF.A [1, 2] x')) (List.replicate exC.A.rows 0)
        times 0 (fun x => Prod.snd <$> relax exF exWF false [1, 2] x)
          (vec exF.A.rows fun i => x'.getD i 0 + row_sum exF.P c i)) [0, 0] ∧
    (([] : List (Instance ℚ)) = [] → 1 = 1 → 0 = 0 → 0 = 0 →
      x_of (cycle ⟨1, 0, 0, 0⟩ false [exF, exC] exWF [exWC] [1, 2] [0, 0]) =
        Except.ok (vec exF.A.rows fun i => ([0, 0] : List ℚ).getD i 0 +
          row_sum exF.P (mat_vec exC.A.rows exC.Ai
            (mat_vec exC.A.rows exF.R (residual exF.A [1, 2] [0, 0]))) i))) :=
  ⟨by decide, rfl, by decide, rfl, rfl,
    cycle_recursive_case ⟨1, 0, 0, 0⟩ false exF exC [] exWF exWC [] [1, 2] [0, 0]
      (by decide) rfl (by decide) rfl rfl⟩

end witness_recursive

section claim_kcycle

variable {K : Type} [Field K] [DecidableEq K]

theorem kcycle_with_congr (M M' : List K → Except Fault (List K)) (A : matrix K)
    (rhs x : List K) (h : ∀ r : List K, r.length = A.rows → M r = M' r) :
    kcycle_with M A rhs x = kcycle_with M' A rhs x := by
  have h' : ∀ g : Nat → K, M (vec A.rows g) = M' (vec A.rows g) :=
    fun g => h _ (length_vec _ _)
  unfold kcycle_with
  simp only [h']

theorem kcycle_unfold (prm : params) (lvl nxt : Instance K) (rest : List (Instance K))
    (w : Workspace K) (ws : List (Workspace K)) (rhs x : List K)
    (h : levels_ok (lvl :: nxt :: rest)) (ht : w.t.length = lvl.A.rows)
    (hcg : w.cg_ok lvl.A.rows) (hws : workspaces_ok (nxt :: rest) ws)
    (hr : rhs.length = lvl.A.rows) (hx : x.length = lvl.A.rows) :
    x_of (kcycle prm (lvl :: nxt :: rest) w ws rhs x) =
      kcycle_with (fun r => x_of (cycle prm true (lvl :: nxt :: rest) w ws r
        (List.replicate lvl.A.rows 0))) lvl.A rhs x := by
  rw [x_of_kcycle prm lvl (nxt :: rest) w ws rhs x h ht hcg hws hr hx, kcycle_val]
  apply kcycle_with_congr
  intro r hrl
  exact (x_of_cycle prm true lvl (nxt :: rest) w ws r _ h ht hws hrl
    (List.length_replicate _ _)).symm

theorem kcycle_with_ok (M : List K → Except Fault (List K)) (A : matrix K) (rhs x : List K)
    (s0 s1 r1 p1 : List K) (a0 b a1 : K)
    (hr : rhs.length = A.rows) (hs0 : s0.length = A.rows)
    (h0 : M rhs = Except.ok s0)
    (hd0 : dot A.rows (mat_vec A.rows A s0) s0 ≠ 0)
    (ha0 : a0 = dot A.rows rhs s0 / dot A.rows (mat_vec A.rows A s0) s0)
    (hr1 : r1 = vec A.rows fun i => rhs.getD i 0 - a0 * (mat_vec A.rows A s0).getD i 0)
    (h1 : M r1 = Except.ok s1)
    (hdb : dot A.rows rhs s0 ≠ 0)
    (hb : b = dot A.rows r1 s1 / dot A.rows rhs s0)
    (hp1 : p1 = vec A.rows fun i => s1.getD i 0 + b * s0.getD i 0)
    (hd1 : dot A.rows (mat_vec A.rows A p1) p1 ≠ 0)
    (ha1 : a1 = dot A.rows r1 s1 / dot A.rows (mat_vec A.rows A p1) p1) :
    kcycle_with M A rhs x =
      Except.ok (vec A.rows fun i => x.getD i 0 + a0 * s0.getD i 0 + a1 * p1.getD i 0) := by
  unfold kcycle_with
  simp only
  rw [vec_getD_self _ rhs hr, h0]
  simp only [bind_ok]
  rw [vec_getD_self _ s0 hs0, fdiv_of_ne _ _ hd0, ← ha0]
  simp only [bind_ok]
  rw [← hr1, h1]
  simp only [bind_ok]
  rw [fdiv_of_ne _ _ hdb, ← hb]
  simp only [bind_ok]
  rw [← hp1, fdiv_of_ne _ _ hd1, ← ha1]
  simp only [bind_ok, pure_eq_ok]
  congr 1
  apply vec_congr
  intro i hi
  rw [getD_vec _ _ _ hi]

/-- C8: in its recursive case `kcycle` is two steps of flexible preconditioned CG. With
`M(r)` the `x` that plain `cycle` on the same range `[lvl, end)` returns for the
right-hand side `r` and the zero initial guess, `s0 = M(rhs)`, `p0 = s0`,
`a0 = <rhs, s0> / <A p0, p0>`, `r1 = rhs - a0 * A p0`, `s1 = M(r1)`,
`b = <r1, s1> / <rhs, s0>`, `p1 = s1 + b * p0` and `a1 = <r1, s1> / <A p1, p1>`, the call
returns `x + a0 * p0 + a1 * p1`, whenever the three divisors are not zero. The
preconditioner is applied twice, to `rhs` and to `r1`. -/
theorem kcycle_two_steps (prm : params) (lvl nxt : Instance K) (rest : List (Instance K))
    (w : Workspace K) (ws : List (Workspace K)) (rhs x : List K)
    (s0 s1 r1 p1 : List K) (a0 b a1 : K)
    (h : levels_ok (lvl :: nxt :: rest)) (ht : w.t.length = lvl.A.rows)
    (hcg : w.cg_ok lvl.A.rows) (hws : workspaces_ok (nxt :: rest) ws)
    (hr : rhs.length = lvl.A.rows) (hx : x.length = lvl.A.rows)
    (h0 : x_of (cycle prm true (lvl :: nxt :: rest) w ws rhs
      (List.replicate lvl.A.rows 0)) = Except.ok s0)
    (hd0 : dot lvl.A.rows (mat_vec lvl.A.rows lvl.A s0) s0 ≠ 0)
    (ha0 : a0 = dot lvl.A.rows rhs s0 / dot lvl.A.rows (mat_vec lvl.A.rows lvl.A s0) s0)
    (hr1 : r1 = vec lvl.A.rows fun i =>
      rhs.getD i 0 - a0 * (mat_vec lvl.A.rows lvl.A s0).getD i 0)
    (h1 : x_of (cycle prm true (lvl :: nxt :: rest) w ws r1
      (List.replicate lvl.A.rows 0)) = Except.ok s1)
    (hdb : dot lvl.A.rows rhs s0 ≠ 0)
    (hb : b = dot lvl.A.rows r1 s1 / dot lvl.A.rows rhs s0)
    (hp1 : p1 = vec lvl.A.rows fun i => s1.getD i 0 + b * s0.getD i 0)
    (hd1 : dot lvl.A.rows (mat_vec lvl.A.rows lvl.A p1) p1 ≠ 0)
    (ha1 : a1 = dot lvl.A.rows r1 s1 / dot lvl.A.rows (mat_vec lvl.A.rows lvl.A p1) p1) :
    x_of (kcycle prm (lvl :: nxt :: rest) w ws rhs x) =
      Except.ok (vec lvl.A.rows fun i =>
        x.getD i 0 + a0 * s0.getD i 0 + a1 * p1.getD i 0) := by
  rw [kcycle_unfold prm lvl nxt rest w ws rhs x h ht hcg hws hr hx]
  have hs0 : s0.length = lvl.A.rows := by
    rw [x_of_cycle prm true lvl (nxt :: rest) w ws rhs _ h ht hws hr
      (List.length_replicate _ _)] at h0
    exact cycle_val_length prm lvl (nxt :: rest) w ws rhs _ s0 h ht hws hr
      (List.length_replicate _ _) h0
  exact kcycle_with_ok _ lvl.A rhs x s0 s1 r1 p1 a0 b a1 hr hs0 h0 hd0 ha0 hr1 h1 hdb hb hp1
    hd1 ha1

end claim_kcycle

section concrete

theorem relax_val_ok {K : Type} [Field K] [DecidableEq K] (A : matrix K) (rhs x : List K)
    (hd : ∀ i < A.rows, diag A i ≠ 0) :
    relax_val A rhs x = Except.ok (vec A.rows fun i =>
      x.getD i 0 + 0.72 * ((rhs.getD i 0 - row_sum A x i) / diag A i)) :=
  if_pos hd

theorem exA_diag : ∀ i < exA.rows, diag exA i ≠ 0 := by
  intro i hi
  have hi2 : i < 2 := hi
  interval_cases i <;> simp [diag, row_entries, exA, List.range']

theorem ex_cycle_val (a b : ℚ) :
    cycle_val ⟨1, 1, 0, 0⟩ [exF, exC] [false] [a, b] [0, 0] =
      Except.ok [17 / 25 * a + 8 / 25 * b, 8 / 25 * a + 17 / 25 * b] := by
  rw [cycle_val_cons]
  simp only [times, cycle_step, pure_eq_ok, bind_ok, Bool.false_eq_true, if_false]
  rw [show exF.A = exA from rfl, relax_val_ok exA _ _ exA_diag]
  simp only [bind_ok, cycle_val, pure_eq_ok]
  simp [vec, row_sum, mat_vec, residual, row_entries, diag, exF, exC, exP, exAci, exR, exA,
    exAc, List.range_succ, List.range']
  constructor <;> ring

end concrete

section concrete_kcycle

theorem ex_cycle_x (a b : ℚ) :
    x_of (cycle ⟨1, 1, 0, 0⟩ true [exF, exC] exWF [exWC] [a, b]
      (List.replicate exF.A.rows 0)) =
      Except.ok [17 / 25 * a + 8 / 25 * b, 8 / 25 * a + 17 / 25 * b] := by
  rw [x_of_cycle ⟨1, 1, 0, 0⟩ true exF [exC] exWF [exWC] [a, b] _ (by decide) rfl (by decide)
    rfl (List.length_replicate _ _)]
  exact ex_cycle_val a b

theorem kcycle_two_steps_witness :
    levels_ok [exF, exC] ∧ exWF.cg_ok exF.A.rows ∧ workspaces_ok [exC] [exWC] ∧
    x_of (kcycle ⟨1, 1, 0, 0⟩ [exF, exC] exWF [exWC] [1, 0] [0, 0]) =
      Except.ok [2 / 3, 1 / 3] := by
  refine ⟨by decide, by decide, by decide, ?_⟩
  have key := kcycle_two_steps ⟨1, 1, 0, 0⟩ exF exC [] exWF [exWC] [1, 0] [0, 0]
    [17 / 25 * 1 + 8 / 25 * 0, 8 / 25 * 1 + 17 / 25 * 0]
    [17 / 25 * (-4 / 217) + 8 / 25 * (17 / 434), 8 / 25 * (-4 / 217) + 17 / 25 * (17 / 434)]
    [-4 / 217, 17 / 434]
    [153 / 188356, 1989 / 94178]
    (425 / 434) (225 / 188356) (434 / 459)
    (by decide) rfl (by decide) (by decide) rfl rfl
    (ex_cycle_x 1 0)
    (by
      simp [dot, vec, row_sum, mat_vec, row_entries, exF, exA, List.range_succ, List.range']
      norm_num)
    (by
      simp [dot, vec, row_sum, mat_vec, row_entries, exF, exA, List.range_succ, List.range']
      norm_num)
    (by
      simp [dot, vec, row_sum, mat_vec, row_entries, exF, exA, List.range_succ, List.range']
      norm_num)
    (ex_cycle_x _ _)
    (by
      simp [dot, vec, row_sum, mat_vec, row_entries, exF, exA, List.range_succ, List.range'])
    (by
      simp [dot, vec, row_sum, mat_vec, row_entries, exF, exA, List.range_succ, List.range']
      norm_num)
    (by
      simp [dot, vec, row_sum, mat_vec, row_entries, exF, exA, List.range_succ, List.range']
      norm_num)
    (by
      simp [dot, vec, row_sum, mat_vec, row_entries, exF, exA, List.range_succ, List.range']
      norm_num)
    (by
      simp [dot, vec, row_sum, mat_vec, row_entries, exF, exA, List.range_succ, List.range']
      norm_num)
  rw [key]
  simp [vec, exF, exA, List.range_succ]
  norm_num

end concrete_kcycle

section claim_preconditioner

variable {K : Type} [Field K] [DecidableEq K]

theorem sub_val_last (prm : params) (nxt : Instance K) (k : Bool) (ks : List Bool)
    (f u : List K) :
    (if k then kcycle_val prm [nxt] ks f u else cycle_val prm [nxt] ks f u) =
      Except.ok (mat_vec nxt.A.rows nxt.Ai f) := by
  cases k
  · simp only [Bool.false_eq_true, if_false]
    rw [cycle_val]
    rfl
  · simp only [if_true]
    rw [kcycle_val]
    rfl

theorem kcycle_with_breakdown (M : List K → Except Fault (List K)) (A : matrix K)
    (rhs x : List K) (s0 s1 r1 p1 : List K) (a0 b : K)
    (hr : rhs.length = A.rows) (hs0 : s0.length = A.rows)
    (h0 : M rhs = Except.ok s0)
    (hd0 : dot A.rows (mat_vec A.rows A s0) s0 ≠ 0)
    (ha0 : a0 = dot A.rows rhs s0 / dot A.rows (mat_vec A.rows A s0) s0)
    (hr1 : r1 = vec A.rows fun i => rhs.getD i 0 - a0 * (mat_vec A.rows A s0).getD i 0)
    (h1 : M r1 = Except.ok s1)
    (hdb : dot A.rows rhs s0 ≠ 0)
    (hb : b = dot A.rows r1 s1 / dot A.rows rhs s0)
    (hp1 : p1 = vec A.rows fun i => s1.getD i 0 + b * s0.getD i 0)
    (hd1 : dot A.rows (mat_vec A.rows A p1) p1 = 0) :
    kcycle_with M A rhs x = Except.error Fault.divide := by
  unfold kcycle_with
  simp only
  rw [vec_getD_self _ rhs hr, h0]
  simp only [bind_ok]
  rw [vec_getD_self _ s0 hs0, fdiv_of_ne _ _ hd0, ← ha0]
  simp only [bind_ok]
  rw [← hr1, h1]
  simp only [bind_ok]
  rw [fdiv_of_ne _ _ hdb, ← hb]
  simp only [bind_ok]
  rw [← hp1]
  simp [fdiv, hd1]

/-- C9 (as the code has it): in the recursive case of `kcycle` at level `lvl`, step 2a
computes `s` by one application of plain `cycle` on the same range `[lvl, end)`, with
right-hand side `r` and a zeroed `s`. The call on `[next, end)` (`cycle` if `next` has no
K-cycle workspace, `kcycle` otherwise; the direct solve when `lvl` is the
coarsest-adjacent level) is made inside that application, once in each of its `ncycle`
passes, between the relaxations of level `lvl`. -/
theorem kcycle_preconditioner (prm : params) (lvl nxt : Instance K)
    (rest : List (Instance K)) (w wn : Workspace K) (ws : List (Workspace K))
    (rhs x : List K) (h : levels_ok (lvl :: nxt :: rest)) (ht : w.t.length = lvl.A.rows)
    (hcg : w.cg_ok lvl.A.rows) (hws : workspaces_ok (nxt :: rest) (wn :: ws))
    (hr : rhs.length = lvl.A.rows) (hx : x.length = lvl.A.rows) :
    x_of (kcycle prm (lvl :: nxt :: rest) w (wn :: ws) rhs x) =
      kcycle_with (fun r => x_of (cycle prm true (lvl :: nxt :: rest) w (wn :: ws) r
        (List.replicate lvl.A.rows 0))) lvl.A rhs x ∧
    (∀ r : List K, r.length = lvl.A.rows →
      x_of (cycle prm true (lvl :: nxt :: rest) w (wn :: ws) r
        (List.replicate lvl.A.rows 0)) =
      times prm.ncycle (fun y => do
        let y' ← times prm.npre (fun y => Prod.snd <$> relax lvl w true r y) y
        let c ← sub_call prm nxt rest wn ws
          (mat_vec nxt.A.rows lvl.R (residual lvl.A r y')) (List.replicate nxt.A.rows 0)
        times prm.npost (fun y => Prod.snd <$> relax lvl w true r y)
          (vec lvl.A.rows fun i => y'.getD i 0 + row_sum lvl.P c i))
        (List.replicate lvl.A.rows 0)) ∧
    (rest = [] → ∀ f u : List K, f.length = nxt.A.rows → u.length = nxt.A.rows →
      sub_call prm nxt rest wn ws f u = Except.ok (mat_vec nxt.A.rows nxt.Ai f)) := by
  refine ⟨kcycle_unfold prm lvl nxt rest w (wn :: ws) rhs x h ht hcg hws hr hx,
    fun r hrl => cycle_unfold prm true lvl nxt rest w wn ws r _ h ht hws hrl
      (List.length_replicate _ _), ?_⟩
  intro hrest f u hf hu
  subst hrest
  rw [sub_call_eq prm nxt [] wn ws f u h.2.2.2 hws.1 hws.2 hf hu]
  exact sub_val_last prm nxt wn.kflag _ f u

theorem kcycle_preconditioner_witness :
    levels_ok [exF, exC] ∧ exWF.t.length = exF.A.rows ∧ exWF.cg_ok exF.A.rows ∧
    workspaces_ok [exC] [exWC] ∧
    (x_of (kcycle ⟨1, 1, 0, 0⟩ [exF, exC] exWF [exWC] [1, 0] [0, 0]) =
      kcycle_with (fun r => x_of (cycle ⟨1, 1, 0, 0⟩ true [exF, exC] exWF [exWC] r
        (List.replicate exF.A.rows 0))) exF.A [1, 0] [0, 0] ∧
    (∀ r : List ℚ, r.length = exF.A.rows →
      x_of (cycle ⟨1, 1, 0, 0⟩ true [exF, exC] exWF [exWC] r
        (List.replicate exF.A.rows 0)) =
      times 1 (fun y => do
        let y' ← times 1 (fun y => Prod.snd <$> relax exF exWF true r y) y
        let c ← sub_call ⟨1, 1, 0, 0⟩ exC [] exWC []
          (mat_vec exC.A.rows exF.R (residual exF.A r y')) (List.replicate exC.A.rows 0)
        times 0 (fun y => Prod.snd <$> relax exF exWF true r y)
          (vec exF.A.rows fun i => y'.getD i 0 + row_sum exF.P c i))
        (List.replicate exF.A.rows 0)) ∧
    (([] : List (Instance ℚ)) = [] → ∀ f u : List ℚ, f.length = exC.A.rows →
      u.length = exC.A.rows →
      sub_call ⟨1, 1, 0, 0⟩ exC [] exWC [] f u = Except.ok (mat_vec exC.A.rows exC.Ai f))) :=
  ⟨by decide, rfl, by decide, by decide,
    kcycle_preconditioner ⟨1, 1, 0, 0⟩ exF exC [] exWF exWC [] [1, 0] [0, 0]
      (by decide) rfl (by decide) (by decide) rfl rfl⟩

theorem ex_kcycle_x :
    x_of (kcycle ⟨1, 1, 0, 0⟩ [exF, exC] exWF [exWC] [1, 0] [0, 0]) =
      Except.ok [2 / 3, 1 / 3] := by
  rw [kcycle_unfold ⟨1, 1, 0, 0⟩ exF exC [] exWF [exWC] [1, 0] [0, 0] (by decide) rfl
    (by decide) (by decide) rfl rfl]
  rw [kcycle_with_ok _ exF.A [1, 0] [0, 0]
    [17 / 25 * 1 + 8 / 25 * 0, 8 / 25 * 1 + 17 / 25 * 0]
    [17 / 25 * (-4 / 217) + 8 / 25 * (17 / 434), 8 / 25 * (-4 / 217) + 17 / 25 * (17 / 434)]
    [-4 / 217, 17 / 434]
    [153 / 188356, 1989 / 94178]
    (425 / 434) (225 / 188356) (434 / 459) rfl rfl
    (ex_cycle_x 1 0)
    (by
      simp [dot, vec, row_sum, mat_vec, row_entries, exF, exA, List.range_succ, List.range']
      norm_num)
    (by
      simp [dot, vec, row_sum, mat_vec, row_entries, exF, exA, List.range_succ, List.range']
      norm_num)
    (by
      simp [dot, vec, row_sum, mat_vec, row_entries, exF, exA, List.range_succ, List.range']
      norm_num)
    (ex_cycle_x _ _)
    (by
      simp [dot, vec, row_sum, mat_vec, row_entries, exF, exA, List.range_succ, List.range'])
    (by
      simp [dot, vec, row_sum, mat_vec, row_entries, exF, exA, List.range_succ, List.range']
      norm_num)
    (by
      simp [dot, vec, row_sum, mat_vec, row_entries, exF, exA, List.range_succ, List.range']
      norm_num)
    (by
      simp [dot, vec, row_sum, mat_vec, row_entries, exF, exA, List.range_succ, List.range']
      norm_num)
    (by
      simp [dot, vec, row_sum, mat_vec, row_entries, exF, exA, List.range_succ, List.range']
      norm_num)]
  simp [vec, exF, exA, List.range_succ]
  norm_num

theorem ex_sub_call (a b : ℚ) :
    sub_call ⟨1, 1, 0, 0⟩ exC [] exWC [] [a, b] (List.replicate exF.A.rows 0) =
      Except.ok [1 / 2 * a, 0] := by
  have hrow : row_dot exAci [a, b] 0 = Except.ok (row_sum exAci [a, b] 0) :=
    row_dot_ok exAci [a, b] 0 (row_ok_of_wf exAci 1 2 0 (by decide) (by decide))
  have hfill := fill_rows_aux (row_dot exAci [a, b]) (row_sum exAci [a, b])
    ([0, 0] : List ℚ) 1 (by decide) (by
      intro i hi
      have : i = 0 := by omega
      subst this
      exact hrow)
  have hsolve : solve exC [a, b] [0, 0] = Except.ok [1 / 2 * a, 0] := by
    unfold solve
    rw [show exC.A.rows = 1 from rfl, show exC.Ai = exAci from rfl, hfill]
    simp [row_sum, row_entries, exAci, List.range_succ, List.range']
  unfold sub_call
  rw [show exWC.cg0.isEmpty = true from rfl, if_pos rfl, cycle,
    show List.replicate exF.A.rows (0 : ℚ) = [0, 0] from rfl, hsolve]
  rfl

/-- C9 (as the claim states it) fails: on the two-level example `kcycle` returns
`(2/3, 1/3)`, while the two steps run with the cycle one level down as the
preconditioner divide by zero. -/
theorem kcycle_not_one_level_down :
    x_of (kcycle ⟨1, 1, 0, 0⟩ [exF, exC] exWF [exWC] [1, 0] [0, 0]) = Except.ok [2 / 3, 1 / 3] ∧
    kcycle_one_level_down ⟨1, 1, 0, 0⟩ exF exC [] exWC [] [1, 0] [0, 0] =
      Except.error Fault.divide ∧
    x_of (kcycle ⟨1, 1, 0, 0⟩ [exF, exC] exWF [exWC] [1, 0] [0, 0]) ≠
      kcycle_one_level_down ⟨1, 1, 0, 0⟩ exF exC [] exWC [] [1, 0] [0, 0] := by
  have h2 : kcycle_one_level_down ⟨1, 1, 0, 0⟩ exF exC [] exWC [] [1, 0] [0, 0] =
      Except.error Fault.divide := by
    unfold kcycle_one_level_down
    exact kcycle_with_breakdown _ exF.A [1, 0] [0, 0]
      [1 / 2 * 1, 0] [1 / 2 * 0, 0] [0, 1 / 2] [0, 0] 1 0 rfl rfl
      (ex_sub_call 1 0)
      (by
        simp [dot, vec, row_sum, mat_vec, row_entries, exF, exA, List.range_succ, List.range'])
      (by
        simp [dot, vec, row_sum, mat_vec, row_entries, exF, exA, List.range_succ, List.range'])
      (by
        simp [dot, vec, row_sum, mat_vec, row_entries, exF, exA, List.range_succ, List.range'])
      (ex_sub_call _ _)
      (by
        simp [dot, vec, row_sum, mat_vec, row_entries, exF, exA, List.range_succ, List.range'])
      (by
        simp [dot, vec, row_sum, mat_vec, row_entries, exF, exA, List.range_succ, List.range'])
      (by
        simp [dot, vec, row_sum, mat_vec, row_entries, exF, exA, List.range_succ, List.range'])
      (by
        simp [dot, vec, row_sum, mat_vec, row_entries, exF, exA, List.range_succ, List.range'])
  refine ⟨ex_kcycle_x, h2, ?_⟩
  rw [ex_kcycle_x, h2]
  intro hne
  cases hne

end claim_preconditioner

section claim_relax

variable {K : Type} [Field K] [DecidableEq K]

theorem getElem?_vec (n : Nat) (g : Nat → K) (i : Nat) (h : i < n) :
    (vec n g)[i]? = some (g i) := by
  simp [vec, List.getElem?_range h]

theorem foldl_diag_none (c : Nat → Nat) (v : Nat → K) (i : Nat) (l : List Nat) (d : K)
    (h : ∀ j ∈ l, c j ≠ i) :
    l.foldl (fun d j => if c j = i then v j else d) d = d := by
  induction l generalizing d with
  | nil => rfl
  | cons a l ih =>
    rw [List.foldl_cons, if_neg (h a (List.mem_cons_self _ _))]
    exact ih d (fun j hj => h j (List.mem_cons_of_mem _ hj))

theorem diag_of_no_entry (A : matrix K) (i : Nat)
    (h : ∀ j ∈ row_entries A i, A.col.getD j 0 ≠ i) : diag A i = 1 :=
  foldl_diag_none _ _ i _ 1 h

theorem diag_of_last_entry (A : matrix K) (i j : Nat) (hj : j ∈ row_entries A i)
    (hc : A.col.getD j 0 = i)
    (hlast : ∀ j' ∈ row_entries A i, j < j' → A.col.getD j' 0 ≠ i) :
    diag A i = A.val.getD j 0 := by
  have hsorted : List.Pairwise (· < ·) (row_entries A i) := List.pairwise_lt_range' _ _
  obtain ⟨l1, l2, hl⟩ := List.append_of_mem hj
  unfold diag
  rw [hl] at hsorted hlast ⊢
  rw [List.foldl_append, List.foldl_cons, if_pos hc]
  apply foldl_diag_none
  intro j' hj'
  have hlt : j < j' := by
    have h2 := (List.pairwise_append.mp hsorted).2.1
    exact (List.pairwise_cons.mp h2).1 j' hj'
  exact hlast j' (List.mem_append_right _ (List.mem_cons_of_mem _ hj')) hlt

theorem relax_ok (lvl : Instance K) (w : Workspace K) (swap : Bool) (rhs x : List K)
    (hA : lvl.A.wf lvl.A.rows lvl.A.rows) (hr : rhs.length = lvl.A.rows)
    (hx : x.length = lvl.A.rows) (ht : w.t.length = lvl.A.rows)
    (hd : ∀ i < lvl.A.rows, diag lvl.A i ≠ 0) :
    relax lvl w swap rhs x =
      Except.ok ({ w with t := if swap then x else (vec lvl.A.rows fun i =>
          x.getD i 0 + 0.72 * ((rhs.getD i 0 - row_sum lvl.A x i) / diag lvl.A i)) },
        vec lvl.A.rows fun i =>
          x.getD i 0 + 0.72 * ((rhs.getD i 0 - row_sum lvl.A x i) / diag lvl.A i)) := by
  rw [relax_eq lvl w swap rhs x (rows_ok_of_wf _ _ _ hA) hr hx ht, relax_val_ok _ _ _ hd]
  rfl

/-- C4 (as the code has it): `relax(rhs, x)` is one weighted-Jacobi sweep with
`ω = 0.72`: for every row `i` the new `x[i]` is the old `x[i] + 0.72 * (residual_i / diag)`
with `residual_i = rhs[i] - Σ A.val[j] * x_old[A.col[j]]` summed over all stored entries of
row `i`, the diagonal one included; `diag` is the value of the last stored entry of the row
whose column is `i`. Every row reads the old `x` only. -/
theorem relax_jacobi_sweep (lvl : Instance K) (w : Workspace K) (swap : Bool)
    (rhs x : List K) (hA : lvl.A.wf lvl.A.rows lvl.A.rows) (hr : rhs.length = lvl.A.rows)
    (hx : x.length = lvl.A.rows) (ht : w.t.length = lvl.A.rows)
    (hd : ∀ i < lvl.A.rows, diag lvl.A i ≠ 0) :
    (∃ (w' : Workspace K) (y : List K), relax lvl w swap rhs x = Except.ok (w', y) ∧
      y.length = lvl.A.rows ∧
      ∀ i < lvl.A.rows, y[i]? = some (x.getD i 0 +
        0.72 * ((rhs.getD i 0 -
          ((row_entries lvl.A i).map
            (fun j => lvl.A.val.getD j 0 * x.getD (lvl.A.col.getD j 0) 0)).sum) /
          diag lvl.A i))) ∧
    ∀ i j : Nat, j ∈ row_entries lvl.A i → lvl.A.col.getD j 0 = i →
      (∀ j' ∈ row_entries lvl.A i, j < j' → lvl.A.col.getD j' 0 ≠ i) →
      diag lvl.A i = lvl.A.val.getD j 0 := by
  refine ⟨⟨_, _, relax_ok lvl w swap rhs x hA hr hx ht hd, length_vec _ _, ?_⟩, ?_⟩
  · intro i hi
    rw [getElem?_vec _ _ _ hi]
    rfl
  · intro i j hj hc hlast
    exact diag_of_last_entry lvl.A i j hj hc hlast

theorem relax_jacobi_sweep_witness :
    exF.A.wf exF.A.rows exF.A.rows ∧ (∀ i < exF.A.rows, diag exF.A i ≠ 0) ∧
    ((∃ (w' : Workspace ℚ) (y : List ℚ),
      relax exF exWF false [1, 2] [3, 4] = Except.ok (w', y) ∧
      y.length = exF.A.rows ∧
      ∀ i < exF.A.rows, y[i]? = some (([3, 4] : List ℚ).getD i 0 +
        0.72 * ((([1, 2] : List ℚ).getD i 0 -
          ((row_entries exF.A i).map
            (fun j => exF.A.val.getD j 0 * ([3, 4] : List ℚ).getD (exF.A.col.getD j 0) 0)).sum) /
          diag exF.A i))) ∧
    ∀ i j : Nat, j ∈ row_entries exF.A i → exF.A.col.getD j 0 = i →
      (∀ j' ∈ row_entries exF.A i, j < j' → exF.A.col.getD j' 0 ≠ i) →
      diag exF.A i = exF.A.val.getD j 0) :=
  ⟨by decide, exA_diag,
    relax_jacobi_sweep exF exWF false [1, 2] [3, 4] (by decide) rfl rfl rfl exA_diag⟩

/-- C4 (as the claim states it) fails: for `A = (2)`, `rhs = (1)` and `x = (1)` the
sweep returns `x[0] = 16/25`, while the formula whose sum leaves out the diagonal entry
gives `34/25`. -/
theorem relax_sum_includes_diagonal :
    relax exC exWC false [1] [1] = Except.ok ({ exWC with t := [16 / 25] }, [16 / 25]) ∧
    (16 / 25 : ℚ) ≠ ([1] : List ℚ).getD 0 0 +
      0.72 * ((([1] : List ℚ).getD 0 0 - row_sum_offdiag exC.A [1] 0) / diag exC.A 0) := by
  have hd : ∀ i < exC.A.rows, diag exC.A i ≠ 0 := by
    intro i hi
    have hi1 : i < 1 := hi
    interval_cases i
    simp [diag, row_entries, exC, exAc, List.range']
  constructor
  · rw [relax_ok exC exWC false [1] [1] (by decide) rfl rfl rfl hd]
    simp [vec, row_sum, diag, row_entries, exC, exAc, exWC, List.range_succ, List.range']
    norm_num
  · simp [row_sum_offdiag, diag, row_entries, exC, exAc, List.range']
    norm_num

/-- C5: for a row `i` of `A` without a stored entry of column `i`, `relax` divides by
`diag = 1`: the row stores `x[i] + 0.72 * (rhs[i] - Σ A.val[j] * x[A.col[j]])`, summed over
all entries of the row, without a fault; and when no other row has a stored diagonal
value of zero the sweep returns, with that value in `x[i]` and every other row `k`
updated by its own `x[k] + 0.72 * ((rhs[k] - Σ ...) / diag_k)`. -/
theorem relax_missing_diagonal (lvl : Instance K) (w : Workspace K) (swap : Bool)
    (rhs x : List K) (i : Nat) (hA : lvl.A.wf lvl.A.rows lvl.A.rows)
    (hr : rhs.length = lvl.A.rows) (hx : x.length = lvl.A.rows)
    (ht : w.t.length = lvl.A.rows) (hi : i < lvl.A.rows)
    (hno : ∀ j ∈ row_entries lvl.A i, lvl.A.col.getD j 0 ≠ i) :
    relax_row lvl.A rhs x i =
      Except.ok (x.getD i 0 + 0.72 * (rhs.getD i 0 - row_sum lvl.A x i)) ∧
    ((∀ k < lvl.A.rows, k ≠ i → diag lvl.A k ≠ 0) →
      ∃ (w' : Workspace K) (y : List K), relax lvl w swap rhs x = Except.ok (w', y) ∧
        y[i]? = some (x.getD i 0 + 0.72 * (rhs.getD i 0 - row_sum lvl.A x i)) ∧
        ∀ k < lvl.A.rows, k ≠ i → y[k]? = some (x.getD k 0 +
          0.72 * ((rhs.getD k 0 - row_sum lvl.A x k) / diag lvl.A k))) := by
  have hdi : diag lvl.A i = 1 := diag_of_no_entry lvl.A i hno
  constructor
  · rw [relax_row_eq lvl.A rhs x i (hx ▸ row_ok_of_wf _ _ _ i hA hi) (by omega) (by omega),
      hdi, fdiv_of_ne _ _ one_ne_zero, div_one]
    rfl
  · intro hd
    have hall : ∀ k < lvl.A.rows, diag lvl.A k ≠ 0 := by
      intro k hk
      by_cases hki : k = i
      · rw [hki, hdi]; exact one_ne_zero
      · exact hd k hk hki
    refine ⟨_, _, relax_ok lvl w swap rhs x hA hr hx ht hall, ?_, ?_⟩
    · rw [getElem?_vec _ _ _ hi, hdi, div_one]
    · intro k hk _
      rw [getElem?_vec _ _ _ hk]

theorem relax_missing_diagonal_witness :
    exLN.A.wf exLN.A.rows exLN.A.rows ∧ 0 < exLN.A.rows ∧
    (∀ j ∈ row_entries exLN.A 0, exLN.A.col.getD j 0 ≠ 0) ∧
    (relax_row exLN.A [1, 2] [3, 4] 0 =
      Except.ok (([3, 4] : List ℚ).getD 0 0 +
        0.72 * (([1, 2] : List ℚ).getD 0 0 - row_sum exLN.A [3, 4] 0)) ∧
    ((∀ k < exLN.A.rows, k ≠ 0 → diag exLN.A k ≠ 0) →
      ∃ (w' : Workspace ℚ) (y : List ℚ),
        relax exLN exW true [1, 2] [3, 4] = Except.ok (w', y) ∧
        y[0]? = some (([3, 4] : List ℚ).getD 0 0 +
          0.72 * (([1, 2] : List ℚ).getD 0 0 - row_sum exLN.A [3, 4] 0)) ∧
        ∀ k < exLN.A.rows, k ≠ 0 → y[k]? = some (([3, 4] : List ℚ).getD k 0 +
          0.72 * ((([1, 2] : List ℚ).getD k 0 - row_sum exLN.A [3, 4] k) /
            diag exLN.A k)))) :=
  ⟨by decide, by decide, by decide,
    relax_missing_diagonal exLN exW true [1, 2] [3, 4] 0 (by decide) rfl rfl rfl (by decide)
      (by decide)⟩

end claim_relax

section claim_resid

variable {K : Type} [LinearOrderedField K]

theorem sum_sq_nonneg (l : List Nat) (g : Nat → K) :
    0 ≤ (l.map (fun i => g i * g i)).sum := by
  induction l with
  | nil => simp
  | cons a l ih =>
    rw [List.map_cons, List.sum_cons]
    exact add_nonneg (mul_self_nonneg _) ih

theorem sum_sq_eq_zero (l : List Nat) (g : Nat → K) :
    (l.map (fun i => g i * g i)).sum = 0 ↔ ∀ i ∈ l, g i = 0 := by
  induction l with
  | nil => simp
  | cons a l ih =>
    rw [List.map_cons, List.sum_cons,
      add_eq_zero_iff_of_nonneg (mul_self_nonneg _) (sum_sq_nonneg l g), ih]
    simp

theorem resid_ok (sqrt : K → K) (lvl : Instance K) (rhs x : List K)
    (hA : lvl.A.wf lvl.A.rows lvl.A.rows) (hr : rhs.length = lvl.A.rows)
    (hx : x.length = lvl.A.rows) :
    resid sqrt lvl rhs x = Except.ok (sqrt (((List.range lvl.A.rows).map
      (fun i => (rhs.getD i 0 - row_sum lvl.A x i) * (rhs.getD i 0 - row_sum lvl.A x i))).sum)) := by
  unfold resid
  rw [foldlM_pure _ _ (fun norm i =>
    norm + (rhs.getD i 0 - row_sum lvl.A x i) * (rhs.getD i 0 - row_sum lvl.A x i))]
  · rw [foldl_add]
    simp
  · intro s j hj
    rw [List.mem_range] at hj
    rw [row_res_ok lvl.A rhs x j (hx ▸ row_ok_of_wf _ _ _ j hA hj) (by omega)]
    rfl

/-- C7: `resid(rhs, x)` returns the Euclidean norm of `rhs - A * x`: for a square root
`sqrt` of the value type, the value returned is non-negative, its square is the sum over
the rows `i < A.rows` of `(rhs[i] - Σ A.val[j] * x[A.col[j]])²`, and it is zero exactly
when `A * x = rhs`. The call returns a number only: `x`, `rhs`, the matrices and the
workspace of the level are not written. -/
theorem resid_euclidean_norm (sqrt : K → K)
    (hsqrt : ∀ v : K, 0 ≤ v → 0 ≤ sqrt v ∧ sqrt v * sqrt v = v)
    (lvl : Instance K) (rhs x : List K)
    (hA : lvl.A.wf lvl.A.rows lvl.A.rows) (hr : rhs.length = lvl.A.rows)
    (hx : x.length = lvl.A.rows) :
    ∃ ρ : K, resid sqrt lvl rhs x = Except.ok ρ ∧ 0 ≤ ρ ∧
      ρ * ρ = ((List.range lvl.A.rows).map (fun i =>
        (rhs.getD i 0 - ((row_entries lvl.A i).map
          (fun j => lvl.A.val.getD j 0 * x.getD (lvl.A.col.getD j 0) 0)).sum) ^ 2)).sum ∧
      (ρ = 0 ↔ ∀ i < lvl.A.rows, ((row_entries lvl.A i).map
          (fun j => lvl.A.val.getD j 0 * x.getD (lvl.A.col.getD j 0) 0)).sum = rhs.getD i 0) := by
  have hnn := sum_sq_nonneg (List.range lvl.A.rows) (fun i => rhs.getD i 0 - row_sum lvl.A x i)
  obtain ⟨h1, h2⟩ := hsqrt _ hnn
  refine ⟨_, resid_ok sqrt lvl rhs x hA hr hx, h1, ?_, ?_⟩
  · rw [h2]
    simp only [row_sum, pow_two]
  · constructor
    · intro h0
      rw [h0, mul_zero] at h2
      have := (sum_sq_eq_zero _ _).mp h2.symm
      intro i hi
      have hi' := this i (List.mem_range.mpr hi)
      simp only [row_sum] at hi'
      exact (sub_eq_zero.mp hi').symm
    · intro hall
      have hz : ((List.range lvl.A.rows).map (fun i =>
          (rhs.getD i 0 - row_sum lvl.A x i) * (rhs.getD i 0 - row_sum lvl.A x i))).sum = 0 := by
        rw [sum_sq_eq_zero]
        intro i hi
        have := hall i (List.mem_range.mp hi)
        simp only [row_sum]
        rw [this, sub_self]
      exact mul_self_eq_zero.mp (h2.trans hz)

theorem resid_euclidean_norm_witness :
    (∀ v : ℝ, 0 ≤ v → 0 ≤ Real.sqrt v ∧ Real.sqrt v * Real.sqrt v = v) ∧
    (⟨1, [0, 1], [0], [2]⟩ : matrix ℝ).wf 1 1 ∧
    ∃ ρ : ℝ, resid Real.sqrt (⟨⟨1, [0, 1], [0], [2]⟩, ⟨0, [0], [], []⟩, ⟨0, [0], [], []⟩,
        ⟨0, [0], [], []⟩⟩ : Instance ℝ) [5] [1] = Except.ok ρ ∧ 0 ≤ ρ ∧
      ρ * ρ = ((List.range 1).map (fun i =>
        (([5] : List ℝ).getD i 0 - ((row_entries (⟨1, [0, 1], [0], [2]⟩ : matrix ℝ) i).map
          (fun j => ([2] : List ℝ).getD j 0 * ([1] : List ℝ).getD (([0] : List Nat).getD j 0) 0)).sum)
            ^ 2)).sum ∧
      (ρ = 0 ↔ ∀ i < 1, ((row_entries (⟨1, [0, 1], [0], [2]⟩ : matrix ℝ) i).map
          (fun j => ([2] : List ℝ).getD j 0 *
            ([1] : List ℝ).getD (([0] : List Nat).getD j 0) 0)).sum = ([5] : List ℝ).getD i 0) :=
  ⟨fun v hv => ⟨Real.sqrt_nonneg v, Real.mul_self_sqrt hv⟩, by decide,
    resid_euclidean_norm Real.sqrt
      (fun v hv => ⟨Real.sqrt_nonneg v, Real.mul_self_sqrt hv⟩)
      (⟨⟨1, [0, 1], [0], [2]⟩, ⟨0, [0], [], []⟩, ⟨0, [0], [], []⟩, ⟨0, [0], [], []⟩⟩ : Instance ℝ)
      [5] [1] (by decide) rfl rfl⟩

end claim_resid

section claim_fixed_point

variable {K : Type} [Field K] [DecidableEq K]

theorem times_fixed {σ : Type} (f : σ → Except Fault σ) (s : σ) (h : f s = Except.ok s) :
    ∀ n, times n f s = Except.ok s := by
  intro n
  induction n with
  | zero => rfl
  | succ n ih =>
    show (f s >>= times n f) = Except.ok s
    rw [h]
    exact ih

theorem getD_replicate_zero (n i : Nat) : (List.replicate n (0 : K)).getD i 0 = 0 := by
  by_cases h : i < n
  · simp [List.getD, List.getElem?_replicate, h]
  · simp [List.getD, List.getElem?_replicate, h]

theorem row_sum_zero (M : matrix K) (n i : Nat) :
    row_sum M (List.replicate n 0) i = 0 := by
  unfold row_sum
  apply List.sum_eq_zero
  intro v hv
  rw [List.mem_map] at hv
  obtain ⟨j, _, hj⟩ := hv
  rw [← hj, getD_replicate_zero, mul_zero]

theorem vec_zero (n : Nat) : (vec n fun _ => (0 : K)) = List.replicate n 0 :=
  map_const_range n 0

theorem mat_vec_zero (m n : Nat) (M : matrix K) :
    mat_vec m M (List.replicate n 0) = List.replicate m 0 := by
  rw [← vec_zero m]
  exact vec_congr m _ _ (fun i _ => row_sum_zero M n i)

theorem relax_val_fixed (A : matrix K) (rhs x : List K) (hx : x.length = A.rows)
    (hd : ∀ i < A.rows, diag A i ≠ 0)
    (hsol : ∀ i < A.rows, row_sum A x i = rhs.getD i 0) :
    relax_val A rhs x = Except.ok x := by
  rw [relax_val_ok A rhs x hd]
  congr 1
  rw [← vec_getD_self A.rows x hx]
  apply vec_congr
  intro i hi
  rw [vec_getD_self A.rows x hx, hsol i hi, sub_self, zero_div, mul_zero, add_zero]

theorem residual_zero_of_solution (A : matrix K) (rhs x : List K)
    (hsol : ∀ i < A.rows, row_sum A x i = rhs.getD i 0) :
    residual A rhs x = List.replicate A.rows 0 := by
  unfold residual
  rw [← vec_zero]
  apply vec_congr
  intro i hi
  rw [hsol i hi, sub_self]

theorem cycle_step_fixed (prm : params) (lvl : Instance K) (nc : Nat)
    (sub : List K → List K → Except Fault (List K)) (rhs x : List K)
    (hx : x.length = lvl.A.rows) (hd : ∀ i < lvl.A.rows, diag lvl.A i ≠ 0)
    (hsol : ∀ i < lvl.A.rows, row_sum lvl.A x i = rhs.getD i 0)
    (hsub : sub (List.replicate nc 0) (List.replicate nc 0) = Except.ok (List.replicate nc 0)) :
    cycle_step prm lvl nc sub rhs x = Except.ok x := by
  have hrel := relax_val_fixed lvl.A rhs x hx hd hsol
  unfold cycle_step
  rw [times_fixed _ x hrel]
  simp only [bind_ok]
  rw [residual_zero_of_solution lvl.A rhs x hsol, mat_vec_zero, hsub]
  simp only [bind_ok]
  have hv : (vec lvl.A.rows fun i => x.getD i 0 + row_sum lvl.P (List.replicate nc 0) i) = x := by
    rw [← vec_getD_self lvl.A.rows x hx]
    apply vec_congr
    intro i hi
    rw [vec_getD_self lvl.A.rows x hx, row_sum_zero, add_zero]
  rw [hv]
  exact times_fixed _ x hrel _

theorem cycle_val_zero (prm : params) (rest : List (Instance K)) :
    ∀ (lvl : Instance K) (ks : List Bool), relax_defined (lvl :: rest) →
      ks.length = rest.length → (∀ k ∈ ks.dropLast, k = false) →
      cycle_val prm (lvl :: rest) ks (List.replicate lvl.A.rows 0)
        (List.replicate lvl.A.rows 0) = Except.ok (List.replicate lvl.A.rows 0) := by
  induction rest with
  | nil =>
    intro lvl ks _ _ _
    rw [cycle_val, mat_vec_zero]
    rfl
  | cons nxt rest ih =>
    intro lvl ks hdef hlen hks
    cases ks with
    | nil => simp at hlen
    | cons k ks =>
    rw [cycle_val_cons]
    apply times_fixed
    apply cycle_step_fixed prm lvl nxt.A.rows _ _ _ (List.length_replicate _ _) hdef.1
    · intro i _
      rw [row_sum_zero, getD_replicate_zero]
    · cases rest with
      | nil => rw [sub_val_last, mat_vec_zero]
      | cons nxt2 rest =>
        cases ks with
        | nil => simp at hlen
        | cons k2 ks =>
        have hk : k = false := hks k (by simp [List.dropLast])
        subst hk
        simp only [Bool.false_eq_true, if_false]
        exact ih nxt (k2 :: ks) hdef.2 (by simpa using hlen)
          (fun k' hk' => hks k' (by
            rw [List.dropLast_cons₂]
            exact List.mem_cons_of_mem _ hk'))

theorem cycle_val_fixed (prm : params) (lvl nxt : Instance K) (rest : List (Instance K))
    (ks : List Bool) (rhs x : List K) (hdef : relax_defined (lvl :: nxt :: rest))
    (hlen : ks.length = rest.length + 1) (hks : ∀ k ∈ ks.dropLast, k = false)
    (hx : x.length = lvl.A.rows)
    (hsol : ∀ i < lvl.A.rows, row_sum lvl.A x i = rhs.getD i 0) :
    cycle_val prm (lvl :: nxt :: rest) ks rhs x = Except.ok x := by
  cases ks with
  | nil => simp at hlen
  | cons k ks =>
  rw [cycle_val_cons]
  apply times_fixed
  apply cycle_step_fixed prm lvl nxt.A.rows _ _ _ hx hdef.1 hsol
  cases rest with
  | nil => rw [sub_val_last, mat_vec_zero]
  | cons nxt2 rest =>
    cases ks with
    | nil => simp at hlen
    | cons k2 ks =>
    have hk : k = false := hks k (by simp [List.dropLast])
    subst hk
    simp only [Bool.false_eq_true, if_false]
    exact cycle_val_zero prm (nxt2 :: rest) nxt (k2 :: ks) hdef.2 (by simpa using hlen)
      (fun k' hk' => hks k' (by
        rw [List.dropLast_cons₂]
        exact List.mem_cons_of_mem _ hk'))

theorem length_of_workspaces_ok {K : Type} :
    ∀ (lv : List (Instance K)) (ws : List (Workspace K)), workspaces_ok lv ws →
      ws.length = lv.length := by
  intro lv
  induction lv with
  | nil =>
    intro ws h
    cases ws with
    | nil => rfl
    | cons w ws => exact h.elim
  | cons l lv ih =>
    intro ws h
    cases ws with
    | nil => exact h.elim
    | cons w ws =>
      simp only [List.length_cons]
      rw [ih ws h.2]

theorem kflag_of_no_kcycle {K : Type} (ws : List (Workspace K)) (h : no_kcycle ws) :
    ∀ k ∈ (ws.map Workspace.kflag).dropLast, k = false := by
  intro k hk
  rw [← List.map_dropLast, List.mem_map] at hk
  obtain ⟨w, hw, hwk⟩ := hk
  rw [← hwk]
  unfold Workspace.kflag
  rw [h w hw]
  rfl

theorem sim_ok_of_val {σ τ : Type} {Inv : σ → Prop} {proj : σ → τ} {c : Except Fault σ}
    {v : Except Fault τ} {y : τ} (h : Sim Inv proj c v) (hv : v = Except.ok y) :
    ∃ s, c = Except.ok s ∧ Inv s ∧ proj s = y := by
  rcases sim_cases h with ⟨e, _, hve⟩ | ⟨s, hc, hi, hvs⟩
  · rw [hv] at hve; cases hve
  · rw [hv] at hvs
    injection hvs with hvs
    exact ⟨s, hc, hi, hvs.symm⟩

theorem sim_error_of_val {σ τ : Type} {Inv : σ → Prop} {proj : σ → τ} {c : Except Fault σ}
    {v : Except Fault τ} {e : Fault} (h : Sim Inv proj c v) (hv : v = Except.error e) :
    c = Except.error e := by
  rcases sim_cases h with ⟨e', hc, hve⟩ | ⟨s, _, _, hvs⟩
  · rw [hv] at hve
    injection hve with hve
    rw [hc, hve]
  · rw [hv] at hvs; cases hvs

/-- C2 (as the code has it): on a well-formed range of at least two levels in which no
level between the first and the last has K-cycle workspace and no relaxed level (every
level but the last) stores a zero diagonal value, if `A * x = rhs` for the operator `A`
of the first level, then `cycle` called with `rhs` and the initial guess `x` returns
`x`, for every parameter record and either overload of `vector_copy`. -/
theorem cycle_fixed_point (prm : params) (swap : Bool) (lvl nxt : Instance K)
    (rest : List (Instance K)) (w : Workspace K) (ws : List (Workspace K)) (rhs x : List K)
    (h : levels_ok (lvl :: nxt :: rest)) (ht : w.t.length = lvl.A.rows)
    (hws : workspaces_ok (nxt :: rest) ws) (hnk : no_kcycle ws)
    (hdef : relax_defined (lvl :: nxt :: rest))
    (hr : rhs.length = lvl.A.rows) (hx : x.length = lvl.A.rows)
    (hsol : mat_vec lvl.A.rows lvl.A x = rhs) :
    ∃ (w' : Workspace K) (ws' : List (Workspace K)),
      cycle prm swap (lvl :: nxt :: rest) w ws rhs x = Except.ok (w', ws', x) := by
  have hsim := (cycle_kcycle_sim prm (nxt :: rest) lvl h).1 swap w ws rhs x ht hws hr hx
  have hrow : ∀ i < lvl.A.rows, row_sum lvl.A x i = rhs.getD i 0 := by
    intro i hi
    rw [← hsol]
    simp [mat_vec, List.getD, List.getElem?_range hi]
  have hval := cycle_val_fixed prm lvl nxt rest (ws.map Workspace.kflag) rhs x hdef
    (by rw [List.length_map, length_of_workspaces_ok _ _ hws]; rfl)
    (kflag_of_no_kcycle ws hnk) hx hrow
  obtain ⟨⟨w', ws', y⟩, hc, _, hy⟩ := sim_ok_of_val hsim hval
  simp only at hy
  subst hy
  exact ⟨w', ws', hc⟩

end claim_fixed_point

section claim_fixed_point_inputs

theorem ex_kcycle_val_zero :
    kcycle_val ⟨1, 0, 0, 1⟩ [exT, exTc] [false] [0] [0] = Except.error Fault.divide := by
  rw [kcycle_val]
  unfold kcycle_with
  simp only [cycle_val_cons, times, cycle_step, pure_eq_ok, bind_ok, Bool.false_eq_true,
    if_false, cycle_val]
  simp [vec, row_sum, mat_vec, residual, row_entries, dot, fdiv, exT, exTc, exI,
    List.range_succ, List.range']

theorem ex_cycle_val_kcycle :
    cycle_val ⟨1, 0, 0, 1⟩ [exT, exT, exTc] [true, false] [1] [1] =
      Except.error Fault.divide := by
  rw [cycle_val_cons]
  simp only [times, cycle_step, pure_eq_ok, bind_ok, if_true]
  have hf : mat_vec exT.A.rows exT.R (residual exT.A [1] [1]) = [0] := by
    simp [vec, row_sum, mat_vec, residual, row_entries, exT, exI, List.range_succ, List.range']
  rw [hf, show List.replicate exT.A.rows (0 : ℚ) = [0] from rfl, ex_kcycle_val_zero]
  rfl

theorem ex_cycle_val_zero_diag :
    cycle_val ⟨1, 1, 0, 0⟩ [exTz, exTc] [false] [0] [1] = Except.error Fault.divide := by
  rw [cycle_val_cons]
  have hd : ¬ ∀ i < exTz.A.rows, diag exTz.A i ≠ 0 := by
    intro h
    exact h 0 (by decide) (by simp [diag, row_entries, exTz, exZ, List.range'])
  simp only [times, cycle_step, pure_eq_ok, bind_ok, relax_val, if_neg hd]
  rfl

theorem exI_diag : ∀ i < exT.A.rows, diag exT.A i ≠ 0 := by
  intro i hi
  have hi1 : i < 1 := hi
  interval_cases i
  simp [diag, row_entries, exT, exI, List.range']

theorem cycle_fixed_point_witness :
    levels_ok [exF, exT, exTc] ∧ exWF.t.length = exF.A.rows ∧
    workspaces_ok [exT, exTc] [exWC, exWK] ∧
    no_kcycle [exWC, exWK] ∧ relax_defined [exF, exT, exTc] ∧
    mat_vec exF.A.rows exF.A [1, 1] = ([1, 1] : List ℚ) ∧
    ∃ (w' : Workspace ℚ) (ws' : List (Workspace ℚ)),
      cycle ⟨2, 1, 1, 1⟩ false [exF, exT, exTc] exWF [exWC, exWK] [1, 1] [1, 1] =
        Except.ok (w', ws', [1, 1]) := by
  have hnk : no_kcycle [exWC, exWK] := by
    intro w hw
    have hw' : w = exWC := by simpa [List.dropLast] using hw
    rw [hw']
    rfl
  have hsol : mat_vec exF.A.rows exF.A [1, 1] = ([1, 1] : List ℚ) := by
    simp [row_sum, mat_vec, row_entries, exF, exA, List.range_succ, List.range']
    norm_num
  exact ⟨by decide, rfl, by decide, hnk, ⟨exA_diag, exI_diag, trivial⟩, hsol,
    cycle_fixed_point ⟨2, 1, 1, 1⟩ false exF exT [exTc] exWF [exWC, exWK] [1, 1] [1, 1]
      (by decide) rfl (by decide) hnk ⟨exA_diag, exI_diag, trivial⟩ rfl rfl hsol⟩

/-- C2 (as the claim states it) fails, at three inputs with `A * x = rhs`.
On one level with `A = (2)` and `Ai = (1)`, `cycle` returns `Ai * rhs = (2)`, not
`x = (1)`. On three levels of which the second has K-cycle workspace, `kcycle` is run on
a zero right-hand side and divides `0` by `0`. On two levels whose first operator stores
the diagonal value `0`, `relax` divides by it. -/
theorem cycle_fixed_point_fails :
    (levels_ok [exTw] ∧ mat_vec exTw.A.rows exTw.A [1] = ([2] : List ℚ) ∧
      cycle ⟨1, 0, 0, 0⟩ false [exTw] exWC [] [2] [1] = Except.ok (exWC, [], [2])) ∧
    (levels_ok [exT, exT, exTc] ∧ workspaces_ok [exT, exTc] [exWK, exWC] ∧
      mat_vec exT.A.rows exT.A [1] = ([1] : List ℚ) ∧
      cycle ⟨1, 0, 0, 1⟩ false [exT, exT, exTc] exWC [exWK, exWC] [1] [1] =
        Except.error Fault.divide) ∧
    (levels_ok [exTz, exTc] ∧ workspaces_ok [exTc] [exWC] ∧
      mat_vec exTz.A.rows exTz.A [1] = ([0] : List ℚ) ∧
      cycle ⟨1, 1, 0, 0⟩ false [exTz, exTc] exWC [exWC] [0] [1] =
        Except.error Fault.divide) := by
  refine ⟨⟨by decide, ?_, ?_⟩, ⟨by decide, by decide, ?_, ?_⟩, ⟨by decide, by decide, ?_, ?_⟩⟩
  · simp [row_sum, mat_vec, row_entries, exTw, exAc, List.range_succ, List.range']
  · rw [cycle, solve_ok exTw [2] [1]
      (rows_ok_of_wf exTw.Ai 1 1 (by decide)) rfl]
    simp [row_sum, mat_vec, row_entries, exTw, exI, exAc, List.range_succ, List.range']
  · simp [row_sum, mat_vec, row_entries, exT, exI, List.range_succ, List.range']
  · exact sim_error_of_val
      ((cycle_kcycle_sim ⟨1, 0, 0, 1⟩ [exT, exTc] exT (by decide)).1 false exWC [exWK, exWC]
        [1] [1] rfl (by decide) rfl rfl) ex_cycle_val_kcycle
  · simp [row_sum, mat_vec, row_entries, exTz, exZ, List.range_succ, List.range']
  · exact sim_error_of_val
      ((cycle_kcycle_sim ⟨1, 1, 0, 0⟩ [exTc] exTz (by decide)).1 false exWC [exWC]
        [0] [1] rfl (by decide) rfl rfl) ex_cycle_val_zero_diag

end claim_fixed_point_inputs

/-! ## The Jacobi sweep on a doubly diagonally dominant matrix -/

section contraction

variable {K : Type} [LinearOrderedField K]

open Finset in
theorem weighted_sq_le (s : Finset Nat) (w z : Nat → K) (hw : ∀ j ∈ s, 0 ≤ w j)
    (hW : ∑ j ∈ s, w j ≤ 1) :
    (∑ j ∈ s, w j * z j) ^ 2 ≤ ∑ j ∈ s, w j * z j ^ 2 := by
  set m := ∑ j ∈ s, w j * z j with hm
  set W := ∑ j ∈ s, w j with hWd
  have hvar : 0 ≤ ∑ j ∈ s, w j * (z j - m) ^ 2 :=
    Finset.sum_nonneg (fun j hj => mul_nonneg (hw j hj) (sq_nonneg _))
  have hexp : ∑ j ∈ s, w j * (z j - m) ^ 2 =
      ∑ j ∈ s, w j * z j ^ 2 - 2 * m * m + m ^ 2 * W := by
    have : ∀ j ∈ s, w j * (z j - m) ^ 2 = w j * z j ^ 2 - 2 * m * (w j * z j) + m ^ 2 * w j := by
      intro j _
      ring
    rw [Finset.sum_congr rfl this, Finset.sum_add_distrib, Finset.sum_sub_distrib,
      ← Finset.mul_sum, ← Finset.mul_sum]
  rw [hexp] at hvar
  have hW0 : 0 ≤ W := Finset.sum_nonneg hw
  nlinarith [sq_nonneg m, mul_nonneg (sq_nonneg m) (sub_nonneg.mpr hW)]

open Finset in
theorem offdiag_sq_le (s : Finset Nat) (u : Nat → K) (c : Nat → Nat) (r : Nat → K)
    (hW : ∑ j ∈ s, |u j| ≤ 1) :
    (∑ j ∈ s, u j * r (c j)) ^ 2 ≤ ∑ j ∈ s, |u j| * r (c j) ^ 2 := by
  have h1 : |∑ j ∈ s, u j * r (c j)| ≤ ∑ j ∈ s, |u j| * |r (c j)| := by
    refine (Finset.abs_sum_le_sum_abs _ _).trans (le_of_eq ?_)
    exact Finset.sum_congr rfl (fun j _ => abs_mul _ _)
  have h2 := weighted_sq_le s (fun j => |u j|) (fun j => |r (c j)|)
    (fun j _ => abs_nonneg _) hW
  have h3 : (∑ j ∈ s, u j * r (c j)) ^ 2 ≤ (∑ j ∈ s, |u j| * |r (c j)|) ^ 2 := by
    rw [← sq_abs (∑ j ∈ s, u j * r (c j))]
    exact pow_le_pow_left₀ (abs_nonneg _) h1 2
  refine h3.trans (h2.trans (le_of_eq ?_))
  exact Finset.sum_congr rfl (fun j _ => by rw [sq_abs])

open Finset in
theorem jacobi_contract (n : Nat) (E : Nat → Finset Nat) (u : Nat → K) (c : Nat → Nat)
    (r : Nat → K)
    (hc : ∀ i < n, ∀ j ∈ E i, c j < n)
    (hrow : ∀ i < n, ∑ j ∈ (E i).filter (fun j => c j ≠ i), |u j| ≤ 1)
    (hcol : ∀ k < n, ∑ i ∈ range n, ∑ j ∈ (E i).filter (fun j => c j = k ∧ c j ≠ i), |u j| ≤ 1) :
    ∑ i ∈ range n, (7 / 25 * r i - 18 / 25 *
        ∑ j ∈ (E i).filter (fun j => c j ≠ i), u j * r (c j)) ^ 2 ≤
      ∑ i ∈ range n, r i ^ 2 := by
  have hstep : ∀ i ∈ range n, (7 / 25 * r i - 18 / 25 *
        ∑ j ∈ (E i).filter (fun j => c j ≠ i), u j * r (c j)) ^ 2 ≤
      7 / 25 * r i ^ 2 + 18 / 25 *
        ∑ j ∈ (E i).filter (fun j => c j ≠ i), |u j| * r (c j) ^ 2 := by
    intro i hi
    have hS := offdiag_sq_le ((E i).filter (fun j => c j ≠ i)) u c r
      (hrow i (mem_range.mp hi))
    nlinarith [sq_nonneg (r i + ∑ j ∈ (E i).filter (fun j => c j ≠ i), u j * r (c j))]
  have hswap : ∑ i ∈ range n, ∑ j ∈ (E i).filter (fun j => c j ≠ i), |u j| * r (c j) ^ 2 =
      ∑ k ∈ range n, r k ^ 2 *
        ∑ i ∈ range n, ∑ j ∈ (E i).filter (fun j => c j = k ∧ c j ≠ i), |u j| := by
    have h1 : ∀ i ∈ range n, ∑ j ∈ (E i).filter (fun j => c j ≠ i), |u j| * r (c j) ^ 2 =
        ∑ k ∈ range n, ∑ j ∈ (E i).filter (fun j => c j = k ∧ c j ≠ i), |u j| * r k ^ 2 := by
      intro i hi
      have hfib := Finset.sum_fiberwise_of_maps_to
        (s := (E i).filter (fun j => c j ≠ i)) (t := range n) (g := c)
        (fun j hj => mem_range.mpr (hc i (mem_range.mp hi) j (mem_filter.mp hj).1))
        (fun j => |u j| * r (c j) ^ 2)
      rw [← hfib]
      refine Finset.sum_congr rfl (fun k _ => ?_)
      rw [Finset.filter_filter]
      refine Finset.sum_congr ?_ (fun j hj => ?_)
      · ext j
        simp only [mem_filter]
        tauto
      · rw [(mem_filter.mp hj).2.1]
    rw [Finset.sum_congr rfl h1, Finset.sum_comm]
    refine Finset.sum_congr rfl (fun k _ => ?_)
    rw [Finset.mul_sum]
    refine Finset.sum_congr rfl (fun i _ => ?_)
    rw [Finset.mul_sum]
    exact Finset.sum_congr rfl (fun j _ => mul_comm _ _)
  calc ∑ i ∈ range n, (7 / 25 * r i - 18 / 25 *
        ∑ j ∈ (E i).filter (fun j => c j ≠ i), u j * r (c j)) ^ 2
      ≤ ∑ i ∈ range n, (7 / 25 * r i ^ 2 + 18 / 25 *
        ∑ j ∈ (E i).filter (fun j => c j ≠ i), |u j| * r (c j) ^ 2) :=
        Finset.sum_le_sum hstep
    _ = 7 / 25 * ∑ i ∈ range n, r i ^ 2 + 18 / 25 * ∑ k ∈ range n, r k ^ 2 *
        ∑ i ∈ range n, ∑ j ∈ (E i).filter (fun j => c j = k ∧ c j ≠ i), |u j| := by
        rw [Finset.sum_add_distrib, ← Finset.mul_sum, ← Finset.mul_sum, hswap]
    _ ≤ 7 / 25 * ∑ i ∈ range n, r i ^ 2 + 18 / 25 * ∑ k ∈ range n, r k ^ 2 * 1 := by
        have : ∑ k ∈ range n, r k ^ 2 *
            ∑ i ∈ range n, ∑ j ∈ (E i).filter (fun j => c j = k ∧ c j ≠ i), |u j| ≤
            ∑ k ∈ range n, r k ^ 2 * 1 :=
          Finset.sum_le_sum (fun k hk =>
            mul_le_mul_of_nonneg_left (hcol k (mem_range.mp hk)) (sq_nonneg _))
        linarith
    _ = ∑ i ∈ range n, r i ^ 2 := by
        simp only [mul_one]
        ring

end contraction

section claim_monotone

variable {K : Type} [LinearOrderedField K]

theorem list_sum_range (n : Nat) (f : Nat → K) :
    ((List.range n).map f).sum = ∑ i ∈ Finset.range n, f i := by
  induction n with
  | zero => simp
  | succ n ih => rw [List.range_succ, List.map_append, List.sum_append, ih,
      Finset.sum_range_succ]; simp

theorem row_sum_finset (A : matrix K) (x : List K) (i : Nat) :
    row_sum A x i =
      ∑ j ∈ (row_entries A i).toFinset, A.val.getD j 0 * x.getD (A.col.getD j 0) 0 := by
  exact (List.sum_toFinset _
    (show (row_entries A i).Nodup from List.nodup_range' _ _)).symm

theorem filter_sum_finset (l : List Nat) (hl : l.Nodup) (p : Nat → Prop) [DecidablePred p]
    (f : Nat → K) :
    ((l.filter (fun j => p j)).map f).sum = ∑ j ∈ l.toFinset.filter p, f j := by
  rw [← List.sum_toFinset _ (hl.filter _), List.toFinset_filter]
  refine Finset.sum_congr ?_ (fun _ _ => rfl)
  ext j
  simp

theorem diag_of_one_diagonal (A : matrix K) (d : K) (h : one_diagonal A d) :
    ∀ i < A.rows, diag A i = d := by
  intro i hi
  obtain ⟨j, hj, hc, hv, huniq⟩ := h i hi
  rw [diag_of_last_entry A i j hj hc, hv]
  intro j' hj' hlt hc'
  have := huniq j' hj' hc'
  omega

theorem new_residual (A : matrix K) (d : K) (rhs x : List K)
    (hA : A.wf A.rows A.rows) (hd : d ≠ 0) (h1 : one_diagonal A d) (i : Nat)
    (hi : i < A.rows) :
    rhs.getD i 0 - row_sum A (vec A.rows fun k =>
        x.getD k 0 + 0.72 * ((rhs.getD k 0 - row_sum A x k) / d)) i =
      7 / 25 * (rhs.getD i 0 - row_sum A x i) - 18 / 25 *
        ∑ j ∈ (row_entries A i).toFinset.filter (fun j => A.col.getD j 0 ≠ i),
          A.val.getD j 0 / d * (rhs.getD (A.col.getD j 0) 0 - row_sum A x (A.col.getD j 0)) := by
  obtain ⟨j0, hj0, hc0, hv0, huniq⟩ := h1 i hi
  have hrow := row_ok_of_wf A A.rows A.rows i hA hi
  have hcol : ∀ j ∈ (row_entries A i).toFinset, A.col.getD j 0 < A.rows := by
    intro j hj
    exact (hrow.2 j (List.mem_toFinset.mp hj)).2.2
  have hy : row_sum A (vec A.rows fun k =>
        x.getD k 0 + 0.72 * ((rhs.getD k 0 - row_sum A x k) / d)) i =
      row_sum A x i + ∑ j ∈ (row_entries A i).toFinset,
        A.val.getD j 0 * (18 / 25 *
          ((rhs.getD (A.col.getD j 0) 0 - row_sum A x (A.col.getD j 0)) / d)) := by
    rw [row_sum_finset, row_sum_finset A x i, ← Finset.sum_add_distrib]
    refine Finset.sum_congr rfl (fun j hj => ?_)
    rw [getD_vec _ _ _ (hcol j hj)]
    norm_num
    ring
  have hsplit := Finset.sum_filter_add_sum_filter_not (row_entries A i).toFinset
    (fun j => A.col.getD j 0 = i) (fun j => A.val.getD j 0 * (18 / 25 *
      ((rhs.getD (A.col.getD j 0) 0 - row_sum A x (A.col.getD j 0)) / d)))
  have hdiag : ∑ j ∈ (row_entries A i).toFinset.filter (fun j => A.col.getD j 0 = i),
      A.val.getD j 0 * (18 / 25 *
        ((rhs.getD (A.col.getD j 0) 0 - row_sum A x (A.col.getD j 0)) / d)) =
      18 / 25 * (rhs.getD i 0 - row_sum A x i) := by
    have hmem : j0 ∈ (row_entries A i).toFinset.filter (fun j => A.col.getD j 0 = i) :=
      Finset.mem_filter.mpr ⟨List.mem_toFinset.mpr hj0, hc0⟩
    rw [Finset.sum_eq_single_of_mem j0 hmem]
    · rw [hc0, hv0]
      field_simp
      ring
    · intro b hb hne
      obtain ⟨hb1, hb2⟩ := Finset.mem_filter.mp hb
      exact absurd (huniq b (List.mem_toFinset.mp hb1) hb2) hne
  have hoff : ∑ j ∈ (row_entries A i).toFinset.filter (fun j => ¬ A.col.getD j 0 = i),
      A.val.getD j 0 * (18 / 25 *
        ((rhs.getD (A.col.getD j 0) 0 - row_sum A x (A.col.getD j 0)) / d)) =
      18 / 25 * ∑ j ∈ (row_entries A i).toFinset.filter (fun j => A.col.getD j 0 ≠ i),
        A.val.getD j 0 / d *
          (rhs.getD (A.col.getD j 0) 0 - row_sum A x (A.col.getD j 0)) := by
    rw [Finset.mul_sum]
    refine Finset.sum_congr rfl (fun j _ => ?_)
    field_simp
    ring
  rw [hy, ← hsplit, hdiag, hoff]
  ring

theorem sum_sq_relax_le (A : matrix K) (d : K) (rhs x : List K)
    (hA : A.wf A.rows A.rows) (hd : d ≠ 0) (h1 : one_diagonal A d)
    (hrow : ∀ i < A.rows, row_offdiag_abs A i ≤ |d|) (hcol : col_dominant A d) :
    ((List.range A.rows).map (fun i =>
      (rhs.getD i 0 - row_sum A (vec A.rows fun k =>
        x.getD k 0 + 0.72 * ((rhs.getD k 0 - row_sum A x k) / d)) i) *
      (rhs.getD i 0 - row_sum A (vec A.rows fun k =>
        x.getD k 0 + 0.72 * ((rhs.getD k 0 - row_sum A x k) / d)) i))).sum ≤
    ((List.range A.rows).map (fun i =>
      (rhs.getD i 0 - row_sum A x i) * (rhs.getD i 0 - row_sum A x i))).sum := by
  have hdpos : 0 < |d| := abs_pos.mpr hd
  rw [list_sum_range, list_sum_range]
  have hcontr := jacobi_contract A.rows (fun i => (row_entries A i).toFinset)
    (fun j => A.val.getD j 0 / d) (fun j => A.col.getD j 0)
    (fun i => rhs.getD i 0 - row_sum A x i)
    (fun i hi j hj =>
      ((row_ok_of_wf A A.rows A.rows i hA hi).2 j (List.mem_toFinset.mp hj)).2.2)
    (by
      intro i hi
      have h := hrow i hi
      unfold row_offdiag_abs at h
      rw [filter_sum_finset (row_entries A i) (List.nodup_range' _ _)
        (fun j => A.col.getD j 0 ≠ i) (fun j => |A.val.getD j 0|)] at h
      have : ∑ j ∈ (row_entries A i).toFinset.filter (fun j => A.col.getD j 0 ≠ i),
          |A.val.getD j 0 / d| =
          (∑ j ∈ (row_entries A i).toFinset.filter (fun j => A.col.getD j 0 ≠ i),
            |A.val.getD j 0|) / |d| := by
        rw [Finset.sum_div]
        exact Finset.sum_congr rfl (fun j _ => abs_div _ _)
      rw [this, div_le_one hdpos]
      exact h)
    (by
      intro k hk
      have h := hcol k hk
      unfold col_offdiag_abs at h
      rw [list_sum_range] at h
      have : ∑ i ∈ Finset.range A.rows,
          ∑ j ∈ (row_entries A i).toFinset.filter
            (fun j => A.col.getD j 0 = k ∧ A.col.getD j 0 ≠ i), |A.val.getD j 0 / d| =
          (∑ i ∈ Finset.range A.rows,
            ∑ j ∈ (row_entries A i).toFinset.filter
              (fun j => A.col.getD j 0 = k ∧ A.col.getD j 0 ≠ i), |A.val.getD j 0|) / |d| := by
        rw [Finset.sum_div]
        refine Finset.sum_congr rfl (fun i _ => ?_)
        rw [Finset.sum_div]
        exact Finset.sum_congr rfl (fun j _ => abs_div _ _)
      rw [this, div_le_one hdpos]
      refine le_trans (le_of_eq ?_) h
      refine Finset.sum_congr rfl (fun i _ => ?_)
      exact (filter_sum_finset (row_entries A i) (List.nodup_range' _ _)
        (fun j => A.col.getD j 0 = k ∧ A.col.getD j 0 ≠ i) (fun j => |A.val.getD j 0|)).symm)
  refine le_trans (le_of_eq ?_) (le_trans hcontr (le_of_eq ?_))
  · refine Finset.sum_congr rfl (fun i hi => ?_)
    rw [new_residual A d rhs x hA hd h1 i (Finset.mem_range.mp hi), ← pow_two]
  · exact Finset.sum_congr rfl (fun i _ => pow_two _)

end claim_monotone

section claim_monotone_code

variable {K : Type} [LinearOrderedField K]

theorem relax_times_ok (lvl : Instance K) (swap : Bool) (rhs : List K)
    (hA : lvl.A.wf lvl.A.rows lvl.A.rows) (hr : rhs.length = lvl.A.rows)
    (hd : ∀ i < lvl.A.rows, diag lvl.A i ≠ 0) :
    ∀ (m : Nat) (w : Workspace K) (x : List K), w.t.length = lvl.A.rows →
      x.length = lvl.A.rows →
      ∃ (wm : Workspace K) (xm : List K),
        times m (fun wx => relax lvl wx.1 swap rhs wx.2) (w, x) = Except.ok (wm, xm) ∧
        wm.t.length = lvl.A.rows ∧ xm.length = lvl.A.rows := by
  intro m
  induction m with
  | zero =>
    intro w x ht hx
    exact ⟨w, x, rfl, ht, hx⟩
  | succ m ih =>
    intro w x ht hx
    have hstep := relax_ok lvl w swap rhs x hA hr hx ht hd
    obtain ⟨wm, xm, h1, h2, h3⟩ := ih
      { w with t := if swap then x else (vec lvl.A.rows fun i =>
          x.getD i 0 + 0.72 * ((rhs.getD i 0 - row_sum lvl.A x i) / diag lvl.A i)) }
      (vec lvl.A.rows fun i =>
          x.getD i 0 + 0.72 * ((rhs.getD i 0 - row_sum lvl.A x i) / diag lvl.A i))
      (by cases swap <;> simp [hx]) (length_vec _ _)
    refine ⟨wm, xm, ?_, h2, h3⟩
    show ((fun wx : Workspace K × List K => relax lvl wx.1 swap rhs wx.2) (w, x) >>=
      times m (fun wx => relax lvl wx.1 swap rhs wx.2)) = Except.ok (wm, xm)
    simp only [hstep, bind_ok]
    exact h1

/-- C6 (as the code supports it): for a matrix `A` with exactly one stored diagonal
entry in every row, all of the same value `d ≠ 0`, that is diagonally dominant both by
rows and by columns, one call `relax(rhs, x)` does not increase the residual norm,
`resid(rhs, relax(rhs, x)) ≤ resid(rhs, x)`, for every `rhs` and `x`; hence the residual
norm does not increase over any number of consecutive sweeps. `sqrt` is any square root
function that is monotone on the non-negative values. -/
theorem relax_residual_monotone (sqrt : K → K)
    (hsqrt : ∀ a b : K, 0 ≤ a → a ≤ b → sqrt a ≤ sqrt b)
    (lvl : Instance K) (w : Workspace K) (swap : Bool) (rhs x : List K) (d : K)
    (hA : lvl.A.wf lvl.A.rows lvl.A.rows) (hr : rhs.length = lvl.A.rows)
    (hx : x.length = lvl.A.rows) (ht : w.t.length = lvl.A.rows)
    (hd : d ≠ 0) (h1 : one_diagonal lvl.A d) (hrow : row_dominant lvl.A)
    (hcol : col_dominant lvl.A d) :
    ∀ m : Nat, ∃ (wm : Workspace K) (xm : List K) (w' : Workspace K) (y : List K) (ρ ρ' : K),
      times m (fun wx => relax lvl wx.1 swap rhs wx.2) (w, x) = Except.ok (wm, xm) ∧
      relax lvl wm swap rhs xm = Except.ok (w', y) ∧
      resid sqrt lvl rhs xm = Except.ok ρ ∧ resid sqrt lvl rhs y = Except.ok ρ' ∧
      ρ' ≤ ρ := by
  intro m
  have hdiag := diag_of_one_diagonal lvl.A d h1
  have hdne : ∀ i < lvl.A.rows, diag lvl.A i ≠ 0 := fun i hi => by rw [hdiag i hi]; exact hd
  obtain ⟨wm, xm, hm, htm, hxm⟩ := relax_times_ok lvl swap rhs hA hr hdne m w x ht hx
  have hy := relax_ok lvl wm swap rhs xm hA hr hxm htm hdne
  have hvec : (vec lvl.A.rows fun i =>
      xm.getD i 0 + 0.72 * ((rhs.getD i 0 - row_sum lvl.A xm i) / diag lvl.A i)) =
      vec lvl.A.rows fun i =>
        xm.getD i 0 + 0.72 * ((rhs.getD i 0 - row_sum lvl.A xm i) / d) :=
    vec_congr _ _ _ (fun i hi => by rw [hdiag i hi])
  refine ⟨wm, xm, _, _, _, _, hm, hy, resid_ok sqrt lvl rhs xm hA hr hxm,
    resid_ok sqrt lvl rhs _ hA hr (length_vec _ _), ?_⟩
  rw [hvec]
  apply hsqrt
  · exact sum_sq_nonneg _ (fun i => rhs.getD i 0 - row_sum lvl.A _ i)
  · exact sum_sq_relax_le lvl.A d rhs xm hA hd h1
      (fun i hi => by have := hrow i hi; rwa [hdiag i hi] at this) hcol

end claim_monotone_code

section claim_monotone_inputs

theorem exSr_one_diagonal : one_diagonal exSr 2 := by
  intro i hi
  have hi2 : i < 2 := hi
  interval_cases i
  · refine ⟨0, by decide, rfl, rfl, ?_⟩
    intro j' hj' hc
    have hj2 : j' = 0 ∨ j' = 1 := by
      simpa [row_entries, exSr, List.range'] using hj'
    rcases hj2 with h | h
    · exact h
    · subst h
      simp [exSr] at hc
  · refine ⟨3, by decide, rfl, rfl, ?_⟩
    intro j' hj' hc
    have hj2 : j' = 2 ∨ j' = 3 := by
      simpa [row_entries, exSr, List.range'] using hj'
    rcases hj2 with h | h
    · subst h
      simp [exSr] at hc
    · exact h

theorem exSr_row_dominant : row_dominant exSr := by
  intro i hi
  have hi2 : i < 2 := hi
  interval_cases i <;>
    simp [row_offdiag_abs, diag, row_entries, exSr, List.range', List.filter]

theorem exSr_col_dominant : col_dominant exSr 2 := by
  intro k hk
  have hk2 : k < 2 := hk
  interval_cases k <;>
    simp [col_offdiag_abs, row_entries, exSr, List.range', List.range_succ, List.filter]

theorem relax_residual_monotone_witness :
    (∀ a b : ℝ, 0 ≤ a → a ≤ b → Real.sqrt a ≤ Real.sqrt b) ∧
    exLs.A.wf exLs.A.rows exLs.A.rows ∧ (2 : ℝ) ≠ 0 ∧ one_diagonal exLs.A 2 ∧
    row_dominant exLs.A ∧ col_dominant exLs.A 2 ∧
    ∀ m : Nat, ∃ (wm : Workspace ℝ) (xm : List ℝ) (w' : Workspace ℝ) (y : List ℝ) (ρ ρ' : ℝ),
      times m (fun wx => relax exLs wx.1 false [1, 0] wx.2) (exWr, [0, 0]) =
        Except.ok (wm, xm) ∧
      relax exLs wm false [1, 0] xm = Except.ok (w', y) ∧
      resid Real.sqrt exLs [1, 0] xm = Except.ok ρ ∧
      resid Real.sqrt exLs [1, 0] y = Except.ok ρ' ∧ ρ' ≤ ρ :=
  ⟨fun _ _ _ hab => Real.sqrt_le_sqrt hab, by decide, two_ne_zero, exSr_one_diagonal,
    exSr_row_dominant, exSr_col_dominant,
    relax_residual_monotone Real.sqrt (fun _ _ _ hab => Real.sqrt_le_sqrt hab)
      exLs exWr false [1, 0] [0, 0] 2 (by decide) rfl rfl rfl two_ne_zero
      exSr_one_diagonal exSr_row_dominant exSr_col_dominant⟩

/-- C6 (as the claim states it) fails: the matrix with rows `(24, 0)` and `(65, 72)` is
strictly diagonally dominant and has a diagonal entry in every row, yet for
`rhs = (100, 0)` and `x = (0, 0)` the sweep returns `x = (3, 0)`, and the residual norm
grows from `100` to `197`. -/
theorem relax_residual_may_grow :
    has_diagonal exLr.A ∧ row_dominant exLr.A ∧
    relax exLr exWr false [100, 0] [0, 0] = Except.ok ({ exWr with t := [3, 0] }, [3, 0]) ∧
    resid Real.sqrt exLr [100, 0] [0, 0] = Except.ok 100 ∧
    resid Real.sqrt exLr [100, 0] [3, 0] = Except.ok 197 ∧
    ¬ ((197 : ℝ) ≤ 100) := by
  refine ⟨?_, ?_, ?_, ?_, ?_, by norm_num⟩
  · intro i hi
    have hi2 : i < 2 := hi
    interval_cases i
    · exact ⟨0, by decide, rfl⟩
    · exact ⟨2, by decide, rfl⟩
  · intro i hi
    have hi2 : i < 2 := hi
    interval_cases i <;>
      norm_num [row_offdiag_abs, diag, row_entries, exLr, exDr, List.range', List.filter]
  · rw [relax_ok exLr exWr false [100, 0] [0, 0] (by decide) rfl rfl rfl (by
      intro i hi
      have hi2 : i < 2 := hi
      interval_cases i <;> simp [diag, row_entries, exLr, exDr, List.range'])]
    simp [vec, row_sum, diag, row_entries, exLr, exDr, exWr, List.range_succ, List.range']
    norm_num
  · rw [resid_ok Real.sqrt exLr [100, 0] [0, 0] (by decide) rfl rfl]
    simp [row_sum, row_entries, exLr, exDr, List.range_succ, List.range']
  · rw [resid_ok Real.sqrt exLr [100, 0] [3, 0] (by decide) rfl rfl]
    simp [row_sum, row_entries, exLr, exDr, List.range_succ, List.range']
    norm_num
    rw [show (38809 : ℝ) = 197 ^ 2 by norm_num]
    exact Real.sqrt_sq (by norm_num)

end claim_monotone_inputs

/-! ## The constructors -/

section claim_construction

variable {K : Type} [Field K] [DecidableEq K]

/-- C11: after `instance(a, p, r, prm, nlevel)` each of the four `cg` vectors has
`A.rows` entries when `nlevel ≠ 0`, `prm.kcycle ≠ 0` and `nlevel % prm.kcycle = 0`, and
is empty otherwise, so at position 0 `cg` is empty whatever `prm.kcycle` is; the
constructor of the coarsest level leaves the four `cg` vectors empty. -/
theorem interior_cg_rule (dflt a p r ai : matrix K) (prm : params) (nlevel : Nat) :
    (instance_interior dflt a p r prm nlevel).1.A = a ∧
    (∀ v ∈ [(instance_interior dflt a p r prm nlevel).2.cg0,
        (instance_interior dflt a p r prm nlevel).2.cg1,
        (instance_interior dflt a p r prm nlevel).2.cg2,
        (instance_interior dflt a p r prm nlevel).2.cg3],
      v.length = if nlevel ≠ 0 ∧ prm.kcycle ≠ 0 ∧ nlevel % prm.kcycle = 0 then a.rows else 0) ∧
    (instance_interior dflt a p r prm 0).2.cg0 = [] ∧
    (∀ v ∈ [(instance_coarsest dflt a ai prm nlevel).2.cg0,
        (instance_coarsest dflt a ai prm nlevel).2.cg1,
        (instance_coarsest dflt a ai prm nlevel).2.cg2,
        (instance_coarsest dflt a ai prm nlevel).2.cg3], v = []) := by
  refine ⟨?_, ?_, ?_, ?_⟩
  · unfold instance_interior
    split_ifs <;> rfl
  · intro v hv
    unfold instance_interior at hv
    by_cases h0 : nlevel ≠ 0
    · by_cases hk : prm.kcycle ≠ 0 ∧ nlevel % prm.kcycle = 0
      · rw [if_pos h0, if_pos hk] at hv
        rw [if_pos ⟨h0, hk⟩]
        simp only [List.mem_cons, List.mem_singleton, List.not_mem_nil, or_false, or_self] at hv
        rw [hv]
        exact List.length_replicate _ _
      · rw [if_pos h0, if_neg hk] at hv
        rw [if_neg (fun h => hk h.2)]
        simp only [List.mem_cons, List.mem_singleton, List.not_mem_nil, or_false, or_self] at hv
        rw [hv]
        rfl
    · rw [if_neg h0] at hv
      rw [if_neg (fun h => h0 h.1)]
      simp only [List.mem_cons, List.mem_singleton, List.not_mem_nil, or_false, or_self] at hv
      rw [hv]
      rfl
  · rfl
  · intro v hv
    simpa [instance_coarsest] using hv

/-- The rule of C11 as it is worded fails at position 0: with `prm.kcycle = 1` the
condition `kcycle ≠ 0` and `position % kcycle == 0` holds, the operator has two rows, and
`cg[0]` is empty after construction. -/
theorem interior_cg_empty_at_top :
    (⟨1, 1, 1, 1⟩ : params).kcycle ≠ 0 ∧ 0 % (⟨1, 1, 1, 1⟩ : params).kcycle = 0 ∧
    exA.rows = 2 ∧
    (instance_interior exE exA exP exR ⟨1, 1, 1, 1⟩ 0).2.cg0.length = 0 ∧
    ¬ ((instance_interior exE exA exP exR ⟨1, 1, 1, 1⟩ 0).2.cg0.length = exA.rows) := by
  refine ⟨by decide, by decide, rfl, rfl, ?_⟩
  decide

/-- C14: after `instance(a, p, r, prm, nlevel)` the vector `t` has `A.rows` entries, and
`u` and `f` have `A.rows` entries when `nlevel ≠ 0` and are empty when `nlevel = 0`; after
the constructor of the coarsest level `u`, `f` and `t` have `A.rows` entries. -/
theorem interior_workspace_sizes (dflt a p r ai : matrix K) (prm : params) (nlevel : Nat) :
    (instance_interior dflt a p r prm nlevel).1.A = a ∧
    (instance_interior dflt a p r prm nlevel).2.t.length = a.rows ∧
    (instance_interior dflt a p r prm nlevel).2.u.length = (if nlevel ≠ 0 then a.rows else 0) ∧
    (instance_interior dflt a p r prm nlevel).2.f.length = (if nlevel ≠ 0 then a.rows else 0) ∧
    (instance_coarsest dflt a ai prm nlevel).1.A = a ∧
    (instance_coarsest dflt a ai prm nlevel).2.t.length = a.rows ∧
    (instance_coarsest dflt a ai prm nlevel).2.u.length = a.rows ∧
    (instance_coarsest dflt a ai prm nlevel).2.f.length = a.rows := by
  unfold instance_interior instance_coarsest
  by_cases h0 : nlevel ≠ 0
  · by_cases hk : prm.kcycle ≠ 0 ∧ nlevel % prm.kcycle = 0
    · simp only [if_pos h0, if_pos hk, List.length_replicate, and_self]
    · simp only [if_pos h0, if_neg hk, List.length_replicate, and_self]
  · simp only [if_neg h0, List.length_replicate, List.length_nil, and_self]

/-- The sizing of C14 as it is worded fails at position 0: the operator has two rows,
and `u` and `f` are empty after construction. -/
theorem interior_u_f_empty_at_top :
    exA.rows = 2 ∧
    (instance_interior exE exA exP exR ⟨1, 1, 1, 0⟩ 0).2.u = [] ∧
    (instance_interior exE exA exP exR ⟨1, 1, 1, 0⟩ 0).2.f = [] ∧
    ¬ ((instance_interior exE exA exP exR ⟨1, 1, 1, 0⟩ 0).2.u.length = exA.rows) := by
  refine ⟨rfl, rfl, rfl, ?_⟩
  decide

end claim_construction

/-! ## Lengths of the vectors after a run, without any assumption on the matrices -/

section lengths

variable {K : Type} [Field K] [DecidableEq K]

theorem bind_eq_ok {α β : Type} (c : Except Fault α) (f : α → Except Fault β) (b : β) :
    (c >>= f) = Except.ok b ↔ ∃ a, c = Except.ok a ∧ f a = Except.ok b := by
  cases c with
  | error e => simp
  | ok a => simp

theorem post_bind {σ τ : Type} {Q : σ → Prop} {R : τ → Prop} {c : Except Fault σ}
    {f : σ → Except Fault τ} (hc : Post Q c) (hf : ∀ s, Q s → Post R (f s)) :
    Post R (c >>= f) := by
  intro t ht
  obtain ⟨s, hs, hfs⟩ := (bind_eq_ok c f t).mp ht
  exact hf s (hc s hs) t hfs

theorem post_ok {σ : Type} {Q : σ → Prop} (s : σ) (h : Q s) : Post Q (Except.ok s) := by
  intro t ht
  injection ht with ht
  exact ht ▸ h

theorem post_error {σ : Type} {Q : σ → Prop} (e : Fault) :
    Post Q (Except.error e : Except Fault σ) := by
  intro t ht
  cases ht

theorem post_mono {σ : Type} {Q R : σ → Prop} {c : Except Fault σ} (hc : Post Q c)
    (h : ∀ s, Q s → R s) : Post R c :=
  fun s hs => h s (hc s hs)

theorem post_times {σ : Type} {Q : σ → Prop} {body : σ → Except Fault σ}
    (hb : ∀ s, Q s → Post Q (body s)) : ∀ (n : Nat) (s : σ), Q s → Post Q (times n body s) := by
  intro n
  induction n with
  | zero => intro s hs; exact post_ok s hs
  | succ n ih =>
    intro s hs
    exact post_bind (hb s hs) ih

theorem post_foldlM {σ ι : Type} {Q : σ → Prop} {body : σ → ι → Except Fault σ}
    (hb : ∀ s i, Q s → Post Q (body s i)) : ∀ (l : List ι) (s : σ), Q s →
      Post Q (l.foldlM body s) := by
  intro l
  induction l with
  | nil => intro s hs; exact post_ok s hs
  | cons i l ih =>
    intro s hs
    rw [List.foldlM_cons]
    exact post_bind (hb s i hs) ih

theorem post_rd {α : Type} (xs : List α) (i : Nat) : Post (fun _ => i < xs.length) (rd xs i) := by
  intro v hv
  unfold rd at hv
  by_contra hlt
  rw [List.getElem?_eq_none (by omega)] at hv
  cases hv

theorem post_wr {α : Type} (xs : List α) (i : Nat) (v : α) :
    Post (fun ys => ys.length = xs.length) (wr xs i v) := by
  intro ys hys
  unfold wr at hys
  split_ifs at hys
  injection hys with hys
  rw [← hys, List.length_set]

theorem fill_rows_length {α : Type} (n : Nat) (body : Nat → Except Fault α) (buf : List α) :
    Post (fun b => b.length = buf.length) (fill_rows n body buf) := by
  unfold fill_rows
  refine post_foldlM ?_ _ buf rfl
  intro b i hb
  refine post_bind (Q := fun _ => True) (fun _ _ => trivial) ?_
  intro v _
  exact post_mono (post_wr b i v) (fun ys hys => hys.trans hb)

theorem add_rows_length (n : Nat) (body : Nat → Except Fault K) (buf : List K) :
    Post (fun b => b.length = buf.length) (add_rows n body buf) := by
  unfold add_rows
  refine post_foldlM ?_ _ buf rfl
  intro b i hb
  refine post_bind (Q := fun _ => True) (fun _ _ => trivial) ?_
  intro v _
  refine post_bind (Q := fun _ => True) (fun _ _ => trivial) ?_
  intro bi _
  exact post_mono (post_wr b i _) (fun ys hys => hys.trans hb)

theorem transform_length (n : Nat) (op : K → K → K) (a b : List K) :
    Post (fun c => c.length = a.length) (transform n op a b) := by
  unfold transform
  refine post_foldlM ?_ _ a rfl
  intro buf i hb
  refine post_bind (Q := fun _ => True) (fun _ _ => trivial) ?_
  intro ai _
  refine post_bind (Q := fun _ => True) (fun _ _ => trivial) ?_
  intro bi _
  exact post_mono (post_wr buf i _) (fun ys hys => hys.trans hb)

theorem fill_rows_first {α : Type} (n : Nat) (body : Nat → Except Fault α) (buf : List α)
    (hn : 0 < n) : Post (fun _ => ∃ v, body 0 = Except.ok v) (fill_rows n body buf) := by
  obtain ⟨m, rfl⟩ : ∃ m, n = m + 1 := ⟨n - 1, by omega⟩
  intro b hb
  unfold fill_rows at hb
  rw [List.range_succ_eq_map, List.foldlM_cons] at hb
  obtain ⟨b1, h1, _⟩ := (bind_eq_ok _ _ _).mp hb
  obtain ⟨v, hv, _⟩ := (bind_eq_ok _ _ _).mp h1
  exact ⟨v, hv⟩

theorem relax_row_reads_x (A : matrix K) (rhs x : List K) (i : Nat) :
    Post (fun _ => i < x.length) (relax_row A rhs x i) := by
  unfold relax_row
  refine post_bind (Q := fun _ => True) (fun _ _ => trivial) ?_
  intro temp _
  refine post_bind (Q := fun _ => True) (fun _ _ => trivial) ?_
  intro b _
  refine post_bind (Q := fun _ => True) (fun _ _ => trivial) ?_
  intro e _
  refine post_bind (Q := fun _ => True) (fun _ _ => trivial) ?_
  intro td _
  refine post_bind (post_rd x i) ?_
  intro xi hxi
  intro _ _
  exact hxi

end lengths
section claim_swap_copy

variable {K : Type} [Field K] [DecidableEq K]

theorem relax_cases (lvl : Instance K) (w : Workspace K) (swap : Bool) (rhs x : List K)
    (ht : w.t.length = lvl.A.rows) (hx : x.length = lvl.A.rows ∨ x.length = 0) :
    (∃ e, fill_rows lvl.A.rows (relax_row lvl.A rhs x) w.t = Except.error e ∧
      relax lvl w swap rhs x = Except.error e) ∨
    (∃ y, fill_rows lvl.A.rows (relax_row lvl.A rhs x) w.t = Except.ok y ∧
      y.length = lvl.A.rows ∧ x.length = lvl.A.rows ∧
      relax lvl w swap rhs x = Except.ok ({ w with t := if swap then x else y }, y)) := by
  cases hf : fill_rows lvl.A.rows (relax_row lvl.A rhs x) w.t with
  | error e =>
    left
    exact ⟨e, rfl, by unfold relax; rw [hf]; rfl⟩
  | ok y =>
    right
    have hy : y.length = lvl.A.rows := (fill_rows_length _ _ _ y hf).trans ht
    have hxn : x.length = lvl.A.rows := by
      rcases hx with hx | hx
      · exact hx
      · rcases Nat.eq_zero_or_pos lvl.A.rows with h0 | h0
        · rw [hx, h0]
        · obtain ⟨v, hv⟩ := fill_rows_first _ _ _ h0 y hf
          have := relax_row_reads_x lvl.A rhs x 0 v hv
          omega
    refine ⟨y, rfl, hy, hxn, ?_⟩
    unfold relax
    rw [hf]
    cases swap with
    | true => rfl
    | false =>
      have hle : y.length ≤ x.length := by omega
      have hd : x.drop y.length = [] := List.drop_eq_nil_of_le (by omega)
      simp [vector_copy, hle, hd]

theorem relax_post (lvl : Instance K) (w : Workspace K) (swap : Bool) (rhs x : List K)
    (ht : w.t.length = lvl.A.rows) (hx : x.length = lvl.A.rows ∨ x.length = 0) :
    Post (fun r => r.1.only_t w ∧ r.2.length = x.length) (relax lvl w swap rhs x) := by
  intro r hr
  rcases relax_cases lvl w swap rhs x ht hx with ⟨e, _, he⟩ | ⟨y, _, hy, hxn, hok⟩
  · rw [he] at hr; cases hr
  · rw [hok] at hr
    injection hr with hr
    subst hr
    refine ⟨⟨rfl, rfl, rfl, rfl, rfl, rfl, ?_⟩, by simp only; omega⟩
    cases swap with
    | true => simp only [if_true]; omega
    | false => simp only [Bool.false_eq_true, if_false]; omega

/-- C13: for a level whose `t` has `A.rows` entries and an `x` of `A.rows` entries, the
`relax` that ends with `std::swap(t, x)` and the `relax` that ends with copying `t` into
`x` leave the same values in `x`, or stop with the same fault; when they return, `t` holds
the old `x` after the swap and the new `x` after the copy, and nothing else of the level
differs. On a well-formed operator without a stored zero diagonal both return. -/
theorem relax_swap_copy_same (lvl : Instance K) (w : Workspace K) (rhs x : List K)
    (ht : w.t.length = lvl.A.rows) (hx : x.length = lvl.A.rows) :
    (Prod.snd <$> relax lvl w true rhs x) = (Prod.snd <$> relax lvl w false rhs x) ∧
    (∀ r, relax lvl w true rhs x = Except.ok r →
      r.1 = { w with t := x } ∧
      relax lvl w false rhs x = Except.ok ({ w with t := r.2 }, r.2)) ∧
    (lvl.A.wf lvl.A.rows lvl.A.rows → rhs.length = lvl.A.rows →
      (∀ i < lvl.A.rows, diag lvl.A i ≠ 0) →
      ∃ y, relax lvl w true rhs x = Except.ok ({ w with t := x }, y) ∧
        relax lvl w false rhs x = Except.ok ({ w with t := y }, y)) := by
  refine ⟨?_, ?_, ?_⟩
  · rcases relax_cases lvl w true rhs x ht (Or.inl hx) with ⟨e, hf, he⟩ | ⟨y, hf, _, _, hok⟩
    · rcases relax_cases lvl w false rhs x ht (Or.inl hx) with ⟨e', hf', he'⟩ | ⟨y', hf', _⟩
      · rw [hf] at hf'
        injection hf' with hf'
        subst hf'
        rw [he, he']
      · rw [hf] at hf'; cases hf'
    · rcases relax_cases lvl w false rhs x ht (Or.inl hx) with ⟨e', hf', _⟩ | ⟨y', hf', _, _, hok'⟩
      · rw [hf] at hf'; cases hf'
      · rw [hf] at hf'
        injection hf' with hf'
        subst hf'
        rw [hok, hok']
        rfl
  · intro r hr
    rcases relax_cases lvl w true rhs x ht (Or.inl hx) with ⟨e, _, he⟩ | ⟨y, hf, _, _, hok⟩
    · rw [he] at hr; cases hr
    · rw [hok] at hr
      injection hr with hr
      subst hr
      refine ⟨rfl, ?_⟩
      rcases relax_cases lvl w false rhs x ht (Or.inl hx) with ⟨e', hf', _⟩ | ⟨y', hf', _, _, hok'⟩
      · rw [hf] at hf'; cases hf'
      · rw [hf] at hf'
        injection hf' with hf'
        subst hf'
        rw [hok']
        rfl
  · intro hA hr hd
    refine ⟨_, relax_ok lvl w true rhs x hA hr hx ht hd, ?_⟩
    exact relax_ok lvl w false rhs x hA hr hx ht hd

theorem relax_swap_copy_same_witness :
    exWF.t.length = exF.A.rows ∧ ([3, 4] : List ℚ).length = exF.A.rows ∧
    (Prod.snd <$> relax exF exWF true [1, 0] [3, 4]) =
      (Prod.snd <$> relax exF exWF false [1, 0] [3, 4]) ∧
    (∀ r, relax exF exWF true [1, 0] [3, 4] = Except.ok r →
      r.1 = { exWF with t := [3, 4] } ∧
      relax exF exWF false [1, 0] [3, 4] = Except.ok ({ exWF with t := r.2 }, r.2)) ∧
    (exF.A.wf exF.A.rows exF.A.rows → ([1, 0] : List ℚ).length = exF.A.rows →
      (∀ i < exF.A.rows, diag exF.A i ≠ 0) →
      ∃ y, relax exF exWF true [1, 0] [3, 4] = Except.ok ({ exWF with t := [3, 4] }, y) ∧
        relax exF exWF false [1, 0] [3, 4] = Except.ok ({ exWF with t := y }, y)) :=
  ⟨rfl, rfl, relax_swap_copy_same exF exWF [1, 0] [3, 4] rfl rfl⟩

end claim_swap_copy

section lengths_solve

variable {K : Type} [Field K] [DecidableEq K]

theorem only_t_refl (w : Workspace K) : w.only_t w := ⟨rfl, rfl, rfl, rfl, rfl, rfl, rfl⟩

theorem only_t_trans {a b c : Workspace K} (h : a.only_t b) (g : b.only_t c) : a.only_t c := by
  obtain ⟨h1, h2, h3, h4, h5, h6, h7⟩ := h
  obtain ⟨g1, g2, g3, g4, g5, g6, g7⟩ := g
  exact ⟨h1.trans g1, h2.trans g2, h3.trans g3, h4.trans g4, h5.trans g5, h6.trans g6,
    h7.trans g7⟩

theorem sized_of_same_shape {v w : Workspace K} {n : Nat} (h : v.same_shape w)
    (hw : w.sized n) : v.sized n := by
  obtain ⟨h1, _, h3, _, h5, _, _⟩ := h
  obtain ⟨g1, g2, g3⟩ := hw
  exact ⟨h3.trans g1, by rw [h1]; exact g2, by rw [h5]; exact g3⟩

theorem sized_of_shapes {lv : List (Instance K)} {a b : List (Workspace K)}
    (h : List.Forall₂ Workspace.same_shape a b) (hb : List.Forall₂ sized_for lv b) :
    List.Forall₂ sized_for lv a := by
  induction h generalizing lv with
  | nil => exact hb
  | cons hab _ ih =>
    cases hb with
    | cons hl hb => exact List.Forall₂.cons (sized_of_same_shape hab hl) (ih hb)

end lengths_solve
section lengths_kcycle

variable {K : Type} [Field K] [DecidableEq K]

theorem post_true {σ : Type} (c : Except Fault σ) : Post (fun _ => True) c :=
  fun _ _ => trivial

end lengths_kcycle

/-! ## `size()` and `nonzeros()` -/

section claim_size

variable {K : Type} [Field K] [DecidableEq K]

theorem sized_of_built {l : Instance K} {w : Workspace K} (h : built l w) : sized_for l w := by
  rcases h with ⟨dflt, p, r, prm, nlevel, h⟩ | ⟨dflt, ai, prm, nlevel, h⟩
  · have hw : w = (instance_interior dflt l.A p r prm nlevel).2 := congrArg Prod.snd h
    rw [hw]
    unfold instance_interior sized_for Workspace.sized
    split_ifs <;> simp
  · have hw : w = (instance_coarsest dflt l.A ai prm nlevel).2 := congrArg Prod.snd h
    rw [hw]
    unfold instance_coarsest sized_for Workspace.sized
    simp

theorem sized_of_built_all {lv : List (Instance K)} {ws : List (Workspace K)}
    (h : List.Forall₂ built lv ws) : List.Forall₂ sized_for lv ws := by
  induction h with
  | nil => exact List.Forall₂.nil
  | cons h _ ih => exact List.Forall₂.cons (sized_of_built h) ih

theorem sized_splice {lv : List (Instance K)} {ws : List (Workspace K)} (k : Nat)
    {lvl : Instance K} {rest : List (Instance K)} {w : Workspace K}
    {post : List (Workspace K)} (h : List.Forall₂ sized_for lv ws)
    (hl : lv.drop k = lvl :: rest) (hw : sized_for lvl w)
    (hp : List.Forall₂ sized_for rest post) :
    List.Forall₂ sized_for lv (ws.take k ++ w :: post) := by
  have h1 : List.Forall₂ sized_for (lv.take k) (ws.take k) := List.forall₂_take k h
  have h2 : List.Forall₂ sized_for (lv.take k ++ (lvl :: rest)) (ws.take k ++ w :: post) :=
    List.rel_append h1 (List.Forall₂.cons hw hp)
  rw [← hl, List.take_append_drop] at h2
  exact h2

theorem sum_row_lengths (row : List Nat) (m : Nat)
    (h : ∀ i < m, row.getD i 0 ≤ row.getD (i + 1) 0) :
    ((List.range m).map (fun i => row.getD (i + 1) 0 - row.getD i 0)).sum + row.getD 0 0 =
      row.getD m 0 := by
  induction m with
  | zero => simp
  | succ m ih =>
    have ih1 := ih (fun i hi => h i (by omega))
    have hm := h m (by omega)
    rw [List.range_succ, List.map_append, List.sum_append]
    simp only [List.map_cons, List.map_nil, List.sum_cons, List.sum_nil]
    omega

end claim_size

/-! ## Workspace independence -/

section claim_independence

variable {K : Type} [Field K] [DecidableEq K]

theorem copy_n_empty (n : Nat) (src : List K) (hn : 0 < n) (hs : 0 < src.length) :
    copy_n n src [] = Except.error Fault.index := by
  obtain ⟨m, rfl⟩ : ∃ m, n = m + 1 := ⟨n - 1, by omega⟩
  unfold copy_n fill_rows
  rw [List.range_succ_eq_map, List.foldlM_cons, rd_of_lt src 0 0 hs]
  rfl

theorem kcycle_no_cg (prm : params) (lvl nxt : Instance K) (rest : List (Instance K))
    (w : Workspace K) (ws : List (Workspace K)) (rhs x : List K) (hcg : w.cg0 = [])
    (hn : 0 < lvl.A.rows) (hr : rhs.length = lvl.A.rows) :
    kcycle prm (lvl :: nxt :: rest) w ws rhs x = Except.error Fault.index := by
  rw [kcycle, hcg, copy_n_empty lvl.A.rows rhs hn (by omega)]
  rfl

/-- C16: on a well-formed hierarchy the `x` that `cycle` returns (or the fault it stops
with) is the same for any two contents of the workspace vectors `t`, `u`, `f` and `cg` of
the levels that have the same lengths, and for either overload of `vector_copy`: it is
`cycle_val`, a function of the matrices, the parameters, `rhs`, `x` and of which levels
have `cg` allocated. The same holds of `kcycle`, called on a level whose four `cg` vectors
are all allocated with `A.rows` entries or all empty; where the level has them allocated
or is the only one of the range, the `x` of `kcycle` is `kcycle_val`. -/
theorem workspace_independence (prm : params) (swap swap' : Bool) (lvl : Instance K)
    (rest : List (Instance K)) (w w' : Workspace K) (ws ws' : List (Workspace K))
    (rhs x : List K) (h : levels_ok (lvl :: rest)) (ht : w.t.length = lvl.A.rows)
    (hws : workspaces_ok rest ws) (hw' : w'.same_shape w)
    (hws' : List.Forall₂ Workspace.same_shape ws' ws)
    (hr : rhs.length = lvl.A.rows) (hx : x.length = lvl.A.rows) :
    x_of (cycle prm swap' (lvl :: rest) w' ws' rhs x) =
      x_of (cycle prm swap (lvl :: rest) w ws rhs x) ∧
    x_of (cycle prm swap (lvl :: rest) w ws rhs x) =
      cycle_val prm (lvl :: rest) (ws.map Workspace.kflag) rhs x ∧
    ((w.cg0 = [] ∧ w.cg1 = [] ∧ w.cg2 = [] ∧ w.cg3 = []) ∨ w.cg_ok lvl.A.rows →
      x_of (kcycle prm (lvl :: rest) w' ws' rhs x) =
        x_of (kcycle prm (lvl :: rest) w ws rhs x)) ∧
    (rest = [] ∨ w.cg_ok lvl.A.rows →
      x_of (kcycle prm (lvl :: rest) w ws rhs x) =
        kcycle_val prm (lvl :: rest) (ws.map Workspace.kflag) rhs x) := by
  have ht' : w'.t.length = lvl.A.rows := hw'.2.2.1.trans ht
  have hwsok : workspaces_ok rest ws' := workspaces_ok_of_shapes hws' hws
  have hks : ws'.map Workspace.kflag = ws.map Workspace.kflag := kflags_of_shapes hws'
  have hc := x_of_cycle prm swap lvl rest w ws rhs x h ht hws hr hx
  have hc' := x_of_cycle prm swap' lvl rest w' ws' rhs x h ht' hwsok hr hx
  have hsame : w.cg_ok lvl.A.rows →
      x_of (kcycle prm (lvl :: rest) w' ws' rhs x) =
        x_of (kcycle prm (lvl :: rest) w ws rhs x) := by
    intro hcg
    have hcg' : w'.cg_ok lvl.A.rows := by
      obtain ⟨_, _, _, g4, g5, g6, g7⟩ := hw'
      exact ⟨g4.trans hcg.1, g5.trans hcg.2.1, g6.trans hcg.2.2.1, g7.trans hcg.2.2.2⟩
    rw [x_of_kcycle prm lvl rest w ws rhs x h ht hcg hws hr hx,
      x_of_kcycle prm lvl rest w' ws' rhs x h ht' hcg' hwsok hr hx, hks]
  refine ⟨by rw [hc, hc', hks], hc, ?_, ?_⟩
  · intro hcg
    rcases hcg with ⟨e0, e1, e2, e3⟩ | hcg
    · cases rest with
      | nil =>
        rw [kcycle, kcycle]
        cases solve lvl rhs x <;> rfl
      | cons nxt rest =>
        rcases Nat.eq_zero_or_pos lvl.A.rows with h0 | h0
        · exact hsame ⟨by rw [e0, h0]; rfl, by rw [e1, h0]; rfl, by rw [e2, h0]; rfl,
            by rw [e3, h0]; rfl⟩
        · have e0' : w'.cg0 = [] := List.length_eq_zero.mp (by rw [hw'.2.2.2.1, e0]; rfl)
          rw [kcycle_no_cg prm lvl nxt rest w ws rhs x e0 h0 hr,
            kcycle_no_cg prm lvl nxt rest w' ws' rhs x e0' h0 hr]
    · exact hsame hcg
  · intro hcg
    rcases hcg with hrest | hcg
    · subst hrest
      rw [kcycle, solve_ok lvl rhs x (rows_ok_of_wf _ _ _ (hr ▸ h.2)) hx, kcycle_val]
      rfl
    · exact x_of_kcycle prm lvl rest w ws rhs x h ht hcg hws hr hx

theorem workspace_independence_witness :
    levels_ok [exF, exC] ∧ exWF.t.length = exF.A.rows ∧ workspaces_ok [exC] [exWC] ∧
    (⟨[], [], [7, 8], [1, 2], [3, 4], [5, 6], [7, 8]⟩ : Workspace ℚ).same_shape exWF ∧
    List.Forall₂ Workspace.same_shape [(⟨[5], [6], [7], [], [], [], []⟩ : Workspace ℚ)]
      [exWC] ∧
    ([1, 0] : List ℚ).length = exF.A.rows ∧ ([0, 0] : List ℚ).length = exF.A.rows ∧
    x_of (cycle ⟨1, 1, 0, 0⟩ false [exF, exC] ⟨[], [], [7, 8], [1, 2], [3, 4], [5, 6], [7, 8]⟩
        [⟨[5], [6], [7], [], [], [], []⟩] [1, 0] [0, 0]) =
      x_of (cycle ⟨1, 1, 0, 0⟩ true [exF, exC] exWF [exWC] [1, 0] [0, 0]) ∧
    x_of (cycle ⟨1, 1, 0, 0⟩ true [exF, exC] exWF [exWC] [1, 0] [0, 0]) =
      cycle_val ⟨1, 1, 0, 0⟩ [exF, exC] ([exWC].map Workspace.kflag) [1, 0] [0, 0] ∧
    ((exWF.cg0 = [] ∧ exWF.cg1 = [] ∧ exWF.cg2 = [] ∧ exWF.cg3 = []) ∨
        exWF.cg_ok exF.A.rows →
      x_of (kcycle ⟨1, 1, 0, 0⟩ [exF, exC] ⟨[], [], [7, 8], [1, 2], [3, 4], [5, 6], [7, 8]⟩
          [⟨[5], [6], [7], [], [], [], []⟩] [1, 0] [0, 0]) =
        x_of (kcycle ⟨1, 1, 0, 0⟩ [exF, exC] exWF [exWC] [1, 0] [0, 0])) ∧
    (([exC] : List (Instance ℚ)) = [] ∨ exWF.cg_ok exF.A.rows →
      x_of (kcycle ⟨1, 1, 0, 0⟩ [exF, exC] exWF [exWC] [1, 0] [0, 0]) =
        kcycle_val ⟨1, 1, 0, 0⟩ [exF, exC] ([exWC].map Workspace.kflag) [1, 0] [0, 0]) :=
  ⟨by decide, rfl, by decide, ⟨rfl, rfl, rfl, rfl, rfl, rfl, rfl⟩,
    List.Forall₂.cons ⟨rfl, rfl, rfl, rfl, rfl, rfl, rfl⟩ List.Forall₂.nil, rfl, rfl,
    workspace_independence ⟨1, 1, 0, 0⟩ true false exF [exC] exWF _ [exWC] _ [1, 0] [0, 0]
      (by decide) rfl (by decide) ⟨rfl, rfl, rfl, rfl, rfl, rfl, rfl⟩
      (List.Forall₂.cons ⟨rfl, rfl, rfl, rfl, rfl, rfl, rfl⟩ List.Forall₂.nil) rfl rfl⟩

end claim_independence

section bounds_lemmas

variable {K : Type} [Field K] [DecidableEq K]

theorem levels_ok_head (lvl : Instance K) (rest : List (Instance K))
    (h : levels_ok (lvl :: rest)) : lvl.A.wf lvl.A.rows lvl.A.rows := by
  cases rest with
  | nil => exact h.1
  | cons nxt rest => exact h.1

theorem resid_returns (sqrt : K → K) (lvl : Instance K) (rhs x : List K)
    (hA : lvl.A.wf lvl.A.rows lvl.A.rows) (hr : rhs.length = lvl.A.rows)
    (hx : x.length = lvl.A.rows) : ∃ v, resid sqrt lvl rhs x = Except.ok v := by
  unfold resid
  rw [foldlM_pure _ _ (fun norm i =>
    norm + (rhs.getD i 0 - row_sum lvl.A x i) * (rhs.getD i 0 - row_sum lvl.A x i))]
  · exact ⟨_, rfl⟩
  · intro s j hj
    rw [List.mem_range] at hj
    rw [row_res_ok lvl.A rhs x j (hx ▸ row_ok_of_wf _ _ _ j hA hj) (by omega)]
    rfl

end bounds_lemmas

/-! ## The initial guess of `kcycle` -/

section two_runs_lemmas

variable {K : Type} [Field K] [DecidableEq K]

theorem relE_same {σ : Type} (c : Except Fault σ) : RelE Eq c c := by
  cases c with
  | error e => exact rfl
  | ok s => exact rfl

theorem relE_bind {σ τ σ' τ' : Type} {R : σ → τ → Prop} {R' : σ' → τ' → Prop}
    {c : Except Fault σ} {d : Except Fault τ} {f : σ → Except Fault σ'}
    {g : τ → Except Fault τ'} (h : RelE R c d) (hf : ∀ s t, R s t → RelE R' (f s) (g t)) :
    RelE R' (c >>= f) (d >>= g) := by
  cases c with
  | error e =>
    cases d with
    | error e' => exact h
    | ok t => exact h.elim
  | ok s =>
    cases d with
    | error e' => exact h.elim
    | ok t => exact hf s t h

theorem relE_bind_same {σ σ' τ' : Type} {R' : σ' → τ' → Prop} (c : Except Fault σ)
    {f : σ → Except Fault σ'} {g : σ → Except Fault τ'} (hf : ∀ s, RelE R' (f s) (g s)) :
    RelE R' (c >>= f) (c >>= g) :=
  relE_bind (relE_same c) (fun s _ h => h ▸ hf s)

theorem relE_foldlM {σ τ ι : Type} {R : σ → τ → Prop} {body : σ → ι → Except Fault σ}
    {body' : τ → ι → Except Fault τ}
    (h : ∀ s t i, R s t → RelE R (body s i) (body' t i)) :
    ∀ (l : List ι) (s : σ) (t : τ), R s t → RelE R (l.foldlM body s) (l.foldlM body' t) := by
  intro l
  induction l with
  | nil => intro s t hst; exact hst
  | cons i l ih =>
    intro s t hst
    rw [List.foldlM_cons, List.foldlM_cons]
    exact relE_bind (h s t i hst) ih

theorem getD_set_self (xs : List K) (i : Nat) (v : K) (h : i < xs.length) :
    (xs.set i v).getD i 0 = v := by
  simp [List.getD, List.getElem?_set, h]

theorem getD_set_other (xs : List K) (i j : Nat) (v : K) (h : i ≠ j) :
    (xs.set i v).getD j 0 = xs.getD j 0 := by
  simp [List.getD, List.getElem?_set, h]

theorem transform_offset (n : Nat) (alpha : K) (a a' p : List K) (d : Nat → K)
    (hl : a.length = a'.length) (h : ∀ i, a.getD i 0 = d i + a'.getD i 0) :
    RelE (fun (b b' : List K) => b.length = a.length ∧ b'.length = a.length ∧
        ∀ i, b.getD i 0 = d i + b'.getD i 0)
      (transform n (fun xx pp => xx + alpha * pp) a p)
      (transform n (fun xx pp => xx + alpha * pp) a' p) := by
  unfold transform
  refine relE_foldlM ?_ _ a a' ⟨rfl, hl.symm, h⟩
  rintro b b' i ⟨hb, hb', hbb⟩
  by_cases hi : i < a.length
  · rw [rd_of_lt b i 0 (by omega), rd_of_lt b' i 0 (by omega)]
    simp only [bind_ok]
    refine relE_bind_same _ ?_
    intro pi
    rw [wr_of_lt b i _ (by omega), wr_of_lt b' i _ (by omega)]
    refine ⟨by rw [List.length_set]; exact hb, by rw [List.length_set]; exact hb', ?_⟩
    intro j
    by_cases hj : i = j
    · subst hj
      rw [getD_set_self _ _ _ (by omega), getD_set_self _ _ _ (by omega), hbb i]
      ring
    · rw [getD_set_other _ _ _ _ hj, getD_set_other _ _ _ _ hj]
      exact hbb j
  · have h1 : rd b i = Except.error Fault.index := by
      unfold rd
      rw [List.getElem?_eq_none (by omega)]
    have h2 : rd b' i = Except.error Fault.index := by
      unfold rd
      rw [List.getElem?_eq_none (by omega)]
    rw [h1, h2]
    exact rfl

end two_runs_lemmas
section kcycle_guess

variable {K : Type} [Field K] [DecidableEq K]

theorem kcycle_offset (prm : params) (lvl nxt : Instance K) (rest : List (Instance K))
    (w : Workspace K) (ws : List (Workspace K)) (rhs x x' : List K) (d : Nat → K)
    (hl : x.length = x'.length) (hd : ∀ i, x.getD i 0 = d i + x'.getD i 0) :
    RelE (fun (r r' : Workspace K × List (Workspace K) × List K) =>
        r.1 = r'.1 ∧ r.2.1 = r'.2.1 ∧ r.2.2.length = x.length ∧
        r'.2.2.length = x.length ∧ ∀ i, r.2.2.getD i 0 = d i + r'.2.2.getD i 0)
      (kcycle prm (lvl :: nxt :: rest) w ws rhs x)
      (kcycle prm (lvl :: nxt :: rest) w ws rhs x') := by
  rw [kcycle, kcycle]
  refine relE_bind_same _ ?_
  intro r
  refine relE_bind (relE_foldlM
    (R := fun (st st' : (Workspace K × List (Workspace K) × List K) × K) =>
      st.1.1 = st'.1.1 ∧ st.1.2.1 = st'.1.2.1 ∧ st.2 = st'.2 ∧
      st.1.2.2.length = x.length ∧ st'.1.2.2.length = x.length ∧
      ∀ i, st.1.2.2.getD i 0 = d i + st'.1.2.2.getD i 0) ?_ [0, 1] _ _
    ⟨rfl, rfl, rfl, rfl, hl.symm, hd⟩) ?_
  · rintro ⟨⟨w1, ws1, x1⟩, rho⟩ ⟨⟨w1', ws1', x1'⟩, rho'⟩ iter ⟨h1, h2, h3, h4, h5, h6⟩
    simp only at h1 h2 h3 h4 h5 h6
    subst h1 h2 h3
    refine relE_bind_same _ ?_
    intro s
    refine relE_bind_same _ ?_
    intro sub
    refine relE_bind_same _ ?_
    intro rho1
    have hjp : ∀ p : List K,
        RelE (fun (st st' : (Workspace K × List (Workspace K) × List K) × K) =>
            st.1.1 = st'.1.1 ∧ st.1.2.1 = st'.1.2.1 ∧ st.2 = st'.2 ∧
            st.1.2.2.length = x.length ∧ st'.1.2.2.length = x.length ∧
            ∀ i, st.1.2.2.getD i 0 = d i + st'.1.2.2.getD i 0)
          (fill_rows lvl.A.rows (row_dot lvl.A p) sub.1.cg3 >>= fun q =>
            inner_prod lvl q p >>= fun qp =>
            fdiv rho1 qp >>= fun alpha =>
            transform lvl.A.rows (fun xx pp => xx + alpha * pp) x1 p >>= fun x =>
            transform lvl.A.rows (fun rr qq => rr - alpha * qq) sub.1.cg0 q >>= fun r =>
            pure (({ sub.1 with cg0 := r, cg1 := sub.2.2, cg2 := p, cg3 := q }, sub.2.1, x),
              rho1))
          (fill_rows lvl.A.rows (row_dot lvl.A p) sub.1.cg3 >>= fun q =>
            inner_prod lvl q p >>= fun qp =>
            fdiv rho1 qp >>= fun alpha =>
            transform lvl.A.rows (fun xx pp => xx + alpha * pp) x1' p >>= fun x =>
            transform lvl.A.rows (fun rr qq => rr - alpha * qq) sub.1.cg0 q >>= fun r =>
            pure (({ sub.1 with cg0 := r, cg1 := sub.2.2, cg2 := p, cg3 := q }, sub.2.1, x),
              rho1)) := by
      intro p
      refine relE_bind_same _ ?_
      intro q
      refine relE_bind_same _ ?_
      intro qp
      refine relE_bind_same _ ?_
      intro alpha
      refine relE_bind (transform_offset _ alpha x1 x1' p d (h4.trans h5.symm) h6) ?_
      rintro x2 x2' ⟨g1, g2, g3⟩
      refine relE_bind_same _ ?_
      intro r2
      exact ⟨rfl, rfl, rfl, g1.trans h4, g2.trans h4, g3⟩
    simp only
    by_cases hi : iter ≠ 0
    · rw [if_pos hi, if_pos hi]
      exact relE_bind_same _ (fun beta => relE_bind_same _ hjp)
    · rw [if_neg hi, if_neg hi]
      exact relE_bind_same _ hjp
  · rintro st st' ⟨h1, h2, _, h4, h5, h6⟩
    exact ⟨h1, h2, h4, h5, h6⟩

end kcycle_guess
section claim_guess

variable {K : Type} [Field K] [DecidableEq K]

theorem fill_rows_buf_indep (n : Nat) (body : Nat → Except Fault K) (buf buf' : List K)
    (h : buf.length = n) (h' : buf'.length = n) :
    fill_rows n body buf = fill_rows n body buf' := by
  by_cases hall : ∀ i < n, ∃ v, body i = Except.ok v
  · have hg : ∀ i < n, body i = Except.ok
        (match body i with
          | Except.ok v => v
          | Except.error _ => 0) := by
      intro i hi
      obtain ⟨v, hv⟩ := hall i hi
      rw [hv]
    rw [fill_rows_ok n body _ buf h hg, fill_rows_ok n body _ buf' h' hg]
  · have hex : ∃ i, i < n ∧ ∀ v, body i ≠ Except.ok v := by
      by_contra hne
      apply hall
      intro i hi
      by_contra hv
      exact hne ⟨i, hi, fun v hvv => hv ⟨v, hvv⟩⟩
    classical
    have hk := Nat.find_spec hex
    have hg : ∀ i < Nat.find hex, body i = Except.ok
        (match body i with
          | Except.ok v => v
          | Except.error _ => 0) := by
      intro i hi
      have hmin := Nat.find_min hex hi
      cases hb : body i with
      | ok v => rfl
      | error e =>
        exfalso
        apply hmin
        have hin : i < n := by omega
        refine ⟨hin, ?_⟩
        intro v hv
        rw [hb] at hv
        cases hv
    cases hb : body (Nat.find hex) with
    | ok v => exact (hk.2 v hb).elim
    | error e =>
      rw [fill_rows_error body _ e buf (Nat.find hex) hg hb n hk.1 (by omega),
        fill_rows_error body _ e buf' (Nat.find hex) hg hb n hk.1 (by omega)]

/-- C19: on a range of at least two levels `kcycle` adds to the incoming `x`: for an
`x` of `A.rows` entries the `x` it returns is, entry by entry, the incoming `x` plus the
`x` it returns for the zero initial guess, and it stops with a fault for the one exactly
when it does for the other, with the same fault (`r` is initialised as `rhs`, and `x` is
only read to add `alpha * p` to it). On a range of one level `kcycle` overwrites `x`: two
initial guesses of `A.rows` entries give the same result and the same fault. -/
theorem kcycle_adds_to_guess (prm : params) (lvl nxt last : Instance K)
    (rest : List (Instance K)) (w wl : Workspace K) (ws : List (Workspace K))
    (rhs x rhsl y y' : List K) (hx : x.length = lvl.A.rows)
    (hy : y.length = last.A.rows) (hy' : y'.length = last.A.rows) :
    x_of (kcycle prm (lvl :: nxt :: rest) w ws rhs x) =
      (fun z => vec lvl.A.rows fun i => x.getD i 0 + z.getD i 0) <$>
        x_of (kcycle prm (lvl :: nxt :: rest) w ws rhs (List.replicate lvl.A.rows 0)) ∧
    kcycle prm [last] wl [] rhsl y = kcycle prm [last] wl [] rhsl y' := by
  constructor
  · have h := kcycle_offset prm lvl nxt rest w ws rhs x (List.replicate lvl.A.rows 0)
      (fun i => x.getD i 0) (by rw [hx, List.length_replicate])
      (fun i => by rw [getD_replicate_zero, add_zero])
    cases h1 : kcycle prm (lvl :: nxt :: rest) w ws rhs x with
    | error e =>
      cases h2 : kcycle prm (lvl :: nxt :: rest) w ws rhs (List.replicate lvl.A.rows 0) with
      | error e' =>
        rw [h1, h2] at h
        have he : e = e' := h
        rw [he]
        rfl
      | ok r' =>
        rw [h1, h2] at h
        exact h.elim
    | ok r =>
      cases h2 : kcycle prm (lvl :: nxt :: rest) w ws rhs (List.replicate lvl.A.rows 0) with
      | error e' =>
        rw [h1, h2] at h
        exact h.elim
      | ok r' =>
        rw [h1, h2] at h
        obtain ⟨_, _, g3, _, g5⟩ := h
        show Except.ok r.2.2 = Except.ok _
        congr 1
        rw [← vec_getD_self lvl.A.rows r.2.2 (g3.trans hx)]
        exact vec_congr _ _ _ (fun i _ => g5 i)
  · rw [kcycle, kcycle]
    unfold solve
    rw [fill_rows_buf_indep last.A.rows _ y y' hy hy']

theorem kcycle_adds_to_guess_witness :
    ([3, 4] : List ℚ).length = exF.A.rows ∧ ([5] : List ℚ).length = exC.A.rows ∧
    ([6] : List ℚ).length = exC.A.rows ∧
    x_of (kcycle ⟨1, 1, 0, 0⟩ [exF, exC] exWF [exWC] [1, 0] [3, 4]) =
      (fun z => vec exF.A.rows fun i => ([3, 4] : List ℚ).getD i 0 + z.getD i 0) <$>
        x_of (kcycle ⟨1, 1, 0, 0⟩ [exF, exC] exWF [exWC] [1, 0]
          (List.replicate exF.A.rows 0)) ∧
    kcycle ⟨1, 1, 0, 0⟩ [exC] exWC [] [1] [5] = kcycle ⟨1, 1, 0, 0⟩ [exC] exWC [] [1] [6] :=
  ⟨rfl, rfl, rfl,
    kcycle_adds_to_guess ⟨1, 1, 0, 0⟩ exF exC exC [] exWF exWC [exWC] [1, 0] [3, 4] [1] [5] [6]
      rfl rfl rfl⟩

end claim_guess

/-! ## Linearity of the V-cycle -/

section linearity

variable {K : Type} [Field K] [DecidableEq K]

theorem getD_of_le (x : List K) (i : Nat) (h : x.length ≤ i) : x.getD i 0 = 0 := by
  simp [List.getD, List.getElem?_eq_none h]

@[simp] theorem length_axpy (n : Nat) (a : K) (x y : List K) : (axpy n a x y).length = n :=
  length_vec _ _

theorem getD_axpy (n : Nat) (a : K) (x y : List K) (i : Nat) (hx : x.length = n)
    (hy : y.length = n) : (axpy n a x y).getD i 0 = a * x.getD i 0 + y.getD i 0 := by
  by_cases hi : i < n
  · exact getD_vec n _ i hi
  · rw [getD_of_le _ i (by rw [length_axpy]; omega), getD_of_le x i (by omega),
      getD_of_le y i (by omega)]
    ring

theorem axpy_zero (n : Nat) (a : K) :
    axpy n a (List.replicate n 0) (List.replicate n 0) = List.replicate n 0 := by
  rw [← vec_zero n]
  apply vec_congr
  intro i _
  rw [vec_zero, getD_replicate_zero]
  ring

theorem sum_map_axpy (l : List Nat) (v p q : Nat → K) (a : K) :
    (l.map fun j => v j * (a * p j + q j)).sum =
      a * (l.map fun j => v j * p j).sum + (l.map fun j => v j * q j).sum := by
  induction l with
  | nil => simp
  | cons j l ih =>
    simp only [List.map_cons, List.sum_cons, ih]
    ring

theorem row_sum_axpy (M : matrix K) (n : Nat) (a : K) (x y : List K) (i : Nat)
    (hx : x.length = n) (hy : y.length = n) :
    row_sum M (axpy n a x y) i = a * row_sum M x i + row_sum M y i := by
  unfold row_sum
  rw [← sum_map_axpy]
  congr 1
  apply List.map_congr_left
  intro j _
  rw [getD_axpy n a x y _ hx hy]

theorem mat_vec_axpy (m n : Nat) (M : matrix K) (a : K) (x y : List K)
    (hx : x.length = n) (hy : y.length = n) :
    mat_vec m M (axpy n a x y) = axpy m a (mat_vec m M x) (mat_vec m M y) := by
  apply vec_congr
  intro i hi
  rw [row_sum_axpy M n a x y i hx hy,
    show (mat_vec m M x).getD i 0 = row_sum M x i from getD_vec m _ i hi,
    show (mat_vec m M y).getD i 0 = row_sum M y i from getD_vec m _ i hi]

theorem residual_axpy (A : matrix K) (a : K) (r1 r2 x1 x2 : List K)
    (hr1 : r1.length = A.rows) (hr2 : r2.length = A.rows)
    (hx1 : x1.length = A.rows) (hx2 : x2.length = A.rows) :
    residual A (axpy A.rows a r1 r2) (axpy A.rows a x1 x2) =
      axpy A.rows a (residual A r1 x1) (residual A r2 x2) := by
  apply vec_congr
  intro i hi
  rw [row_sum_axpy A A.rows a x1 x2 i hx1 hx2, getD_axpy A.rows a r1 r2 i hr1 hr2,
    show (residual A r1 x1).getD i 0 = r1.getD i 0 - row_sum A x1 i from getD_vec _ _ i hi,
    show (residual A r2 x2).getD i 0 = r2.getD i 0 - row_sum A x2 i from getD_vec _ _ i hi]
  ring

theorem linear_relax (A : matrix K) : linear_on A.rows (relax_val A) := by
  intro a r1 r2 x1 x2 y1 y2 hr1 hr2 hx1 hx2 h1 h2
  have hd : ∀ i < A.rows, diag A i ≠ 0 := by
    by_contra hd
    unfold relax_val at h1
    rw [if_neg hd] at h1
    cases h1
  rw [relax_val_ok A _ _ hd] at h1 h2 ⊢
  injection h1 with h1
  injection h2 with h2
  subst h1 h2
  refine ⟨length_vec _ _, length_vec _ _, ?_⟩
  congr 1
  apply vec_congr
  intro i hi
  rw [getD_axpy A.rows a x1 x2 i hx1 hx2, getD_axpy A.rows a r1 r2 i hr1 hr2,
    row_sum_axpy A A.rows a x1 x2 i hx1 hx2, getD_vec _ _ i hi, getD_vec _ _ i hi]
  ring

theorem linear_times (n : Nat) (G : List K → List K → Except Fault (List K))
    (h : linear_on n G) (k : Nat) : linear_on n (fun rhs x => times k (G rhs) x) := by
  induction k with
  | zero =>
    intro a r1 r2 x1 x2 y1 y2 _ _ hx1 hx2 h1 h2
    injection h1 with h1
    injection h2 with h2
    subst h1 h2
    exact ⟨hx1, hx2, rfl⟩
  | succ k ih =>
    intro a r1 r2 x1 x2 y1 y2 hr1 hr2 hx1 hx2 h1 h2
    obtain ⟨z1, hz1, hy1⟩ := (bind_eq_ok _ _ _).mp h1
    obtain ⟨z2, hz2, hy2⟩ := (bind_eq_ok _ _ _).mp h2
    obtain ⟨lz1, lz2, hz⟩ := h a r1 r2 x1 x2 z1 z2 hr1 hr2 hx1 hx2 hz1 hz2
    obtain ⟨ly1, ly2, hy⟩ := ih a r1 r2 z1 z2 y1 y2 hr1 hr2 lz1 lz2 hy1 hy2
    refine ⟨ly1, ly2, ?_⟩
    show (G _ _ >>= times k (G _)) = _
    rw [hz]
    exact hy

theorem linear_solve (n : Nat) (Ai : matrix K) :
    linear_on n (fun rhs _ => pure (mat_vec n Ai rhs)) := by
  intro a r1 r2 x1 x2 y1 y2 hr1 hr2 _ _ h1 h2
  injection h1 with h1
  injection h2 with h2
  subst h1 h2
  refine ⟨length_mat_vec _ _ _, length_mat_vec _ _ _, ?_⟩
  show Except.ok _ = Except.ok _
  rw [mat_vec_axpy n n Ai a r1 r2 hr1 hr2]

theorem linear_cycle_step (prm : params) (lvl : Instance K) (nc : Nat)
    (sub : List K → List K → Except Fault (List K)) (hsub : linear_on nc sub) :
    linear_on lvl.A.rows (cycle_step prm lvl nc sub) := by
  intro a r1 r2 x1 x2 y1 y2 hr1 hr2 hx1 hx2 h1 h2
  unfold cycle_step at h1 h2 ⊢
  obtain ⟨p1, hp1, h1⟩ := (bind_eq_ok _ _ _).mp h1
  obtain ⟨c1, hc1, h1⟩ := (bind_eq_ok _ _ _).mp h1
  obtain ⟨p2, hp2, h2⟩ := (bind_eq_ok _ _ _).mp h2
  obtain ⟨c2, hc2, h2⟩ := (bind_eq_ok _ _ _).mp h2
  obtain ⟨lp1, lp2, hp⟩ := linear_times _ _ (linear_relax lvl.A) prm.npre a r1 r2 x1 x2 p1 p2
    hr1 hr2 hx1 hx2 hp1 hp2
  obtain ⟨lc1, lc2, hc⟩ := hsub a _ _ _ _ c1 c2 (length_mat_vec _ _ _) (length_mat_vec _ _ _)
    (List.length_replicate _ _) (List.length_replicate _ _) hc1 hc2
  obtain ⟨ly1, ly2, hy⟩ := linear_times _ _ (linear_relax lvl.A) prm.npost a r1 r2 _ _ y1 y2
    hr1 hr2 (length_vec _ _) (length_vec _ _) h1 h2
  refine ⟨ly1, ly2, ?_⟩
  simp only at hp hy
  rw [hp]
  simp only [bind_ok]
  rw [residual_axpy lvl.A a r1 r2 p1 p2 hr1 hr2 lp1 lp2,
    mat_vec_axpy nc lvl.A.rows lvl.R a _ _ (length_residual _ _ _) (length_residual _ _ _),
    ← axpy_zero nc a, hc]
  simp only [bind_ok]
  rw [← hy]
  congr 1
  apply vec_congr
  intro i hi
  rw [getD_axpy lvl.A.rows a p1 p2 i lp1 lp2, row_sum_axpy lvl.P nc a c1 c2 i lc1 lc2,
    getD_vec _ _ i hi, getD_vec _ _ i hi]
  ring

end linearity
section linearity_cycle

variable {K : Type} [Field K] [DecidableEq K]

theorem linear_cycle_val (prm : params) (rest : List (Instance K)) :
    ∀ (lvl : Instance K) (ks : List Bool), ks.length = rest.length →
      (∀ k ∈ ks.dropLast, k = false) →
      linear_on lvl.A.rows (cycle_val prm (lvl :: rest) ks) := by
  induction rest with
  | nil =>
    intro lvl ks _ _ a r1 r2 x1 x2 y1 y2 hr1 hr2 hx1 hx2 h1 h2
    rw [cycle_val] at h1 h2 ⊢
    exact linear_solve lvl.A.rows lvl.Ai a r1 r2 x1 x2 y1 y2 hr1 hr2 hx1 hx2 h1 h2
  | cons nxt rest ih =>
    intro lvl ks hlen hks a r1 r2 x1 x2 y1 y2 hr1 hr2 hx1 hx2 h1 h2
    cases ks with
    | nil => simp at hlen
    | cons k ks =>
    rw [cycle_val_cons] at h1 h2 ⊢
    refine linear_times _ _ (linear_cycle_step prm lvl nxt.A.rows _ ?_) prm.ncycle
      a r1 r2 x1 x2 y1 y2 hr1 hr2 hx1 hx2 h1 h2
    cases rest with
    | nil =>
      intro b f1 f2 u1 u2 c1 c2 hf1 hf2 hu1 hu2 hc1 hc2
      beta_reduce at hc1 hc2 ⊢
      rw [sub_val_last] at hc1 hc2 ⊢
      exact linear_solve nxt.A.rows nxt.Ai b f1 f2 u1 u2 c1 c2 hf1 hf2 hu1 hu2 hc1 hc2
    | cons nxt2 rest =>
      cases ks with
      | nil => simp at hlen
      | cons k2 ks =>
      have hk : k = false := hks k (by simp [List.dropLast])
      subst hk
      simp only [Bool.false_eq_true, if_false]
      exact ih nxt (k2 :: ks) (by simpa using hlen)
        (fun k' hk' => hks k' (by
          rw [List.dropLast_cons₂]
          exact List.mem_cons_of_mem _ hk'))

theorem times_returns {σ : Type} {Q : σ → Prop} {body : σ → Except Fault σ}
    (hb : ∀ s, Q s → ∃ s1, body s = Except.ok s1 ∧ Q s1) :
    ∀ (n : Nat) (s : σ), Q s → ∃ s1, times n body s = Except.ok s1 ∧ Q s1 := by
  intro n
  induction n with
  | zero => intro s hs; exact ⟨s, rfl, hs⟩
  | succ n ih =>
    intro s hs
    obtain ⟨s1, h1, hq1⟩ := hb s hs
    obtain ⟨s2, h2, hq2⟩ := ih s1 hq1
    refine ⟨s2, ?_, hq2⟩
    show (body s >>= times n body) = _
    rw [h1]
    exact h2

theorem relax_times_returns (A : matrix K) (rhs : List K) (hd : ∀ i < A.rows, diag A i ≠ 0)
    (n : Nat) (x : List K) (hx : x.length = A.rows) :
    ∃ y, times n (relax_val A rhs) x = Except.ok y ∧ y.length = A.rows :=
  times_returns (Q := fun y : List K => y.length = A.rows)
    (fun s _ => ⟨_, relax_val_ok A rhs s hd, length_vec _ _⟩) n x hx

theorem cycle_step_returns (prm : params) (lvl : Instance K) (nc : Nat)
    (sub : List K → List K → Except Fault (List K)) (rhs x : List K)
    (hd : ∀ i < lvl.A.rows, diag lvl.A i ≠ 0) (hx : x.length = lvl.A.rows)
    (hsub : ∀ f u : List K, u.length = nc → ∃ c, sub f u = Except.ok c) :
    ∃ y, cycle_step prm lvl nc sub rhs x = Except.ok y ∧ y.length = lvl.A.rows := by
  unfold cycle_step
  obtain ⟨x1, h1, _⟩ := relax_times_returns lvl.A rhs hd prm.npre x hx
  obtain ⟨c, hc⟩ := hsub (mat_vec nc lvl.R (residual lvl.A rhs x1)) (List.replicate nc 0)
    (List.length_replicate _ _)
  rw [h1]
  simp only [bind_ok]
  rw [hc]
  exact relax_times_returns lvl.A rhs hd prm.npost _ (length_vec _ _)

theorem cycle_val_returns (prm : params) (rest : List (Instance K)) :
    ∀ (lvl : Instance K) (ks : List Bool), relax_defined (lvl :: rest) →
      ks.length = rest.length → (∀ k ∈ ks.dropLast, k = false) →
      ∀ rhs x : List K, x.length = lvl.A.rows →
        ∃ y, cycle_val prm (lvl :: rest) ks rhs x = Except.ok y := by
  induction rest with
  | nil =>
    intro lvl ks _ _ _ rhs x _
    rw [cycle_val]
    exact ⟨_, rfl⟩
  | cons nxt rest ih =>
    intro lvl ks hdef hlen hks rhs x hx
    cases ks with
    | nil => simp at hlen
    | cons k ks =>
    rw [cycle_val_cons]
    have hstep := @times_returns (List K) (fun y : List K => y.length = lvl.A.rows)
      (cycle_step prm lvl nxt.A.rows (fun f u =>
        if k then kcycle_val prm (nxt :: rest) ks f u
        else cycle_val prm (nxt :: rest) ks f u) rhs)
      (fun s hs => cycle_step_returns prm lvl nxt.A.rows _ rhs s hdef.1 hs (by
        intro f u hu
        cases rest with
        | nil =>
          rw [sub_val_last]
          exact ⟨_, rfl⟩
        | cons nxt2 rest =>
          cases ks with
          | nil => simp at hlen
          | cons k2 ks =>
          have hk : k = false := hks k (by simp [List.dropLast])
          subst hk
          simp only [Bool.false_eq_true, if_false]
          exact ih nxt (k2 :: ks) hdef.2 (by simpa using hlen)
            (fun k' hk' => hks k' (by
              rw [List.dropLast_cons₂]
              exact List.mem_cons_of_mem _ hk')) f u hu))
      prm.ncycle x hx
    obtain ⟨y, hy, _⟩ := hstep
    exact ⟨y, hy⟩

end linearity_cycle
section claim_linear

variable {K : Type} [Field K] [DecidableEq K]

theorem flags_of_no_cg (ws : List (Workspace K)) (hk : ∀ v ∈ ws, v.cg0 = []) :
    ∀ k ∈ (ws.map Workspace.kflag).dropLast, k = false :=
  kflag_of_no_kcycle ws (fun v hv => hk v (List.mem_of_mem_dropLast hv))

/-- C18 (as the code has it): on a well-formed range in which no level after the first
has K-cycle workspace, `cycle` is linear in `(rhs, x)` where it returns: if it returns
`y1` for `(rhs1, x1)` and `y2` for `(rhs2, x2)`, vectors of `A.rows` entries, then for
every scalar `a` it returns `a * y1 + y2` for `(a * rhs1 + rhs2, a * x1 + x2)`. When no
relaxed level (every level but the last) stores a zero diagonal value it returns for every
such input, and it returns the zero vector for `rhs = 0` and `x = 0`. This holds for every
parameter record and either overload of `vector_copy`. -/
theorem cycle_linear (prm : params) (swap : Bool) (lvl : Instance K)
    (rest : List (Instance K)) (w : Workspace K) (ws : List (Workspace K)) (a : K)
    (rhs1 rhs2 x1 x2 : List K) (h : levels_ok (lvl :: rest))
    (ht : w.t.length = lvl.A.rows) (hws : workspaces_ok rest ws)
    (hk : ∀ v ∈ ws, v.cg0 = [])
    (hr1 : rhs1.length = lvl.A.rows) (hr2 : rhs2.length = lvl.A.rows)
    (hx1 : x1.length = lvl.A.rows) (hx2 : x2.length = lvl.A.rows) :
    (∀ y1 y2, x_of (cycle prm swap (lvl :: rest) w ws rhs1 x1) = Except.ok y1 →
      x_of (cycle prm swap (lvl :: rest) w ws rhs2 x2) = Except.ok y2 →
      x_of (cycle prm swap (lvl :: rest) w ws (axpy lvl.A.rows a rhs1 rhs2)
        (axpy lvl.A.rows a x1 x2)) = Except.ok (axpy lvl.A.rows a y1 y2)) ∧
    (relax_defined (lvl :: rest) →
      (∃ y1 y2, x_of (cycle prm swap (lvl :: rest) w ws rhs1 x1) = Except.ok y1 ∧
        x_of (cycle prm swap (lvl :: rest) w ws rhs2 x2) = Except.ok y2 ∧
        x_of (cycle prm swap (lvl :: rest) w ws (axpy lvl.A.rows a rhs1 rhs2)
          (axpy lvl.A.rows a x1 x2)) = Except.ok (axpy lvl.A.rows a y1 y2)) ∧
      x_of (cycle prm swap (lvl :: rest) w ws (List.replicate lvl.A.rows 0)
        (List.replicate lvl.A.rows 0)) = Except.ok (List.replicate lvl.A.rows 0)) := by
  have hlen : (ws.map Workspace.kflag).length = rest.length := by
    rw [List.length_map]
    exact length_of_workspaces_ok rest ws hws
  have hks := flags_of_no_cg ws hk
  have hlin := linear_cycle_val prm rest lvl _ hlen hks
  rw [x_of_cycle prm swap lvl rest w ws rhs1 x1 h ht hws hr1 hx1,
    x_of_cycle prm swap lvl rest w ws rhs2 x2 h ht hws hr2 hx2,
    x_of_cycle prm swap lvl rest w ws _ _ h ht hws (length_axpy _ _ _ _) (length_axpy _ _ _ _),
    x_of_cycle prm swap lvl rest w ws _ _ h ht hws (List.length_replicate _ _)
      (List.length_replicate _ _)]
  refine ⟨?_, ?_⟩
  · intro y1 y2 h1 h2
    exact (hlin a rhs1 rhs2 x1 x2 y1 y2 hr1 hr2 hx1 hx2 h1 h2).2.2
  · intro hdef
    obtain ⟨y1, h1⟩ := cycle_val_returns prm rest lvl _ hdef hlen hks rhs1 x1 hx1
    obtain ⟨y2, h2⟩ := cycle_val_returns prm rest lvl _ hdef hlen hks rhs2 x2 hx2
    exact ⟨⟨y1, y2, h1, h2, (hlin a rhs1 rhs2 x1 x2 y1 y2 hr1 hr2 hx1 hx2 h1 h2).2.2⟩,
      cycle_val_zero prm rest lvl _ hdef hlen hks⟩

theorem cycle_linear_witness :
    levels_ok [exF, exC] ∧ exWF.t.length = exF.A.rows ∧ workspaces_ok [exC] [exWC] ∧
    (∀ v ∈ [exWC], v.cg0 = []) ∧
    ([1, 0] : List ℚ).length = exF.A.rows ∧ ([0, 1] : List ℚ).length = exF.A.rows ∧
    ([3, 4] : List ℚ).length = exF.A.rows ∧ ([5, 6] : List ℚ).length = exF.A.rows ∧
    (∀ y1 y2, x_of (cycle ⟨2, 1, 1, 0⟩ true [exF, exC] exWF [exWC] [1, 0] [3, 4]) =
        Except.ok y1 →
      x_of (cycle ⟨2, 1, 1, 0⟩ true [exF, exC] exWF [exWC] [0, 1] [5, 6]) = Except.ok y2 →
      x_of (cycle ⟨2, 1, 1, 0⟩ true [exF, exC] exWF [exWC] (axpy exF.A.rows 7 [1, 0] [0, 1])
        (axpy exF.A.rows 7 [3, 4] [5, 6])) = Except.ok (axpy exF.A.rows 7 y1 y2)) ∧
    (relax_defined [exF, exC] →
      (∃ y1 y2, x_of (cycle ⟨2, 1, 1, 0⟩ true [exF, exC] exWF [exWC] [1, 0] [3, 4]) =
          Except.ok y1 ∧
        x_of (cycle ⟨2, 1, 1, 0⟩ true [exF, exC] exWF [exWC] [0, 1] [5, 6]) = Except.ok y2 ∧
        x_of (cycle ⟨2, 1, 1, 0⟩ true [exF, exC] exWF [exWC] (axpy exF.A.rows 7 [1, 0] [0, 1])
          (axpy exF.A.rows 7 [3, 4] [5, 6])) = Except.ok (axpy exF.A.rows 7 y1 y2)) ∧
      x_of (cycle ⟨2, 1, 1, 0⟩ true [exF, exC] exWF [exWC] (List.replicate exF.A.rows 0)
        (List.replicate exF.A.rows 0)) = Except.ok (List.replicate exF.A.rows 0)) :=
  ⟨by decide, rfl, by decide, by decide, rfl, rfl, rfl, rfl,
    cycle_linear ⟨2, 1, 1, 0⟩ true exF [exC] exWF [exWC] 7 [1, 0] [0, 1] [3, 4] [5, 6]
      (by decide) rfl (by decide) (by decide) rfl rfl rfl rfl⟩

theorem ex_cycle_val_zero_diag_zero :
    cycle_val ⟨1, 1, 0, 0⟩ [exTz, exTc] [false] [0] [0] = Except.error Fault.divide := by
  rw [cycle_val_cons]
  have hd : ¬ ∀ i < exTz.A.rows, diag exTz.A i ≠ 0 := by
    intro h
    exact h 0 (by decide) (by simp [diag, row_entries, exTz, exZ, List.range'])
  simp only [times, cycle_step, pure_eq_ok, bind_ok, relax_val, if_neg hd]
  rfl

/-- The claim C18 as it is worded fails where a relaxed level stores a zero diagonal
value: on two well-formed levels without K-cycle workspace, the first with the operator
`(0)`, `cycle` called with `rhs = 0` and `x = 0` divides `0` by `0` in `relax` and does not
return the zero vector. -/
theorem cycle_zero_not_zero :
    levels_ok [exTz, exTc] ∧ exWC.t.length = exTz.A.rows ∧ workspaces_ok [exTc] [exWC] ∧
    exWC.cg0 = [] ∧
    cycle ⟨1, 1, 0, 0⟩ false [exTz, exTc] exWC [exWC] [0] [0] = Except.error Fault.divide ∧
    x_of (cycle ⟨1, 1, 0, 0⟩ false [exTz, exTc] exWC [exWC] [0] [0]) ≠ Except.ok [0] := by
  have hc : cycle ⟨1, 1, 0, 0⟩ false [exTz, exTc] exWC [exWC] [0] [0] =
      Except.error Fault.divide :=
    sim_error_of_val
      ((cycle_kcycle_sim ⟨1, 1, 0, 0⟩ [exTc] exTz (by decide)).1 false exWC [exWC]
        [0] [0] rfl (by decide) rfl rfl) ex_cycle_val_zero_diag_zero
  refine ⟨by decide, rfl, by decide, rfl, hc, ?_⟩
  rw [hc]
  intro h
  cases h

end claim_linear

/-! ## The quotient as a parameter -/

section quotient

variable {K : Type} [Field K] [DecidableEq K]

theorem relax_row_on_fdiv (A : matrix K) (rhs x : List K) (i : Nat) :
    relax_row_on fdiv A rhs x i = relax_row A rhs x i := rfl

theorem relax_on_fdiv (lvl : Instance K) (w : Workspace K) (swap : Bool) (rhs x : List K) :
    relax_on fdiv lvl w swap rhs x = relax lvl w swap rhs x := rfl

theorem cycle_eq_body (prm : params) (swap : Bool) (lvl nxt : Instance K)
    (rest : List (Instance K)) :
    cycle prm swap (lvl :: nxt :: rest) =
      cycle_body fdiv prm swap lvl nxt (cycle prm true (nxt :: rest))
        (kcycle prm (nxt :: rest)) := by
  funext w ws rhs x
  rw [cycle]
  rfl

theorem kcycle_eq_body (prm : params) (lvl nxt : Instance K) (rest : List (Instance K)) :
    kcycle prm (lvl :: nxt :: rest) =
      kcycle_body fdiv lvl (cycle prm true (lvl :: nxt :: rest)) := by
  funext w ws rhs x
  rw [kcycle]
  rfl

theorem cycle_on_eq_body (dv : K → K → Except Fault K) (prm : params) (swap : Bool)
    (lvl nxt : Instance K) (rest : List (Instance K)) :
    cycle_on dv prm swap (lvl :: nxt :: rest) =
      cycle_body dv prm swap lvl nxt (cycle_on dv prm true (nxt :: rest))
        (kcycle_on dv prm (nxt :: rest)) := by
  funext w ws rhs x
  rw [cycle_on]

theorem kcycle_on_eq_body (dv : K → K → Except Fault K) (prm : params) (lvl nxt : Instance K)
    (rest : List (Instance K)) :
    kcycle_on dv prm (lvl :: nxt :: rest) =
      kcycle_body dv lvl (cycle_on dv prm true (lvl :: nxt :: rest)) := by
  funext w ws rhs x
  rw [kcycle_on]

theorem cycle_on_last (dv : K → K → Except Fault K) (prm : params) (swap : Bool)
    (lvl : Instance K) (w : Workspace K) (ws : List (Workspace K)) (rhs x : List K) :
    cycle_on dv prm swap [lvl] w ws rhs x = (solve lvl rhs x >>= fun x => pure (w, ws, x)) := by
  rw [cycle_on]

theorem kcycle_on_last (dv : K → K → Except Fault K) (prm : params)
    (lvl : Instance K) (w : Workspace K) (ws : List (Workspace K)) (rhs x : List K) :
    kcycle_on dv prm [lvl] w ws rhs x = (solve lvl rhs x >>= fun x => pure (w, ws, x)) := by
  rw [kcycle_on]

theorem cycle_kcycle_on_fdiv (prm : params) (rest : List (Instance K)) :
    ∀ lvl : Instance K, (∀ swap, cycle_on fdiv prm swap (lvl :: rest) = cycle prm swap (lvl :: rest)) ∧
      kcycle_on fdiv prm (lvl :: rest) = kcycle prm (lvl :: rest) := by
  induction rest with
  | nil =>
    intro lvl
    refine ⟨?_, ?_⟩
    · intro swap
      funext w ws rhs x
      rw [cycle_on, cycle]
    · funext w ws rhs x
      rw [kcycle_on, kcycle]
  | cons nxt rest ih =>
    intro lvl
    obtain ⟨ihc, ihk⟩ := ih nxt
    have hc : ∀ swap, cycle_on fdiv prm swap (lvl :: nxt :: rest) =
        cycle prm swap (lvl :: nxt :: rest) := by
      intro swap
      rw [cycle_on_eq_body, cycle_eq_body, ihc true, ihk]
    refine ⟨hc, ?_⟩
    rw [kcycle_on_eq_body, kcycle_eq_body, hc true]

end quotient

/-! ## The lengths a returning run keeps, whatever the quotient is -/

section lengths_on

variable {K : Type} [Field K] [DecidableEq K]

theorem relax_row_on_reads_x (dv : K → K → Except Fault K) (A : matrix K) (rhs x : List K)
    (i : Nat) : Post (fun _ => i < x.length) (relax_row_on dv A rhs x i) := by
  unfold relax_row_on
  refine post_bind (Q := fun _ => True) (fun _ _ => trivial) ?_
  intro temp _
  refine post_bind (Q := fun _ => True) (fun _ _ => trivial) ?_
  intro b _
  refine post_bind (Q := fun _ => True) (fun _ _ => trivial) ?_
  intro e _
  refine post_bind (Q := fun _ => True) (fun _ _ => trivial) ?_
  intro td _
  refine post_bind (post_rd x i) ?_
  intro xi hxi
  intro _ _
  exact hxi

theorem relax_on_post (dv : K → K → Except Fault K) (lvl : Instance K) (w : Workspace K)
    (swap : Bool) (rhs x : List K)
    (ht : w.t.length = lvl.A.rows) (hx : x.length = lvl.A.rows ∨ x.length = 0) :
    Post (fun r => r.1.only_t w ∧ r.2.length = x.length) (relax_on dv lvl w swap rhs x) := by
  intro r hr
  unfold relax_on at hr
  obtain ⟨y, hf, hr⟩ := (bind_eq_ok _ _ _).mp hr
  obtain ⟨tx, hv, hr⟩ := (bind_eq_ok _ _ _).mp hr
  injection hr with hr
  subst hr
  have hy : y.length = lvl.A.rows := (fill_rows_length _ _ _ y hf).trans ht
  have hxn : x.length = lvl.A.rows := by
    rcases hx with hx | hx
    · exact hx
    · rcases Nat.eq_zero_or_pos lvl.A.rows with h0 | h0
      · rw [hx, h0]
      · obtain ⟨v, hv⟩ := fill_rows_first _ _ _ h0 y hf
        have := relax_row_on_reads_x dv lvl.A rhs x 0 v hv
        omega
  cases swap with
  | true =>
    simp only [vector_copy, if_true] at hv
    injection hv with hv
    subst hv
    exact ⟨⟨rfl, rfl, rfl, rfl, rfl, rfl, hxn.trans ht.symm⟩, hy.trans hxn.symm⟩
  | false =>
    have hle : y.length ≤ x.length := by omega
    simp only [vector_copy, Bool.false_eq_true, if_false, if_pos hle] at hv
    injection hv with hv
    subst hv
    refine ⟨⟨rfl, rfl, rfl, rfl, rfl, rfl, hy.trans ht.symm⟩, ?_⟩
    simp only [List.length_append, List.length_drop]
    omega

theorem relax_on_times_post (dv : K → K → Except Fault K) (lvl : Instance K) (w : Workspace K)
    (swap : Bool) (rhs x : List K)
    (ht : w.t.length = lvl.A.rows) (hx : x.length = lvl.A.rows ∨ x.length = 0) (n : Nat)
    (w1 : Workspace K) (x1 : List K) (hw1 : w1.only_t w) (hx1 : x1.length = x.length) :
    Post (fun (wx : Workspace K × List K) => wx.1.only_t w ∧ wx.2.length = x.length)
      (times n (fun wx => relax_on dv lvl wx.1 swap rhs wx.2) (w1, x1)) := by
  refine post_times ?_ n (w1, x1) ⟨hw1, hx1⟩
  rintro ⟨w2, x2⟩ ⟨hw2, hx2⟩
  simp only at hw2 hx2 ⊢
  refine post_mono (relax_on_post dv lvl w2 swap rhs x2 (hw2.2.2.2.2.2.2.trans ht)
    (by rw [hx2]; exact hx)) ?_
  rintro r ⟨hr1, hr2⟩
  exact ⟨only_t_trans hr1 hw2, hr2.trans hx2⟩

theorem solve_len_cycle (lvl : Instance K) :
    CycleLen lvl.A.rows [] (fun w ws rhs x => solve lvl rhs x >>= fun x => pure (w, ws, x)) := by
  intro w ws rhs x _ hws _
  refine post_bind (fill_rows_length _ _ _) ?_
  intro y hy
  exact post_ok _ ⟨only_t_refl w, shapes_refl ws, hy⟩

theorem solve_len_kcycle (lvl : Instance K) :
    KcycleLen lvl.A.rows [] (fun w ws rhs x => solve lvl rhs x >>= fun x => pure (w, ws, x)) := by
  intro w ws rhs x _ hws
  refine post_bind (fill_rows_length _ _ _) ?_
  intro y hy
  exact post_ok _ ⟨same_shape_refl w, shapes_refl ws, hy⟩

theorem cycle_body_len (dv : K → K → Except Fault K) (prm : params) (swap : Bool)
    (lvl nxt : Instance K) (rest : List (Instance K))
    (callC callK : Workspace K → List (Workspace K) → List K → List K →
      Except Fault (Workspace K × List (Workspace K) × List K))
    (ihc : CycleLen nxt.A.rows rest callC) (ihk : KcycleLen nxt.A.rows rest callK) :
    CycleLen lvl.A.rows (nxt :: rest) (cycle_body dv prm swap lvl nxt callC callK) := by
  intro w ws0 rhs x ht hws hx
  cases hws with
  | cons hwn0 hws0 =>
  rename_i wn0 ws0
  unfold cycle_body
  refine post_times ?_ prm.ncycle (w, wn0 :: ws0, x) ⟨only_t_refl w, shapes_refl _, rfl⟩
  rintro ⟨w1, wsl, x1⟩ ⟨hw1, hsh, hx1⟩
  cases hsh with
  | cons hwn hsh =>
  rename_i wn ws1
  simp only at hw1 hx1 ⊢
  have hwns : wn.sized nxt.A.rows := sized_of_same_shape hwn hwn0
  have hws1 : List.Forall₂ sized_for rest ws1 := sized_of_shapes hsh hws0
  refine post_bind (relax_on_times_post dv lvl w swap rhs x ht hx prm.npre w1 x1 hw1 hx1) ?_
  rintro ⟨w2, x2⟩ ⟨hw2, hx2⟩
  simp only at hw2 hx2 ⊢
  refine post_bind (fill_rows_length _ _ _) ?_
  intro t ht2
  refine post_bind (fill_rows_length _ _ _) ?_
  intro f hf
  have hsub : Post (fun (r : Workspace K × List (Workspace K) × List K) =>
        r.1.same_shape wn ∧ List.Forall₂ Workspace.same_shape r.2.1 ws1 ∧
        r.2.2.length = wn.u.length)
      (if wn.cg0.isEmpty = true then
        callC { wn with f := f, u := List.replicate wn.u.length 0 } ws1 f
          (List.replicate wn.u.length 0)
      else
        callK { wn with f := f, u := List.replicate wn.u.length 0 } ws1 f
          (List.replicate wn.u.length 0)) := by
    have hshape : ({ wn with f := f, u := List.replicate wn.u.length 0 } :
        Workspace K).same_shape wn :=
      ⟨List.length_replicate _ _, hf, rfl, rfl, rfl, rfl, rfl⟩
    by_cases hcg : wn.cg0.isEmpty = true
    · rw [if_pos hcg]
      refine post_mono (ihc _ ws1 f _ hwns.1 hws1
        (by rw [List.length_replicate]; exact hwns.2.1)) ?_
      rintro r ⟨h1, h2, h3⟩
      exact ⟨same_shape_trans (same_shape_of_only_t h1) hshape, h2,
        h3.trans (List.length_replicate _ _)⟩
    · rw [if_neg hcg]
      refine post_mono (ihk _ ws1 f _ (sized_of_same_shape hshape hwns) hws1) ?_
      rintro r ⟨h1, h2, h3⟩
      exact ⟨same_shape_trans h1 hshape, h2, h3.trans (List.length_replicate _ _)⟩
  have hcont : ∀ r : Workspace K × List (Workspace K) × List K,
      (r.1.same_shape wn ∧ List.Forall₂ Workspace.same_shape r.2.1 ws1 ∧
        r.2.2.length = wn.u.length) →
      Post (fun (r : Workspace K × List (Workspace K) × List K) =>
          r.1.only_t w ∧ List.Forall₂ Workspace.same_shape r.2.1 (wn0 :: ws0) ∧
          r.2.2.length = x.length)
        (add_rows lvl.A.rows (row_dot lvl.P r.2.2) x2 >>= fun x =>
          times prm.npost (fun wx => relax_on dv lvl wx.1 swap rhs wx.2)
            ({ w2 with t := t }, x) >>= fun wx =>
          pure (wx.1, { r.1 with u := r.2.2 } :: r.2.1, wx.2)) := by
    rintro ⟨y1, ysl, c⟩ ⟨hy1, hysl, hc1⟩
    simp only at hy1 hysl hc1 ⊢
    refine post_bind (add_rows_length _ _ _) ?_
    intro x3 hx3
    refine post_bind (relax_on_times_post dv lvl w swap rhs x ht hx prm.npost
      { w2 with t := t } x3 ?_ (hx3.trans hx2)) ?_
    · obtain ⟨g1, g2, g3, g4, g5, g6, g7⟩ := hw2
      exact ⟨g1, g2, g3, g4, g5, g6, ht2.trans g7⟩
    rintro ⟨w4, x4⟩ ⟨hw4, hx4⟩
    refine post_ok _ ⟨hw4, ?_, hx4⟩
    refine List.Forall₂.cons ?_ (shapes_trans hysl hsh)
    obtain ⟨g1, g2, g3, g4, g5, g6, g7⟩ := same_shape_trans hy1 hwn
    exact ⟨by simp only; rw [hc1]; exact hwn.1, g2, g3, g4, g5, g6, g7⟩
  by_cases hcg : wn.cg0.isEmpty = true
  · rw [if_pos hcg] at hsub ⊢
    exact post_bind hsub hcont
  · rw [if_neg hcg] at hsub ⊢
    exact post_bind hsub hcont

theorem kcycle_body_len (dv : K → K → Except Fault K) (lvl : Instance K)
    (rest : List (Instance K))
    (call : Workspace K → List (Workspace K) → List K → List K →
      Except Fault (Workspace K × List (Workspace K) × List K))
    (ihc : CycleLen lvl.A.rows rest call) :
    KcycleLen lvl.A.rows rest (kcycle_body dv lvl call) := by
  intro w ws rhs x hw hws
  unfold kcycle_body
  refine post_bind (fill_rows_length _ _ _) ?_
  intro r hr
  simp only
  refine post_bind (post_foldlM
    (Q := fun (st : (Workspace K × List (Workspace K) × List K) × K) =>
      st.1.1.same_shape w ∧ List.Forall₂ Workspace.same_shape st.1.2.1 ws ∧
      st.1.2.2.length = x.length) ?_ [0, 1] _
    ⟨⟨rfl, rfl, rfl, hr, rfl, rfl, rfl⟩, shapes_refl _, rfl⟩) ?_
  · rintro ⟨⟨w1, ws1, x1⟩, rho⟩ iter ⟨hw1, hws1, hx1⟩
    simp only at hw1 hws1 hx1 ⊢
    obtain ⟨g1, g2, g3, g4, g5, g6, g7⟩ := hw1
    refine post_bind (fill_rows_length _ _ _) ?_
    intro s hs
    refine post_bind (ihc { w1 with cg1 := s } ws1 w1.cg0 s (g3.trans hw.1)
      (sized_of_shapes hws1 hws) (by rw [hs, g5]; exact hw.2.2)) ?_
    rintro ⟨w2, ws2, s2⟩ ⟨hw2, hws2, hs2⟩
    simp only at hw2 hws2 hs2 ⊢
    obtain ⟨e1, e2, e3, e4, e5, e6, e7⟩ := hw2
    simp only at e1 e2 e3 e4 e5 e6 e7
    refine post_bind (post_true _) ?_
    intro rho1 _
    have hcont : ∀ p : List K, p.length = w2.cg2.length →
        Post (fun (st : (Workspace K × List (Workspace K) × List K) × K) =>
            st.1.1.same_shape w ∧ List.Forall₂ Workspace.same_shape st.1.2.1 ws ∧
            st.1.2.2.length = x.length)
          (fill_rows lvl.A.rows (row_dot lvl.A p) w2.cg3 >>= fun q =>
            inner_prod lvl q p >>= fun qp =>
            dv rho1 qp >>= fun alpha =>
            transform lvl.A.rows (fun xx pp => xx + alpha * pp) x1 p >>= fun x =>
            transform lvl.A.rows (fun rr qq => rr - alpha * qq) w2.cg0 q >>= fun r =>
            pure (({ w2 with cg0 := r, cg1 := s2, cg2 := p, cg3 := q }, ws2, x), rho1)) := by
      intro p hpl
      refine post_bind (fill_rows_length _ _ _) ?_
      intro q hq
      refine post_bind (post_true _) ?_
      intro qp _
      refine post_bind (post_true _) ?_
      intro alpha _
      refine post_bind (transform_length _ _ _ _) ?_
      intro x2 hx2
      refine post_bind (transform_length _ _ _ _) ?_
      intro r2 hr2
      refine post_ok _ ⟨?_, shapes_trans hws2 hws1, hx2.trans hx1⟩
      exact ⟨(congrArg List.length e1).trans g1, (congrArg List.length e2).trans g2,
        e7.trans g3, (hr2.trans (by rw [e3])).trans g4,
        ((hs2.trans hs)).trans g5, (hpl.trans (by rw [e5])).trans g6,
        (hq.trans (by rw [e6])).trans g7⟩
    by_cases hi : iter ≠ 0
    · rw [if_pos hi]
      refine post_bind (post_true _) ?_
      intro beta _
      exact post_bind (transform_length _ _ _ _) hcont
    · rw [if_neg hi]
      exact post_bind (fill_rows_length _ _ _) hcont
  · rintro st hst
    exact post_ok _ hst

theorem cycle_kcycle_on_len (dv : K → K → Except Fault K) (prm : params)
    (rest : List (Instance K)) :
    ∀ lvl : Instance K, (∀ swap, CycleLen lvl.A.rows rest (cycle_on dv prm swap (lvl :: rest))) ∧
      KcycleLen lvl.A.rows rest (kcycle_on dv prm (lvl :: rest)) := by
  induction rest with
  | nil =>
    intro lvl
    refine ⟨?_, ?_⟩
    · intro swap w ws rhs x
      rw [cycle_on_last]
      exact solve_len_cycle lvl w ws rhs x
    · intro w ws rhs x
      rw [kcycle_on_last]
      exact solve_len_kcycle lvl w ws rhs x
  | cons nxt rest ih =>
    intro lvl
    obtain ⟨ihc, ihk⟩ := ih nxt
    have hc : ∀ swap, CycleLen lvl.A.rows (nxt :: rest)
        (cycle_on dv prm swap (lvl :: nxt :: rest)) := by
      intro swap
      rw [cycle_on_eq_body]
      exact cycle_body_len dv prm swap lvl nxt rest _ _ (ihc true) ihk
    refine ⟨hc, ?_⟩
    rw [kcycle_on_eq_body]
    exact kcycle_body_len dv lvl (nxt :: rest) _ (hc true)

end lengths_on

/-! ## Runs that return: no access outside an array -/

section returns

variable {K : Type} [Field K] [DecidableEq K]

theorem returns_ok {σ : Type} {Q : σ → Prop} (s : σ) (h : Q s) : Returns Q (Except.ok s) :=
  ⟨s, rfl, h⟩

theorem returns_of_eq {σ : Type} {Q : σ → Prop} {c : Except Fault σ} (s : σ)
    (hc : c = Except.ok s) (h : Q s) : Returns Q c :=
  ⟨s, hc, h⟩

theorem returns_bind {σ τ : Type} {Q : σ → Prop} {R : τ → Prop} {c : Except Fault σ}
    {f : σ → Except Fault τ} (hc : Returns Q c) (hf : ∀ s, Q s → Returns R (f s)) :
    Returns R (c >>= f) := by
  obtain ⟨s, hs, hq⟩ := hc
  rw [hs]
  exact hf s hq

theorem returns_mono {σ : Type} {Q R : σ → Prop} {c : Except Fault σ} (hc : Returns Q c)
    (h : ∀ s, Q s → R s) : Returns R c := by
  obtain ⟨s, hs, hq⟩ := hc
  exact ⟨s, hs, h s hq⟩

theorem returns_times {σ : Type} {Q : σ → Prop} {body : σ → Except Fault σ}
    (hb : ∀ s, Q s → Returns Q (body s)) :
    ∀ (n : Nat) (s : σ), Q s → Returns Q (times n body s) := by
  intro n
  induction n with
  | zero => intro s hs; exact returns_ok s hs
  | succ n ih =>
    intro s hs
    exact returns_bind (hb s hs) ih

theorem returns_foldlM {σ ι : Type} {Q : σ → Prop} {body : σ → ι → Except Fault σ}
    (hb : ∀ s i, Q s → Returns Q (body s i)) : ∀ (l : List ι) (s : σ), Q s →
      Returns Q (l.foldlM body s) := by
  intro l
  induction l with
  | nil => intro s hs; exact returns_ok s hs
  | cons i l ih =>
    intro s hs
    rw [List.foldlM_cons]
    exact returns_bind (hb s i hs) ih

theorem post_of_returns {σ : Type} {Q : σ → Prop} {c : Except Fault σ} (h : Returns Q c) :
    Post Q c := by
  obtain ⟨s, hs, hq⟩ := h
  intro t ht
  rw [hs] at ht
  injection ht with ht
  exact ht ▸ hq

theorem returns_rows_dot (m : Nat) (M : matrix K) (x buf : List K)
    (hM : ∀ i < m, row_ok M x.length i) (hb : buf.length = m) :
    Returns (fun b => b.length = m) (fill_rows m (row_dot M x) buf) :=
  ⟨_, mat_vec_ok m M x buf hM hb, length_mat_vec _ _ _⟩

theorem returns_rows_res (A : matrix K) (rhs x buf : List K)
    (hA : ∀ i < A.rows, row_ok A x.length i) (hr : A.rows ≤ rhs.length)
    (hb : buf.length = A.rows) :
    Returns (fun b => b.length = A.rows) (fill_rows A.rows (row_res A rhs x) buf) :=
  ⟨_, residual_ok A rhs x buf hA hr hb, length_residual _ _ _⟩

theorem returns_add_rows_dot (n : Nat) (M : matrix K) (x buf : List K)
    (hM : ∀ i < n, row_ok M x.length i) (hb : buf.length = n) :
    Returns (fun b => b.length = n) (add_rows n (row_dot M x) buf) :=
  ⟨_, add_rows_ok n _ (row_sum M x) buf hb (fun i hi => row_dot_ok _ _ _ (hM i hi)),
    length_vec _ _⟩

theorem returns_transform (n : Nat) (op : K → K → K) (a b : List K) (ha : a.length = n)
    (hb : b.length = n) : Returns (fun c => c.length = n) (transform n op a b) :=
  ⟨_, transform_ok n op a b ha hb, length_vec _ _⟩

theorem returns_inner_prod (lvl : Instance K) (x y : List K) (hx : x.length = lvl.A.rows)
    (hy : y.length = lvl.A.rows) : Returns (fun _ => True) (inner_prod lvl x y) :=
  ⟨_, inner_prod_ok lvl x y (le_of_eq hx.symm) (le_of_eq hy.symm), trivial⟩

theorem returns_copy_n (n : Nat) (src dst : List K) (hs : src.length = n) (hd : dst.length = n) :
    Returns (fun c => c.length = n) (copy_n n src dst) :=
  ⟨_, copy_n_ok n src dst (le_of_eq hs.symm) hd, length_vec _ _⟩

theorem returns_fill_n (n : Nat) (v : K) (dst : List K) (hd : dst.length = n) :
    Returns (fun c => c.length = n) (fill_n n v dst) :=
  ⟨_, fill_n_ok n v dst hd, List.length_replicate _ _⟩

theorem returns_solve (lvl : Instance K) (rhs x : List K)
    (hAi : lvl.Ai.wf lvl.A.rows lvl.A.rows) (hr : rhs.length = lvl.A.rows)
    (hx : x.length = lvl.A.rows) :
    Returns (fun y => y.length = lvl.A.rows) (solve lvl rhs x) :=
  ⟨_, solve_ok lvl rhs x (by rw [hr]; exact rows_ok_of_wf _ _ _ hAi) hx, length_mat_vec _ _ _⟩

theorem relax_row_on_eq (dv : K → K → Except Fault K) (A : matrix K) (rhs x : List K) (i : Nat)
    (h : row_ok A x.length i) (hr : i < rhs.length) (hx : i < x.length) :
    relax_row_on dv A rhs x i =
      (dv (rhs.getD i 0 - row_sum A x i) (diag A i) >>= fun q =>
        Except.ok (x.getD i 0 + 0.72 * q)) := by
  obtain ⟨hlen, hent⟩ := h
  unfold relax_row_on
  rw [rd_of_lt _ _ 0 hr, rd_of_lt _ _ 0 (show i < A.row.length by omega), rd_of_lt _ _ 0 hlen]
  simp only [bind_ok]
  rw [foldlM_pure _ _ (fun (td : K × K) j =>
    (td.1 - A.val.getD j 0 * x.getD (A.col.getD j 0) 0,
      if A.col.getD j 0 = i then A.val.getD j 0 else td.2))]
  · rw [foldl_pair, rd_of_lt _ _ 0 hx]
    simp only [bind_ok, pure_eq_ok]
    rfl
  · intro s j hj
    obtain ⟨h1, h2, h3⟩ := hent j hj
    rw [rd_of_lt _ _ 0 h1, rd_of_lt _ _ 0 h2]
    simp only [bind_ok]
    rw [rd_of_lt _ _ 0 h3]
    rfl

theorem returns_relax_on (q : K → K → K) (lvl : Instance K) (w : Workspace K) (swap : Bool)
    (rhs x : List K) (hA : lvl.A.wf lvl.A.rows lvl.A.rows) (hr : rhs.length = lvl.A.rows)
    (hx : x.length = lvl.A.rows) (ht : w.t.length = lvl.A.rows) :
    Returns (fun r => r.1.only_t w ∧ r.2.length = lvl.A.rows)
      (relax_on (tdiv q) lvl w swap rhs x) := by
  have hrows := rows_ok_of_wf _ _ _ hA
  have hf : fill_rows lvl.A.rows (relax_row_on (tdiv q) lvl.A rhs x) w.t =
      Except.ok (vec lvl.A.rows fun i =>
        x.getD i 0 + 0.72 * q (rhs.getD i 0 - row_sum lvl.A x i) (diag lvl.A i)) := by
    refine fill_rows_ok _ _ _ _ ht ?_
    intro i hi
    rw [relax_row_on_eq (tdiv q) lvl.A rhs x i (by rw [hx]; exact hrows i hi) (by omega)
      (by omega)]
    rfl
  unfold relax_on
  rw [hf]
  cases swap with
  | true =>
    refine returns_ok _ ⟨⟨rfl, rfl, rfl, rfl, rfl, rfl, ?_⟩, ?_⟩
    · exact hx.trans ht.symm
    · exact length_vec _ _
  | false =>
    have hle : (vec lvl.A.rows fun i =>
        x.getD i 0 + 0.72 * q (rhs.getD i 0 - row_sum lvl.A x i) (diag lvl.A i)).length ≤
        x.length := by
      rw [length_vec, hx]
    simp only [bind_ok, vector_copy, Bool.false_eq_true, if_false, if_pos hle, pure_eq_ok]
    refine returns_ok _ ⟨⟨rfl, rfl, rfl, rfl, rfl, rfl, ?_⟩, ?_⟩
    · simp only [length_vec]
      exact ht.symm
    · simp only [List.length_append, length_vec, List.length_drop]
      omega

theorem returns_relax_on_times (q : K → K → K) (lvl : Instance K) (w : Workspace K)
    (swap : Bool) (rhs : List K) (hA : lvl.A.wf lvl.A.rows lvl.A.rows)
    (hr : rhs.length = lvl.A.rows) (ht : w.t.length = lvl.A.rows) (n : Nat)
    (w1 : Workspace K) (x1 : List K) (hw1 : w1.only_t w) (hx1 : x1.length = lvl.A.rows) :
    Returns (fun (wx : Workspace K × List K) => wx.1.only_t w ∧ wx.2.length = lvl.A.rows)
      (times n (fun wx => relax_on (tdiv q) lvl wx.1 swap rhs wx.2) (w1, x1)) := by
  refine returns_times ?_ n (w1, x1) ⟨hw1, hx1⟩
  rintro ⟨w2, x2⟩ ⟨hw2, hx2⟩
  simp only at hw2 hx2 ⊢
  refine returns_mono (returns_relax_on q lvl w2 swap rhs x2 hA hr hx2
    (hw2.2.2.2.2.2.2.trans ht)) ?_
  rintro r ⟨hr1, hr2⟩
  exact ⟨only_t_trans hr1 hw2, hr2⟩

end returns

section returns_solve

variable {K : Type} [Field K] [DecidableEq K]

theorem solve_ret_cycle (lvl : Instance K) (hAi : lvl.Ai.wf lvl.A.rows lvl.A.rows) :
    CycleRet lvl [] (fun w ws rhs x => solve lvl rhs x >>= fun x => pure (w, ws, x)) := by
  intro w ws rhs x _ _ hr hx
  refine returns_bind (returns_solve lvl rhs x hAi hr hx) ?_
  intro y hy
  exact returns_ok _ ⟨only_t_refl w, shapes_refl ws, hy⟩

theorem solve_ret_kcycle (lvl : Instance K) (hAi : lvl.Ai.wf lvl.A.rows lvl.A.rows) :
    KcycleRet lvl [] (fun w ws rhs x => solve lvl rhs x >>= fun x => pure (w, ws, x)) := by
  intro w ws rhs x _ _ _ hr hx
  refine returns_bind (returns_solve lvl rhs x hAi hr hx) ?_
  intro y hy
  exact returns_ok _ ⟨same_shape_refl w, shapes_refl ws, hy⟩

theorem cycle_body_returns (q : K → K → K) (prm : params) (swap : Bool)
    (lvl nxt : Instance K) (rest : List (Instance K))
    (callC callK : Workspace K → List (Workspace K) → List K → List K →
      Except Fault (Workspace K × List (Workspace K) × List K))
    (hA : lvl.A.wf lvl.A.rows lvl.A.rows) (hR : lvl.R.wf nxt.A.rows lvl.A.rows)
    (hP : lvl.P.wf lvl.A.rows nxt.A.rows)
    (ihc : CycleRet nxt rest callC) (ihk : KcycleRet nxt rest callK) :
    CycleRet lvl (nxt :: rest) (cycle_body (tdiv q) prm swap lvl nxt callC callK) := by
  intro w ws0 rhs x ht hws hr hx
  have hArows := rows_ok_of_wf _ _ _ hA
  have hRrows := rows_ok_of_wf _ _ _ hR
  have hProws := rows_ok_of_wf _ _ _ hP
  cases ws0 with
  | nil => exact hws.elim
  | cons wn0 ws0 =>
  obtain ⟨hwn0, hws0⟩ := hws
  unfold cycle_body
  refine returns_times ?_ prm.ncycle (w, wn0 :: ws0, x) ⟨only_t_refl w, shapes_refl _, hx⟩
  rintro ⟨w1, wsl, x1⟩ ⟨hw1, hsh, hx1⟩
  cases hsh with
  | cons hwn hsh =>
  rename_i wn ws1
  simp only at hw1 hx1 ⊢
  have hwnok : wn.ok nxt.A.rows := ok_of_same_shape hwn hwn0
  have hws1 : workspaces_ok rest ws1 := workspaces_ok_of_shapes hsh hws0
  refine returns_bind (returns_relax_on_times q lvl w swap rhs hA hr ht prm.npre w1 x1 hw1 hx1) ?_
  rintro ⟨w2, x2⟩ ⟨hw2, hx2⟩
  simp only at hw2 hx2 ⊢
  have hw2t : w2.t.length = lvl.A.rows := hw2.2.2.2.2.2.2.trans ht
  refine returns_bind (returns_rows_res lvl.A rhs x2 w2.t (by rw [hx2]; exact hArows)
    (le_of_eq hr.symm) hw2t) ?_
  intro t ht2
  refine returns_bind (returns_rows_dot nxt.A.rows lvl.R t wn.f (by rw [ht2]; exact hRrows)
    hwnok.2.1) ?_
  intro f hf
  have hul : (List.replicate wn.u.length (0 : K)).length = nxt.A.rows := by
    rw [List.length_replicate]
    exact hwnok.1
  have hshape : ({ wn with f := f, u := List.replicate wn.u.length 0 } :
      Workspace K).same_shape wn :=
    ⟨List.length_replicate _ _, hf.trans hwnok.2.1.symm, rfl, rfl, rfl, rfl, rfl⟩
  have hsub : Returns (fun (r : Workspace K × List (Workspace K) × List K) =>
        r.1.same_shape wn ∧ List.Forall₂ Workspace.same_shape r.2.1 ws1 ∧
        r.2.2.length = nxt.A.rows)
      (if wn.cg0.isEmpty = true then
        callC { wn with f := f, u := List.replicate wn.u.length 0 } ws1 f
          (List.replicate wn.u.length 0)
      else
        callK { wn with f := f, u := List.replicate wn.u.length 0 } ws1 f
          (List.replicate wn.u.length 0)) := by
    by_cases hcg : wn.cg0.isEmpty = true
    · rw [if_pos hcg]
      refine returns_mono (ihc _ ws1 f _ hwnok.2.2.1 hws1 hf hul) ?_
      rintro r ⟨h1, h2, h3⟩
      exact ⟨same_shape_trans (same_shape_of_only_t h1) hshape, h2, h3⟩
    · rw [if_neg hcg]
      have hcgok : wn.cg_ok nxt.A.rows := by
        rcases hwnok.2.2.2 with h0 | h0
        · rw [h0] at hcg
          exact (hcg rfl).elim
        · exact h0
      refine returns_mono (ihk _ ws1 f _ hwnok.2.2.1 hcgok hws1 hf hul) ?_
      rintro r ⟨h1, h2, h3⟩
      exact ⟨same_shape_trans h1 hshape, h2, h3⟩
  have hcont : ∀ r : Workspace K × List (Workspace K) × List K,
      (r.1.same_shape wn ∧ List.Forall₂ Workspace.same_shape r.2.1 ws1 ∧
        r.2.2.length = nxt.A.rows) →
      Returns (fun (r : Workspace K × List (Workspace K) × List K) =>
          r.1.only_t w ∧ List.Forall₂ Workspace.same_shape r.2.1 (wn0 :: ws0) ∧
          r.2.2.length = lvl.A.rows)
        (add_rows lvl.A.rows (row_dot lvl.P r.2.2) x2 >>= fun x =>
          times prm.npost (fun wx => relax_on (tdiv q) lvl wx.1 swap rhs wx.2)
            ({ w2 with t := t }, x) >>= fun wx =>
          pure (wx.1, { r.1 with u := r.2.2 } :: r.2.1, wx.2)) := by
    rintro ⟨y1, ysl, c⟩ ⟨hy1, hysl, hc1⟩
    simp only at hy1 hysl hc1 ⊢
    refine returns_bind (returns_add_rows_dot lvl.A.rows lvl.P c x2
      (by rw [hc1]; exact hProws) hx2) ?_
    intro x3 hx3
    refine returns_bind (returns_relax_on_times q lvl w swap rhs hA hr ht prm.npost
      { w2 with t := t } x3 ?_ hx3) ?_
    · obtain ⟨g1, g2, g3, g4, g5, g6, g7⟩ := hw2
      exact ⟨g1, g2, g3, g4, g5, g6, ht2.trans ht.symm⟩
    rintro ⟨w4, x4⟩ ⟨hw4, hx4⟩
    refine returns_ok _ ⟨hw4, ?_, hx4⟩
    refine List.Forall₂.cons ?_ (shapes_trans hysl hsh)
    obtain ⟨g1, g2, g3, g4, g5, g6, g7⟩ := same_shape_trans hy1 hwn
    exact ⟨by simp only; rw [hc1]; exact hwn0.1.symm, g2, g3, g4, g5, g6, g7⟩
  by_cases hcg : wn.cg0.isEmpty = true
  · rw [if_pos hcg] at hsub ⊢
    exact returns_bind hsub hcont
  · rw [if_neg hcg] at hsub ⊢
    exact returns_bind hsub hcont

theorem kcycle_body_returns (q : K → K → K) (lvl : Instance K) (rest : List (Instance K))
    (call : Workspace K → List (Workspace K) → List K → List K →
      Except Fault (Workspace K × List (Workspace K) × List K))
    (hA : lvl.A.wf lvl.A.rows lvl.A.rows) (ihc : CycleRet lvl rest call) :
    KcycleRet lvl rest (kcycle_body (tdiv q) lvl call) := by
  intro w ws rhs x ht hcg hws hr hx
  have hArows := rows_ok_of_wf _ _ _ hA
  obtain ⟨hcg0, hcg1, hcg2, hcg3⟩ := hcg
  unfold kcycle_body
  refine returns_bind (returns_copy_n _ rhs w.cg0 hr hcg0) ?_
  intro r hr0
  simp only
  refine returns_bind (returns_foldlM
    (Q := fun (st : (Workspace K × List (Workspace K) × List K) × K) =>
      st.1.1.same_shape w ∧ List.Forall₂ Workspace.same_shape st.1.2.1 ws ∧
      st.1.2.2.length = lvl.A.rows) ?_ [0, 1] _
    ⟨⟨rfl, rfl, rfl, hr0.trans hcg0.symm, rfl, rfl, rfl⟩, shapes_refl _, hx⟩) ?_
  · rintro ⟨⟨w1, ws1, x1⟩, rho⟩ iter ⟨hw1, hws1, hx1⟩
    simp only at hw1 hws1 hx1 ⊢
    obtain ⟨g1, g2, g3, g4, g5, g6, g7⟩ := hw1
    refine returns_bind (returns_fill_n _ 0 w1.cg1 (g5.trans hcg1)) ?_
    intro s hs
    refine returns_bind (ihc { w1 with cg1 := s } ws1 w1.cg0 s (g3.trans ht)
      (workspaces_ok_of_shapes hws1 hws) (g4.trans hcg0) hs) ?_
    rintro ⟨w2, ws2, s2⟩ ⟨hw2, hws2, hs2⟩
    simp only at hw2 hws2 hs2 ⊢
    obtain ⟨e1, e2, e3, e4, e5, e6, e7⟩ := hw2
    simp only at e1 e2 e3 e4 e5 e6 e7
    have hc0 : w2.cg0.length = lvl.A.rows := by rw [e3]; exact g4.trans hcg0
    have hc2 : w2.cg2.length = lvl.A.rows := by rw [e5]; exact g6.trans hcg2
    have hc3 : w2.cg3.length = lvl.A.rows := by rw [e6]; exact g7.trans hcg3
    refine returns_bind (returns_inner_prod lvl w2.cg0 s2 hc0 hs2) ?_
    intro rho1 _
    have hcont : ∀ p : List K, p.length = lvl.A.rows →
        Returns (fun (st : (Workspace K × List (Workspace K) × List K) × K) =>
            st.1.1.same_shape w ∧ List.Forall₂ Workspace.same_shape st.1.2.1 ws ∧
            st.1.2.2.length = lvl.A.rows)
          (fill_rows lvl.A.rows (row_dot lvl.A p) w2.cg3 >>= fun q1 =>
            inner_prod lvl q1 p >>= fun qp =>
            tdiv q rho1 qp >>= fun alpha =>
            transform lvl.A.rows (fun xx pp => xx + alpha * pp) x1 p >>= fun x =>
            transform lvl.A.rows (fun rr qq => rr - alpha * qq) w2.cg0 q1 >>= fun r =>
            pure (({ w2 with cg0 := r, cg1 := s2, cg2 := p, cg3 := q1 }, ws2, x), rho1)) := by
      intro p hpl
      refine returns_bind (returns_rows_dot _ lvl.A p w2.cg3 (by rw [hpl]; exact hArows) hc3) ?_
      intro q1 hq1
      refine returns_bind (returns_inner_prod lvl q1 p hq1 hpl) ?_
      intro qp _
      refine returns_bind (returns_ok (Q := fun _ => True) (q rho1 qp) trivial) ?_
      intro alpha _
      refine returns_bind (returns_transform _ _ x1 p hx1 hpl) ?_
      intro x2 hx2
      refine returns_bind (returns_transform _ _ w2.cg0 q1 hc0 hq1) ?_
      intro r2 hr2
      refine returns_ok _ ⟨?_, shapes_trans hws2 hws1, hx2⟩
      exact ⟨(congrArg List.length e1).trans g1, (congrArg List.length e2).trans g2,
        e7.trans g3, hr2.trans hcg0.symm, hs2.trans hcg1.symm, hpl.trans hcg2.symm,
        hq1.trans hcg3.symm⟩
    by_cases hi : iter ≠ 0
    · rw [if_pos hi]
      refine returns_bind (returns_ok (Q := fun _ => True) (q rho1 rho) trivial) ?_
      intro beta _
      exact returns_bind (returns_transform _ _ w2.cg2 s2 hc2 hs2) hcont
    · rw [if_neg hi]
      exact returns_bind (returns_copy_n _ s2 w2.cg2 hs2 hc2) hcont
  · rintro st hst
    exact returns_ok _ hst

theorem cycle_kcycle_on_returns (q : K → K → K) (prm : params) (rest : List (Instance K)) :
    ∀ lvl : Instance K, levels_ok (lvl :: rest) →
      (∀ swap, CycleRet lvl rest (cycle_on (tdiv q) prm swap (lvl :: rest))) ∧
      KcycleRet lvl rest (kcycle_on (tdiv q) prm (lvl :: rest)) := by
  induction rest with
  | nil =>
    intro lvl h
    refine ⟨?_, ?_⟩
    · intro swap w ws rhs x
      rw [cycle_on_last]
      exact solve_ret_cycle lvl h.2 w ws rhs x
    · intro w ws rhs x
      rw [kcycle_on_last]
      exact solve_ret_kcycle lvl h.2 w ws rhs x
  | cons nxt rest ih =>
    intro lvl h
    obtain ⟨hA, hR, hP, hrest⟩ := h
    obtain ⟨ihc, ihk⟩ := ih nxt hrest
    have hc : ∀ swap, CycleRet lvl (nxt :: rest)
        (cycle_on (tdiv q) prm swap (lvl :: nxt :: rest)) := by
      intro swap
      rw [cycle_on_eq_body]
      exact cycle_body_returns q prm swap lvl nxt rest _ _ hA hR hP (ihc true) ihk
    refine ⟨hc, ?_⟩
    rw [kcycle_on_eq_body]
    exact kcycle_body_returns q lvl (nxt :: rest) _ hA (hc true)

end returns_solve

/-! ## Sequences of calls on a hierarchy -/

section claim_size_calls

variable {K : Type} [Field K] [DecidableEq K]

theorem run_call_on_sized (dv : K → K → Except Fault K) (lv : List (Instance K))
    (ws ws1 : List (Workspace K)) (c : Call K)
    (h : List.Forall₂ sized_for lv ws) (hc : c.fits lv)
    (hr : c.run_on dv lv ws = Except.ok ws1) : List.Forall₂ sized_for lv ws1 := by
  have hd : List.Forall₂ sized_for (lv.drop c.level) (ws.drop c.level) :=
    List.forall₂_drop _ h
  cases c with
  | relax k swap rhs x =>
    simp only [Call.level] at hd
    simp only [Call.fits, Call.level, Call.rhs, Call.x] at hc
    simp only [Call.run_on] at hr
    split at hr
    · rename_i lvl rest w post hl hw
      rw [hl, hw] at hd
      rw [hl] at hc
      cases hd with
      | cons hlw hrest =>
      obtain ⟨r, hrel, hpure⟩ := (bind_eq_ok _ _ _).mp hr
      injection hpure with hpure
      rw [← hpure]
      have hp := relax_on_post dv lvl w swap rhs x hlw.1 (Or.inl hc.2) r hrel
      exact sized_splice k h hl
        (sized_of_same_shape (same_shape_of_only_t hp.1) hlw) hrest
    · cases hr
  | cycle k prm swap rhs x =>
    simp only [Call.level] at hd
    simp only [Call.fits, Call.level, Call.rhs, Call.x] at hc
    simp only [Call.run_on] at hr
    split at hr
    · rename_i lvl rest w post hl hw
      rw [hl, hw] at hd
      rw [hl] at hc
      cases hd with
      | cons hlw hrest =>
      obtain ⟨r, hrel, hpure⟩ := (bind_eq_ok _ _ _).mp hr
      injection hpure with hpure
      rw [← hpure]
      have hp := (cycle_kcycle_on_len dv prm rest lvl).1 swap w post rhs x hlw.1 hrest
        (Or.inl hc.2) r hrel
      exact sized_splice k h hl
        (sized_of_same_shape (same_shape_of_only_t hp.1) hlw) (sized_of_shapes hp.2.1 hrest)
    · cases hr
  | kcycle k prm rhs x =>
    simp only [Call.level] at hd
    simp only [Call.fits, Call.level, Call.rhs, Call.x] at hc
    simp only [Call.run_on] at hr
    split at hr
    · rename_i lvl rest w post hl hw
      rw [hl, hw] at hd
      rw [hl] at hc
      cases hd with
      | cons hlw hrest =>
      obtain ⟨r, hrel, hpure⟩ := (bind_eq_ok _ _ _).mp hr
      injection hpure with hpure
      rw [← hpure]
      have hp := (cycle_kcycle_on_len dv prm rest lvl).2 w post rhs x hlw hrest r hrel
      exact sized_splice k h hl
        (sized_of_same_shape hp.1 hlw) (sized_of_shapes hp.2.1 hrest)
    · cases hr

theorem run_calls_on_sized (dv : K → K → Except Fault K) (lv : List (Instance K))
    (cs : List (Call K)) :
    ∀ ws ws1 : List (Workspace K), List.Forall₂ sized_for lv ws → (∀ c ∈ cs, c.fits lv) →
      run_calls_on dv lv cs ws = Except.ok ws1 → List.Forall₂ sized_for lv ws1 := by
  induction cs with
  | nil =>
    intro ws ws1 h _ hr
    injection hr with hr
    exact hr ▸ h
  | cons c cs ih =>
    intro ws ws1 h hc hr
    obtain ⟨ws2, h2, h3⟩ := (bind_eq_ok _ _ _).mp hr
    exact ih ws2 ws1 (run_call_on_sized dv lv ws ws2 c h (hc c (List.mem_cons_self _ _)) h2)
      (fun c' hc' => hc c' (List.mem_cons_of_mem _ hc')) h3

end claim_size_calls

section calls_return

variable {K : Type} [Field K] [DecidableEq K]

theorem levels_ok_tail (l nxt : Instance K) (rest : List (Instance K))
    (h : levels_ok (l :: nxt :: rest)) : levels_ok (nxt :: rest) := h.2.2.2

theorem levels_ok_drop (k : Nat) : ∀ (lv : List (Instance K)) (lvl : Instance K)
    (rest : List (Instance K)), levels_ok lv → lv.drop k = lvl :: rest →
      levels_ok (lvl :: rest) := by
  induction k with
  | zero =>
    intro lv lvl rest h hd
    rw [List.drop_zero] at hd
    exact hd ▸ h
  | succ k ih =>
    intro lv lvl rest h hd
    match lv, h, hd with
    | [], h, _ => exact h.elim
    | [_], _, hd => simp at hd
    | l :: nxt :: lv2, h, hd =>
      rw [List.drop_succ_cons] at hd
      exact ih (nxt :: lv2) lvl rest (levels_ok_tail l nxt lv2 h) hd

theorem workspaces_ok_drop (k : Nat) : ∀ (lv : List (Instance K)) (ws : List (Workspace K)),
    workspaces_ok lv ws → workspaces_ok (lv.drop k) (ws.drop k) := by
  induction k with
  | zero => intro lv ws h; exact h
  | succ k ih =>
    intro lv ws h
    match lv, ws, h with
    | [], [], _ => exact trivial
    | l :: lv, w :: ws, h => exact ih lv ws h.2

theorem call_site (lv : List (Instance K)) (ws : List (Workspace K)) (k : Nat)
    (lvl : Instance K) (rest : List (Instance K)) (w : Workspace K) (post : List (Workspace K))
    (ht : List.Forall₂ (fun l (v : Workspace K) => v.t.length = l.A.rows) lv ws)
    (hok : workspaces_ok lv.tail ws.tail)
    (hl : lv.drop k = lvl :: rest) (hw : ws.drop k = w :: post) :
    w.t.length = lvl.A.rows ∧ workspaces_ok rest post := by
  have hd := List.forall₂_drop k ht
  rw [hl, hw] at hd
  cases hd with
  | cons hwt _ =>
  refine ⟨hwt, ?_⟩
  have h2 := workspaces_ok_drop k lv.tail ws.tail hok
  rw [List.drop_tail, List.drop_tail] at h2
  have e1 : lv.drop (k + 1) = rest := by
    have := congrArg List.tail hl
    rw [List.tail_drop, List.tail_cons] at this
    exact this
  have e2 : ws.drop (k + 1) = post := by
    have := congrArg List.tail hw
    rw [List.tail_drop, List.tail_cons] at this
    exact this
  rw [e1, e2] at h2
  exact h2

theorem shapes_splice (ws : List (Workspace K)) (k : Nat) (w r1 : Workspace K)
    (post rpost : List (Workspace K)) (hw : ws.drop k = w :: post) (h1 : r1.same_shape w)
    (hp : List.Forall₂ Workspace.same_shape rpost post) :
    List.Forall₂ Workspace.same_shape (ws.take k ++ r1 :: rpost) ws := by
  have h2 : List.Forall₂ Workspace.same_shape (ws.take k ++ r1 :: rpost)
      (ws.take k ++ w :: post) :=
    List.rel_append (shapes_refl _) (List.Forall₂.cons h1 hp)
  rw [← hw, List.take_append_drop] at h2
  exact h2

theorem tlen_of_shapes {lv : List (Instance K)} {a b : List (Workspace K)}
    (h : List.Forall₂ Workspace.same_shape a b)
    (hb : List.Forall₂ (fun l (v : Workspace K) => v.t.length = l.A.rows) lv b) :
    List.Forall₂ (fun l (v : Workspace K) => v.t.length = l.A.rows) lv a := by
  induction h generalizing lv with
  | nil => exact hb
  | cons hab _ ih =>
    cases hb with
    | cons hl hb => exact List.Forall₂.cons (hab.2.2.1.trans hl) (ih hb)

theorem shapes_tail {a b : List (Workspace K)} (h : List.Forall₂ Workspace.same_shape a b) :
    List.Forall₂ Workspace.same_shape a.tail b.tail := by
  cases h with
  | nil => exact List.Forall₂.nil
  | cons _ h => exact h

theorem cg_ok_of_same_shape {v w : Workspace K} {n : Nat} (h : v.same_shape w)
    (hw : w.cg_ok n) : v.cg_ok n := by
  obtain ⟨_, _, _, h4, h5, h6, h7⟩ := h
  obtain ⟨g4, g5, g6, g7⟩ := hw
  exact ⟨h4.trans g4, h5.trans g5, h6.trans g6, h7.trans g7⟩

theorem safe_of_shapes (lv : List (Instance K)) (a b : List (Workspace K)) (c : Call K)
    (h : List.Forall₂ Workspace.same_shape a b) (hc : c.safe lv b) : c.safe lv a := by
  cases c with
  | relax k swap rhs x => exact trivial
  | cycle k prm swap rhs x => exact trivial
  | kcycle k prm rhs x =>
    have hd := List.forall₂_drop k h
    simp only [Call.safe] at hc ⊢
    split at hc
    · rename_i lvl rest w post hl hw
      rw [hw] at hd
      cases hda : a.drop k with
      | nil => rw [hda] at hd; cases hd
      | cons v vs =>
        rw [hda] at hd
        cases hd with
        | cons hvw _ =>
        rw [hl]
        rcases hc with hc | hc
        · exact Or.inl hc
        · exact Or.inr (cg_ok_of_same_shape hvw hc)
    · exact hc.elim

theorem run_call_on_returns (q : K → K → K) (lv : List (Instance K))
    (ws : List (Workspace K)) (c : Call K) (hlv : levels_ok lv)
    (ht : List.Forall₂ (fun l (v : Workspace K) => v.t.length = l.A.rows) lv ws)
    (hok : workspaces_ok lv.tail ws.tail) (hc : c.fits lv) (hs : c.safe lv ws) :
    Returns (fun ws1 => List.Forall₂ Workspace.same_shape ws1 ws)
      (c.run_on (tdiv q) lv ws) := by
  have hd := List.forall₂_drop c.level ht
  cases c with
  | relax k swap rhs x =>
    simp only [Call.level] at hd
    simp only [Call.fits, Call.level, Call.rhs, Call.x] at hc
    split at hc
    · rename_i lvl rest hl
      rw [hl] at hd
      cases hw : ws.drop k with
      | nil => rw [hw] at hd; cases hd
      | cons w post =>
        obtain ⟨hwt, hpost⟩ := call_site lv ws k lvl rest w post ht hok hl hw
        have hlo := levels_ok_drop k lv lvl rest hlv hl
        simp only [Call.run_on, hl, hw]
        refine returns_bind (returns_relax_on q lvl w swap rhs x (levels_ok_head lvl rest hlo)
          hc.1 hc.2 hwt) ?_
        rintro r ⟨hr1, _⟩
        exact returns_ok _ (shapes_splice ws k w r.1 post post hw (same_shape_of_only_t hr1)
          (shapes_refl _))
    · exact hc.elim
  | cycle k prm swap rhs x =>
    simp only [Call.level] at hd
    simp only [Call.fits, Call.level, Call.rhs, Call.x] at hc
    split at hc
    · rename_i lvl rest hl
      rw [hl] at hd
      cases hw : ws.drop k with
      | nil => rw [hw] at hd; cases hd
      | cons w post =>
        obtain ⟨hwt, hpost⟩ := call_site lv ws k lvl rest w post ht hok hl hw
        have hlo := levels_ok_drop k lv lvl rest hlv hl
        simp only [Call.run_on, hl, hw]
        refine returns_bind ((cycle_kcycle_on_returns q prm rest lvl hlo).1 swap w post rhs x
          hwt hpost hc.1 hc.2) ?_
        rintro r ⟨hr1, hr2, _⟩
        exact returns_ok _ (shapes_splice ws k w r.1 post r.2.1 hw (same_shape_of_only_t hr1)
          hr2)
    · exact hc.elim
  | kcycle k prm rhs x =>
    simp only [Call.level] at hd
    simp only [Call.fits, Call.level, Call.rhs, Call.x] at hc
    split at hc
    · rename_i lvl rest hl
      rw [hl] at hd
      cases hw : ws.drop k with
      | nil => rw [hw] at hd; cases hd
      | cons w post =>
        obtain ⟨hwt, hpost⟩ := call_site lv ws k lvl rest w post ht hok hl hw
        have hlo := levels_ok_drop k lv lvl rest hlv hl
        simp only [Call.safe, hl, hw] at hs
        simp only [Call.run_on, hl, hw]
        rcases hs with hs | hs
        · subst hs
          rw [kcycle_on_last]
          refine returns_bind (returns_bind (returns_solve lvl rhs x hlo.2 hc.1 hc.2)
            (R := fun (r : Workspace K × List (Workspace K) × List K) =>
              r.1 = w ∧ r.2.1 = post) (fun y _ => returns_ok _ ⟨rfl, rfl⟩)) ?_
          rintro r ⟨hr1, hr2⟩
          exact returns_ok _ (shapes_splice ws k w r.1 post r.2.1 hw
            (hr1 ▸ same_shape_refl _) (hr2 ▸ shapes_refl _))
        · refine returns_bind ((cycle_kcycle_on_returns q prm rest lvl hlo).2 w post rhs x
            hwt hs hpost hc.1 hc.2) ?_
          rintro r ⟨hr1, hr2, _⟩
          exact returns_ok _ (shapes_splice ws k w r.1 post r.2.1 hw hr1 hr2)
    · exact hc.elim

theorem run_calls_on_returns (q : K → K → K) (lv : List (Instance K)) (cs : List (Call K)) :
    ∀ ws : List (Workspace K), levels_ok lv →
      List.Forall₂ (fun l (v : Workspace K) => v.t.length = l.A.rows) lv ws →
      workspaces_ok lv.tail ws.tail → (∀ c ∈ cs, c.fits lv) → (∀ c ∈ cs, c.safe lv ws) →
      Returns (fun ws1 => List.Forall₂ Workspace.same_shape ws1 ws)
        (run_calls_on (tdiv q) lv cs ws) := by
  induction cs with
  | nil =>
    intro ws _ _ _ _ _
    exact returns_ok _ (shapes_refl ws)
  | cons c cs ih =>
    intro ws hlv ht hok hc hs
    rw [run_calls_on]
    refine returns_bind (run_call_on_returns q lv ws c hlv ht hok
      (hc c (List.mem_cons_self _ _)) (hs c (List.mem_cons_self _ _))) ?_
    intro ws1 h1
    refine returns_mono (ih ws1 hlv (tlen_of_shapes h1 ht)
      (workspaces_ok_of_shapes (shapes_tail h1) hok)
      (fun c' hc' => hc c' (List.mem_cons_of_mem _ hc'))
      (fun c' hc' => safe_of_shapes lv ws1 ws c' h1 (hs c' (List.mem_cons_of_mem _ hc')))) ?_
    intro ws2 h2
    exact shapes_trans h2 h1

end calls_return

/-! ## The faults of a run whose divisions all have a value -/

section faults_on

variable {K : Type} [Field K] [DecidableEq K]

theorem index_only_ok {σ : Type} (s : σ) : index_only (Except.ok s : Except Fault σ) := by
  intro e h
  cases h

theorem index_only_index {σ : Type} : index_only (Except.error Fault.index : Except Fault σ) := by
  intro e h
  injection h with h
  exact h.symm

theorem index_only_bind {σ τ : Type} {c : Except Fault σ} {f : σ → Except Fault τ}
    (hc : index_only c) (hf : ∀ s, index_only (f s)) : index_only (c >>= f) := by
  cases c with
  | error e0 =>
    intro e h
    have h0 : e0 = e := by
      injection h
    exact hc e (h0 ▸ rfl)
  | ok s => exact hf s

theorem index_only_foldlM {σ ι : Type} {body : σ → ι → Except Fault σ}
    (hb : ∀ s i, index_only (body s i)) : ∀ (l : List ι) (s : σ),
      index_only (l.foldlM body s) := by
  intro l
  induction l with
  | nil => intro s; exact index_only_ok s
  | cons i l ih =>
    intro s
    rw [List.foldlM_cons]
    exact index_only_bind (hb s i) ih

theorem index_only_times {σ : Type} {body : σ → Except Fault σ}
    (hb : ∀ s, index_only (body s)) : ∀ (n : Nat) (s : σ), index_only (times n body s) := by
  intro n
  induction n with
  | zero => intro s; exact index_only_ok s
  | succ n ih =>
    intro s
    exact index_only_bind (hb s) ih

theorem index_only_rd {α : Type} (xs : List α) (i : Nat) : index_only (rd xs i) := by
  unfold rd
  split
  · exact index_only_ok _
  · exact index_only_index

theorem index_only_wr {α : Type} (xs : List α) (i : Nat) (v : α) : index_only (wr xs i v) := by
  unfold wr
  split
  · exact index_only_ok _
  · exact index_only_index

theorem index_only_tdiv (q : K → K → K) (a b : K) : index_only (tdiv q a b) :=
  index_only_ok _

theorem index_only_fill_rows {α : Type} (n : Nat) (body : Nat → Except Fault α) (buf : List α)
    (hb : ∀ i, index_only (body i)) : index_only (fill_rows n body buf) := by
  unfold fill_rows
  refine index_only_foldlM ?_ _ _
  intro b i
  exact index_only_bind (hb i) (fun v => index_only_wr b i v)

theorem index_only_add_rows (n : Nat) (body : Nat → Except Fault K) (buf : List K)
    (hb : ∀ i, index_only (body i)) : index_only (add_rows n body buf) := by
  unfold add_rows
  refine index_only_foldlM ?_ _ _
  intro b i
  exact index_only_bind (hb i) (fun v =>
    index_only_bind (index_only_rd b i) (fun bi => index_only_wr b i _))

theorem index_only_transform (n : Nat) (op : K → K → K) (a b : List K) :
    index_only (transform n op a b) := by
  unfold transform
  refine index_only_foldlM ?_ _ _
  intro buf i
  exact index_only_bind (index_only_rd buf i) (fun ai =>
    index_only_bind (index_only_rd b i) (fun bi => index_only_wr buf i _))

theorem index_only_row_dot (M : matrix K) (x : List K) (i : Nat) :
    index_only (row_dot M x i) := by
  unfold row_dot
  refine index_only_bind (index_only_rd _ _) (fun b => ?_)
  refine index_only_bind (index_only_rd _ _) (fun e => ?_)
  refine index_only_foldlM ?_ _ _
  intro temp j
  refine index_only_bind (index_only_rd _ _) (fun v => ?_)
  refine index_only_bind (index_only_rd _ _) (fun c => ?_)
  exact index_only_bind (index_only_rd _ _) (fun xc => index_only_ok _)

theorem index_only_row_res (M : matrix K) (rhs x : List K) (i : Nat) :
    index_only (row_res M rhs x i) := by
  unfold row_res
  refine index_only_bind (index_only_rd _ _) (fun temp => ?_)
  refine index_only_bind (index_only_rd _ _) (fun b => ?_)
  refine index_only_bind (index_only_rd _ _) (fun e => ?_)
  refine index_only_foldlM ?_ _ _
  intro temp j
  refine index_only_bind (index_only_rd _ _) (fun v => ?_)
  refine index_only_bind (index_only_rd _ _) (fun c => ?_)
  exact index_only_bind (index_only_rd _ _) (fun xc => index_only_ok _)

theorem index_only_relax_row_on (q : K → K → K) (A : matrix K) (rhs x : List K) (i : Nat) :
    index_only (relax_row_on (tdiv q) A rhs x i) := by
  unfold relax_row_on
  refine index_only_bind (index_only_rd _ _) (fun temp => ?_)
  refine index_only_bind (index_only_rd _ _) (fun b => ?_)
  refine index_only_bind (index_only_rd _ _) (fun e => ?_)
  refine index_only_bind (index_only_foldlM ?_ _ _) (fun td => ?_)
  · intro td j
    refine index_only_bind (index_only_rd _ _) (fun c => ?_)
    refine index_only_bind (index_only_rd _ _) (fun v => ?_)
    exact index_only_bind (index_only_rd _ _) (fun xc => index_only_ok _)
  · refine index_only_bind (index_only_rd _ _) (fun xi => ?_)
    exact index_only_bind (index_only_tdiv q _ _) (fun d => index_only_ok _)

theorem index_only_vector_copy {α : Type} (swap : Bool) (u v : List α) :
    index_only (vector_copy swap u v) := by
  unfold vector_copy
  split
  · exact index_only_ok _
  · split
    · exact index_only_ok _
    · exact index_only_index

theorem index_only_relax_on (q : K → K → K) (lvl : Instance K) (w : Workspace K) (swap : Bool)
    (rhs x : List K) : index_only (relax_on (tdiv q) lvl w swap rhs x) := by
  unfold relax_on
  refine index_only_bind (index_only_fill_rows _ _ _ (index_only_relax_row_on q _ _ _))
    (fun t => ?_)
  exact index_only_bind (index_only_vector_copy _ _ _) (fun tx => index_only_ok _)

theorem index_only_inner_prod (lvl : Instance K) (x y : List K) :
    index_only (inner_prod lvl x y) := by
  unfold inner_prod
  refine index_only_foldlM ?_ _ _
  intro sum i
  refine index_only_bind (index_only_rd _ _) (fun xi => ?_)
  exact index_only_bind (index_only_rd _ _) (fun yi => index_only_ok _)

theorem index_only_copy_n {α : Type} (n : Nat) (src dst : List α) :
    index_only (copy_n n src dst) :=
  index_only_fill_rows _ _ _ (index_only_rd src)

theorem index_only_fill_n {α : Type} (n : Nat) (v : α) (dst : List α) :
    index_only (fill_n n v dst) :=
  index_only_fill_rows _ _ _ (fun _ => index_only_ok v)

theorem index_only_solve (lvl : Instance K) (w : Workspace K) (ws : List (Workspace K))
    (rhs x : List K) :
    index_only (solve lvl rhs x >>= fun x => (pure (w, ws, x) :
      Except Fault (Workspace K × List (Workspace K) × List K))) :=
  index_only_bind (index_only_fill_rows _ _ _ (index_only_row_dot _ _))
    (fun _ => index_only_ok _)

theorem index_only_cycle_body (q : K → K → K) (prm : params) (swap : Bool)
    (lvl nxt : Instance K)
    (callC callK : Workspace K → List (Workspace K) → List K → List K →
      Except Fault (Workspace K × List (Workspace K) × List K))
    (hC : ∀ w ws rhs x, index_only (callC w ws rhs x))
    (hK : ∀ w ws rhs x, index_only (callK w ws rhs x))
    (w : Workspace K) (ws : List (Workspace K)) (rhs x : List K) :
    index_only (cycle_body (tdiv q) prm swap lvl nxt callC callK w ws rhs x) := by
  unfold cycle_body
  refine index_only_times ?_ _ _
  rintro ⟨w1, wsl, x1⟩
  cases wsl with
  | nil => exact index_only_index
  | cons wn ws1 =>
    simp only
    refine index_only_bind (index_only_times (fun wx => index_only_relax_on q _ _ _ _ _) _ _)
      (fun wx => ?_)
    refine index_only_bind (index_only_fill_rows _ _ _ (index_only_row_res _ _ _)) (fun t => ?_)
    refine index_only_bind (index_only_fill_rows _ _ _ (index_only_row_dot _ _)) (fun f => ?_)
    have hcont : ∀ r : Workspace K × List (Workspace K) × List K,
        index_only (add_rows lvl.A.rows (row_dot lvl.P r.2.2) wx.2 >>= fun x =>
          times prm.npost (fun wx => relax_on (tdiv q) lvl wx.1 swap rhs wx.2)
            ({ wx.1 with t := t }, x) >>= fun wx =>
          (pure (wx.1, { r.1 with u := r.2.2 } :: r.2.1, wx.2) :
            Except Fault (Workspace K × List (Workspace K) × List K))) := by
      intro r
      refine index_only_bind (index_only_add_rows _ _ _ (index_only_row_dot _ _)) (fun x3 => ?_)
      exact index_only_bind (index_only_times (fun wx => index_only_relax_on q _ _ _ _ _) _ _)
        (fun wx => index_only_ok _)
    by_cases hcg : wn.cg0.isEmpty = true
    · rw [if_pos hcg]
      exact index_only_bind (hC _ _ _ _) hcont
    · rw [if_neg hcg]
      exact index_only_bind (hK _ _ _ _) hcont

theorem index_only_kcycle_body (q : K → K → K) (lvl : Instance K)
    (call : Workspace K → List (Workspace K) → List K → List K →
      Except Fault (Workspace K × List (Workspace K) × List K))
    (hC : ∀ w ws rhs x, index_only (call w ws rhs x))
    (w : Workspace K) (ws : List (Workspace K)) (rhs x : List K) :
    index_only (kcycle_body (tdiv q) lvl call w ws rhs x) := by
  unfold kcycle_body
  refine index_only_bind (index_only_copy_n _ _ _) (fun r => ?_)
  simp only
  refine index_only_bind (index_only_foldlM ?_ _ _) (fun st => index_only_ok _)
  rintro ⟨⟨w1, ws1, x1⟩, rho⟩ iter
  simp only
  refine index_only_bind (index_only_fill_n _ _ _) (fun s => ?_)
  refine index_only_bind (hC _ _ _ _) (fun sub => ?_)
  refine index_only_bind (index_only_inner_prod _ _ _) (fun rho1 => ?_)
  have hcont : ∀ p : List K,
      index_only (fill_rows lvl.A.rows (row_dot lvl.A p) sub.1.cg3 >>= fun q1 =>
        inner_prod lvl q1 p >>= fun qp =>
        tdiv q rho1 qp >>= fun alpha =>
        transform lvl.A.rows (fun xx pp => xx + alpha * pp) x1 p >>= fun x =>
        transform lvl.A.rows (fun rr qq => rr - alpha * qq) sub.1.cg0 q1 >>= fun r =>
        (pure (({ sub.1 with cg0 := r, cg1 := sub.2.2, cg2 := p, cg3 := q1 }, sub.2.1, x),
          rho1) : Except Fault ((Workspace K × List (Workspace K) × List K) × K))) := by
    intro p
    refine index_only_bind (index_only_fill_rows _ _ _ (index_only_row_dot _ _)) (fun q1 => ?_)
    refine index_only_bind (index_only_inner_prod _ _ _) (fun qp => ?_)
    refine index_only_bind (index_only_tdiv q _ _) (fun alpha => ?_)
    refine index_only_bind (index_only_transform _ _ _ _) (fun x2 => ?_)
    exact index_only_bind (index_only_transform _ _ _ _) (fun r2 => index_only_ok _)
  by_cases hi : iter ≠ 0
  · rw [if_pos hi]
    exact index_only_bind (index_only_tdiv q _ _)
      (fun beta => index_only_bind (index_only_transform _ _ _ _) hcont)
  · rw [if_neg hi]
    exact index_only_bind (index_only_copy_n _ _ _) hcont

theorem index_only_cycle_kcycle_on (q : K → K → K) (prm : params) (lv : List (Instance K)) :
    (∀ swap w ws rhs x, index_only (cycle_on (tdiv q) prm swap lv w ws rhs x)) ∧
    (∀ w ws rhs x, index_only (kcycle_on (tdiv q) prm lv w ws rhs x)) := by
  induction lv with
  | nil =>
    refine ⟨?_, ?_⟩
    · intro swap w ws rhs x
      rw [cycle_on]
      exact index_only_index
    · intro w ws rhs x
      rw [kcycle_on]
      exact index_only_index
  | cons lvl rest ih =>
    cases rest with
    | nil =>
      refine ⟨?_, ?_⟩
      · intro swap w ws rhs x
        rw [cycle_on_last]
        exact index_only_solve lvl w ws rhs x
      · intro w ws rhs x
        rw [kcycle_on_last]
        exact index_only_solve lvl w ws rhs x
    | cons nxt rest =>
      obtain ⟨ihc, ihk⟩ := ih
      have hc : ∀ swap w ws rhs x,
          index_only (cycle_on (tdiv q) prm swap (lvl :: nxt :: rest) w ws rhs x) := by
        intro swap w ws rhs x
        rw [cycle_on_eq_body]
        exact index_only_cycle_body q prm swap lvl nxt _ _ (ihc true) ihk w ws rhs x
      refine ⟨hc, ?_⟩
      intro w ws rhs x
      rw [kcycle_on_eq_body]
      exact index_only_kcycle_body q lvl _ (hc true) w ws rhs x

theorem index_only_run_calls_on (q : K → K → K) (lv : List (Instance K)) (cs : List (Call K)) :
    ∀ ws : List (Workspace K), index_only (run_calls_on (tdiv q) lv cs ws) := by
  induction cs with
  | nil => intro ws; exact index_only_ok ws
  | cons c cs ih =>
    intro ws
    rw [run_calls_on]
    refine index_only_bind ?_ ih
    cases c with
    | relax k swap rhs x =>
      simp only [Call.run_on]
      split
      · exact index_only_bind (index_only_relax_on q _ _ _ _ _) (fun r => index_only_ok _)
      · exact index_only_index
    | cycle k prm swap rhs x =>
      simp only [Call.run_on]
      split
      · exact index_only_bind ((index_only_cycle_kcycle_on q prm _).1 _ _ _ _ _)
          (fun r => index_only_ok _)
      · exact index_only_index
    | kcycle k prm rhs x =>
      simp only [Call.run_on]
      split
      · exact index_only_bind ((index_only_cycle_kcycle_on q prm _).2 _ _ _ _)
          (fun r => index_only_ok _)
      · exact index_only_index

end faults_on

/-! ## `size()` after a sequence of calls, `nonzeros()` -/

section claim_size_statement

variable {K : Type} [Field K] [DecidableEq K]

/-- C12: in a hierarchy of levels built by the two constructors (at any positions, for
any parameters) `size()` is the row count of the operator `A` of its level, and it is so
for every level after any sequence of calls of `relax`, `cycle` and `kcycle`, each made
with an `rhs` and an `x` of as many entries as the operator of the level it is called on
has rows: whatever the quotient of the divisions is (one that stops the run at a zero
divisor, or one that has a value for every divisor and lets the run go on), the
workspaces the sequence returns have `size() = A.rows`. With a quotient that always has a
value the sequence stops at an access outside an array only; and when the matrices are
well-formed, every level after the first has `u` and `f` allocated, and `kcycle` is called
only on levels that have their `cg` vectors or on the last level, it does return.
`nonzeros()` is `A.row[A.rows]`; for well-formed CSR arrays that start at `row[0] = 0` it
is the number of stored entries of the rows of `A`. -/
theorem size_is_rows (lv : List (Instance K)) (ws0 : List (Workspace K))
    (calls : List (Call K)) (hb : List.Forall₂ built lv ws0)
    (hc : ∀ c ∈ calls, c.fits lv) :
    List.Forall₂ (fun l w => w.size = l.A.rows) lv ws0 ∧
    (∀ (dv : K → K → Except Fault K) (ws : List (Workspace K)),
      run_calls_on dv lv calls ws0 = Except.ok ws →
      List.Forall₂ (fun l w => w.size = l.A.rows) lv ws) ∧
    (∀ (q : K → K → K) (e : Fault),
      run_calls_on (tdiv q) lv calls ws0 = Except.error e → e = Fault.index) ∧
    (levels_ok lv → workspaces_ok lv.tail ws0.tail → (∀ c ∈ calls, c.safe lv ws0) →
      ∀ q : K → K → K, ∃ ws, run_calls_on (tdiv q) lv calls ws0 = Except.ok ws ∧
        List.Forall₂ (fun l w => w.size = l.A.rows) lv ws) ∧
    (∀ l ∈ lv, nonzeros l = rd l.A.row l.A.rows ∧
      ∀ k, l.A.wf l.A.rows k →
        nonzeros l = Except.ok (l.A.row.getD l.A.rows 0) ∧
        (l.A.row.getD 0 0 = 0 →
          ((List.range l.A.rows).map (fun i => (row_entries l.A i).length)).sum =
            l.A.row.getD l.A.rows 0)) := by
  have h0 := sized_of_built_all hb
  have hsz : ∀ (dv : K → K → Except Fault K) (ws : List (Workspace K)),
      run_calls_on dv lv calls ws0 = Except.ok ws →
      List.Forall₂ (fun l w => w.size = l.A.rows) lv ws := by
    intro dv ws hrun
    exact List.Forall₂.imp (fun _ _ h => h.1) (run_calls_on_sized dv lv calls ws0 ws h0 hc hrun)
  refine ⟨List.Forall₂.imp (fun _ _ h => h.1) h0, hsz, ?_, ?_, ?_⟩
  · intro q e he
    exact index_only_run_calls_on q lv calls ws0 e he
  · intro hlv hok hs q
    obtain ⟨ws, hrun, _⟩ := run_calls_on_returns q lv calls ws0 hlv
      (List.Forall₂.imp (fun _ _ h => h.1) h0) hok hc hs
    exact ⟨ws, hrun, hsz _ ws hrun⟩
  · intro l _
    refine ⟨rfl, ?_⟩
    intro k hk
    obtain ⟨_, hlen, hmono, _, _⟩ := hk
    refine ⟨rd_of_lt _ _ 0 (by omega), ?_⟩
    intro hz
    have hs := sum_row_lengths l.A.row l.A.rows hmono
    simp only [row_entries, List.length_range']
    omega

theorem ex_relax_zero_diagonal (w : Workspace ℚ) (swap : Bool) (ht : w.t = [0]) :
    relax exTz w swap [1] [0] = Except.error Fault.divide := by
  simp [relax, fill_rows, relax_row, rd, wr, fdiv, ht, exTz, exZ, List.range_succ, List.range',
    List.foldlM]

theorem size_is_rows_witness :
    List.Forall₂ built [exTz, exTc]
      [(instance_interior exE exZ exI exI ⟨1, 1, 0, 0⟩ 0).2,
        (instance_coarsest exE exI exI ⟨1, 1, 0, 0⟩ 1).2] ∧
    (∀ c ∈ [Call.relax 0 true [1] [0], Call.kcycle 1 ⟨1, 1, 0, 0⟩ [1] [0],
        Call.cycle 0 ⟨1, 1, 0, 0⟩ false [1] [0]], c.fits [exTz, exTc]) ∧
    relax exTz (instance_interior exE exZ exI exI ⟨1, 1, 0, 0⟩ 0).2 true [1] [0] =
      Except.error Fault.divide ∧
    ∃ ws : List (Workspace ℚ),
      run_calls_on (tdiv (fun a b => a / b)) [exTz, exTc]
        [Call.relax 0 true [1] [0], Call.kcycle 1 ⟨1, 1, 0, 0⟩ [1] [0],
          Call.cycle 0 ⟨1, 1, 0, 0⟩ false [1] [0]]
        [(instance_interior exE exZ exI exI ⟨1, 1, 0, 0⟩ 0).2,
          (instance_coarsest exE exI exI ⟨1, 1, 0, 0⟩ 1).2] = Except.ok ws ∧
      List.Forall₂ (fun l w => w.size = l.A.rows) [exTz, exTc] ws := by
  have hb : List.Forall₂ built [exTz, exTc]
      [(instance_interior exE exZ exI exI ⟨1, 1, 0, 0⟩ 0).2,
        (instance_coarsest exE exI exI ⟨1, 1, 0, 0⟩ 1).2] :=
    List.Forall₂.cons (Or.inl ⟨exE, exI, exI, ⟨1, 1, 0, 0⟩, 0, rfl⟩)
      (List.Forall₂.cons (Or.inr ⟨exE, exI, ⟨1, 1, 0, 0⟩, 1, rfl⟩) List.Forall₂.nil)
  have hc : ∀ c ∈ [Call.relax 0 true [1] [0], Call.kcycle 1 ⟨1, 1, 0, 0⟩ [1] [0],
      Call.cycle 0 ⟨1, 1, 0, 0⟩ false [1] [0]], c.fits [exTz, exTc] := by
    intro c hc
    simp only [List.mem_cons, List.mem_singleton, List.not_mem_nil, or_false] at hc
    rcases hc with rfl | rfl | rfl <;> exact ⟨rfl, rfl⟩
  have hs : ∀ c ∈ [Call.relax 0 true [1] [0], Call.kcycle 1 ⟨1, 1, 0, 0⟩ [1] [0],
      Call.cycle 0 ⟨1, 1, 0, 0⟩ false [1] [0]], c.safe [exTz, exTc]
        [(instance_interior exE exZ exI exI ⟨1, 1, 0, 0⟩ 0).2,
          (instance_coarsest exE exI exI ⟨1, 1, 0, 0⟩ 1).2] := by
    intro c hc
    simp only [List.mem_cons, List.mem_singleton, List.not_mem_nil, or_false] at hc
    rcases hc with rfl | rfl | rfl
    · exact trivial
    · exact Or.inl rfl
    · exact trivial
  exact ⟨hb, hc, ex_relax_zero_diagonal _ true rfl,
    (size_is_rows _ _ _ hb hc).2.2.2.1 (by decide) (by decide) hs (fun a b => a / b)⟩

end claim_size_statement

/-! ## Index safety -/

section claim_bounds_statement

variable {K : Type} [Field K] [DecidableEq K]

/-- C17 (as the code has it): if the CSR arrays of every level are well-formed (`A` is
`n × n`; on a level that is not the last `R` has `next.A.rows` rows and columns below
`n`, and `P` has `n` rows and columns below `next.A.rows`; `Ai` of the last level is
`n × n`), `t` of the first level has `n` entries, every level after the first has `u`,
`f` and `t` of its `n` entries and `cg` either unallocated or made of four vectors of
`n` entries, and `rhs` and `x` have `n` entries, then `relax`, `resid` and `cycle` run to
their end without an access outside an array, whatever value `q` the divisions produce
(also for a zero divisor, where the run goes on), and so does `kcycle` when the range has
one level or the level it is called on has its four `cg` vectors of `n` entries. The
vectors keep their lengths. -/
theorem index_safety (q : K → K → K) (sqrt : K → K) (prm : params) (swap : Bool)
    (lvl : Instance K) (rest : List (Instance K)) (w : Workspace K) (ws : List (Workspace K))
    (rhs x : List K)
    (h : levels_ok (lvl :: rest)) (ht : w.t.length = lvl.A.rows)
    (hws : workspaces_ok rest ws) (hr : rhs.length = lvl.A.rows)
    (hx : x.length = lvl.A.rows) :
    Returns (fun r => r.1.only_t w ∧ r.2.length = lvl.A.rows)
      (relax_on (tdiv q) lvl w swap rhs x) ∧
    (∃ v, resid sqrt lvl rhs x = Except.ok v) ∧
    Returns (fun r => r.1.only_t w ∧ List.Forall₂ Workspace.same_shape r.2.1 ws ∧
        r.2.2.length = lvl.A.rows)
      (cycle_on (tdiv q) prm swap (lvl :: rest) w ws rhs x) ∧
    (rest = [] ∨ w.cg_ok lvl.A.rows →
      Returns (fun r => r.1.same_shape w ∧ List.Forall₂ Workspace.same_shape r.2.1 ws ∧
          r.2.2.length = lvl.A.rows)
        (kcycle_on (tdiv q) prm (lvl :: rest) w ws rhs x)) := by
  have hA := levels_ok_head lvl rest h
  refine ⟨returns_relax_on q lvl w swap rhs x hA hr hx ht, resid_returns sqrt lvl rhs x hA hr hx,
    (cycle_kcycle_on_returns q prm rest lvl h).1 swap w ws rhs x ht hws hr hx, ?_⟩
  intro hk
  rcases hk with hk | hk
  · subst hk
    rw [kcycle_on_last]
    exact returns_bind (returns_solve lvl rhs x h.2 hr hx)
      (fun y hy => returns_ok _ ⟨same_shape_refl w, shapes_refl ws, hy⟩)
  · exact (cycle_kcycle_on_returns q prm rest lvl h).2 w ws rhs x ht hk hws hr hx

theorem index_safety_witness :
    levels_ok [exTz, exTc] ∧ exWK.t.length = exTz.A.rows ∧ workspaces_ok [exTc] [exWC] ∧
    ([1] : List ℚ).length = exTz.A.rows ∧ ([0] : List ℚ).length = exTz.A.rows ∧
    relax exTz exWK true [1] [0] = Except.error Fault.divide ∧
    Returns (fun r => r.1.only_t exWK ∧ r.2.length = exTz.A.rows)
      (relax_on (tdiv (fun a b => a / b)) exTz exWK true [1] [0]) ∧
    (∃ v, resid (fun v => v) exTz [1] [0] = Except.ok v) ∧
    Returns (fun r => r.1.only_t exWK ∧ List.Forall₂ Workspace.same_shape r.2.1 [exWC] ∧
        r.2.2.length = exTz.A.rows)
      (cycle_on (tdiv (fun a b => a / b)) ⟨2, 1, 1, 1⟩ true [exTz, exTc] exWK [exWC] [1] [0]) ∧
    exWK.cg_ok exTz.A.rows ∧
    Returns (fun r => r.1.same_shape exWK ∧
        List.Forall₂ Workspace.same_shape r.2.1 [exWC] ∧ r.2.2.length = exTz.A.rows)
      (kcycle_on (tdiv (fun a b => a / b)) ⟨2, 1, 1, 1⟩ [exTz, exTc] exWK [exWC] [1] [0]) := by
  have h := index_safety (fun a b => a / b) (fun v => v) ⟨2, 1, 1, 1⟩ true exTz [exTc] exWK
    [exWC] [1] [0] (by decide) rfl (by decide) rfl rfl
  exact ⟨by decide, rfl, by decide, rfl, rfl, ex_relax_zero_diagonal exWK true rfl,
    h.1, h.2.1, h.2.2.1, by decide, h.2.2.2 (Or.inr (by decide))⟩

/-- The claim C17 as it is worded fails for `kcycle`: on the two-level example every
condition it lists holds (the matrices are well-formed, the levels are what the
constructors return at positions 0 and 1, no level has `cg[0]` allocated, so the condition
on K-cycle levels holds of each, `rhs` and `x` have two entries), and `kcycle`, called on
the first level, writes `cg[0][0]` of an empty `cg[0]`, whatever the quotient is. -/
theorem kcycle_without_workspace_faults :
    levels_ok [exF, exC] ∧
    (instance_interior exE exA exP exR ⟨1, 1, 1, 1⟩ 0).1 = exF ∧
    (instance_coarsest exE exAc exAci ⟨1, 1, 1, 1⟩ 1).1 = exC ∧
    (instance_interior exE exA exP exR ⟨1, 1, 1, 1⟩ 0).2.t.length = exF.A.rows ∧
    (instance_interior exE exA exP exR ⟨1, 1, 1, 1⟩ 0).2.cg0 = [] ∧
    workspaces_ok [exC] [(instance_coarsest exE exAc exAci ⟨1, 1, 1, 1⟩ 1).2] ∧
    (instance_coarsest exE exAc exAci ⟨1, 1, 1, 1⟩ 1).2.cg0 = [] ∧
    ([1, 0] : List ℚ).length = exF.A.rows ∧ ([0, 0] : List ℚ).length = exF.A.rows ∧
    kcycle ⟨1, 1, 1, 1⟩ [exF, exC] (instance_interior exE exA exP exR ⟨1, 1, 1, 1⟩ 0).2
        [(instance_coarsest exE exAc exAci ⟨1, 1, 1, 1⟩ 1).2] [1, 0] [0, 0] =
      Except.error Fault.index ∧
    (∀ q : ℚ → ℚ → ℚ, kcycle_on (tdiv q) ⟨1, 1, 1, 1⟩ [exF, exC]
        (instance_interior exE exA exP exR ⟨1, 1, 1, 1⟩ 0).2
        [(instance_coarsest exE exAc exAci ⟨1, 1, 1, 1⟩ 1).2] [1, 0] [0, 0] =
      Except.error Fault.index) ∧
    ¬ Returns (fun _ => True) (kcycle_on (tdiv (fun a b => a / b)) ⟨1, 1, 1, 1⟩ [exF, exC]
        (instance_interior exE exA exP exR ⟨1, 1, 1, 1⟩ 0).2
        [(instance_coarsest exE exAc exAci ⟨1, 1, 1, 1⟩ 1).2] [1, 0] [0, 0]) := by
  have hk : kcycle ⟨1, 1, 1, 1⟩ [exF, exC] (instance_interior exE exA exP exR ⟨1, 1, 1, 1⟩ 0).2
      [(instance_coarsest exE exAc exAci ⟨1, 1, 1, 1⟩ 1).2] [1, 0] [0, 0] =
      Except.error Fault.index := by
    rw [kcycle]
    simp [copy_n, fill_rows, rd, wr, instance_interior, exF, exA, List.range_succ,
      List.foldlM]
  have hq : ∀ q : ℚ → ℚ → ℚ, kcycle_on (tdiv q) ⟨1, 1, 1, 1⟩ [exF, exC]
      (instance_interior exE exA exP exR ⟨1, 1, 1, 1⟩ 0).2
      [(instance_coarsest exE exAc exAci ⟨1, 1, 1, 1⟩ 1).2] [1, 0] [0, 0] =
      Except.error Fault.index := by
    intro q
    rw [kcycle_on_eq_body]
    simp [kcycle_body, copy_n, fill_rows, rd, wr, instance_interior, exF, exA, List.range_succ,
      List.foldlM]
  refine ⟨by decide, rfl, rfl, rfl, rfl, by decide, rfl, rfl, rfl, hk, hq, ?_⟩
  rintro ⟨r, hr, _⟩
  rw [hq] at hr
  cases hr

end claim_bounds_statement

/-! ## Termination -/

section claim_termination

variable {K : Type} [Field K] [DecidableEq K]

theorem callees_decrease (c d : Invocation K) (h : c ∈ callees d) :
    Prod.Lex (· < ·) (· < ·) (solve_measure c) (solve_measure d) := by
  obtain ⟨s, lv⟩ := d
  cases s with
  | cycle =>
    match lv, h with
    | [], h => simp [callees] at h
    | [_], h => simp [callees] at h
    | _ :: nxt :: rest, h =>
      simp only [callees, List.mem_cons, List.mem_singleton, List.not_mem_nil, or_false] at h
      rcases h with rfl | rfl
      · exact Prod.Lex.left _ _ (by simp)
      · exact Prod.Lex.left _ _ (by simp)
  | kcycle =>
    match lv, h with
    | [], h => simp [callees] at h
    | [_], h => simp [callees] at h
    | lvl :: nxt :: rest, h =>
      simp only [callees, List.mem_cons, List.mem_singleton, List.not_mem_nil, or_false] at h
      subst h
      simp only [solve_measure]
      exact Prod.Lex.right _ Nat.zero_lt_one

theorem callees_wf : WellFounded (fun c d : Invocation K => c ∈ callees d) :=
  Subrelation.wf (fun {c d} h => callees_decrease c d h)
    (InvImage.wf solve_measure (WellFounded.prod_lex Nat.lt_wfRel.wf Nat.lt_wfRel.wf))

theorem invoke_eq_body (prm : params) (d : Invocation K) :
    invoke prm d = solve_body fdiv prm d (fun c _ => invoke prm c) := by
  obtain ⟨s, lv⟩ := d
  cases s with
  | cycle =>
    match lv with
    | [] =>
      funext swap w ws rhs x
      simp only [invoke, solve_body]
      rw [cycle]
    | [lvl] =>
      funext swap w ws rhs x
      simp only [invoke, solve_body]
      rw [cycle]
    | lvl :: nxt :: rest =>
      funext swap
      simp only [invoke, solve_body]
      exact cycle_eq_body prm swap lvl nxt rest
  | kcycle =>
    match lv with
    | [] =>
      funext swap w ws rhs x
      simp only [invoke, solve_body]
      rw [kcycle]
    | [lvl] =>
      funext swap w ws rhs x
      simp only [invoke, solve_body]
      rw [kcycle]
    | lvl :: nxt :: rest =>
      funext swap
      simp only [invoke, solve_body]
      exact kcycle_eq_body prm lvl nxt rest

theorem invoke_on_eq_body (dv : K → K → Except Fault K) (prm : params) (d : Invocation K) :
    invoke_on dv prm d = solve_body dv prm d (fun c _ => invoke_on dv prm c) := by
  obtain ⟨s, lv⟩ := d
  cases s with
  | cycle =>
    match lv with
    | [] =>
      funext swap w ws rhs x
      simp only [invoke_on, solve_body]
      rw [cycle_on]
    | [lvl] =>
      funext swap w ws rhs x
      simp only [invoke_on, solve_body]
      rw [cycle_on]
    | lvl :: nxt :: rest =>
      funext swap
      simp only [invoke_on, solve_body]
      exact cycle_on_eq_body dv prm swap lvl nxt rest
  | kcycle =>
    match lv with
    | [] =>
      funext swap w ws rhs x
      simp only [invoke_on, solve_body]
      rw [kcycle_on]
    | [lvl] =>
      funext swap w ws rhs x
      simp only [invoke_on, solve_body]
      rw [kcycle_on]
    | lvl :: nxt :: rest =>
      funext swap
      simp only [invoke_on, solve_body]
      exact kcycle_on_eq_body dv prm lvl nxt rest

theorem invoke_on_fdiv (prm : params) (d : Invocation K) :
    invoke_on fdiv prm d = invoke prm d := by
  obtain ⟨s, lv⟩ := d
  cases lv with
  | nil =>
    cases s with
    | cycle =>
      funext swap w ws rhs x
      simp only [invoke_on, invoke]
      rw [cycle_on, cycle]
    | kcycle =>
      funext swap w ws rhs x
      simp only [invoke_on, invoke]
      rw [kcycle_on, kcycle]
  | cons lvl rest =>
    cases s with
    | cycle =>
      funext swap
      simp only [invoke_on, invoke]
      exact (cycle_kcycle_on_fdiv prm rest lvl).1 swap
    | kcycle =>
      funext swap
      simp only [invoke_on, invoke]
      exact (cycle_kcycle_on_fdiv prm rest lvl).2

theorem eq_fix_of_eq_body (dv : K → K → Except Fault K) (prm : params)
    (run : Invocation K → Run K)
    (h : ∀ d, run d = solve_body dv prm d (fun c _ => run c)) (d : Invocation K) :
    run d = callees_wf.fix (solve_body dv prm) d := by
  refine callees_wf.induction (C := fun d => run d = callees_wf.fix (solve_body dv prm) d) d ?_
  intro d ih
  have hc : (fun c (_ : c ∈ callees d) => run c) =
      (fun c _ => callees_wf.fix (solve_body dv prm) c) := by
    funext c hc
    exact ih c hc
  rw [WellFounded.fix_eq, h d, hc]

theorem kcycle_body_counted {ρ : Type} (dv : K → K → Except Fault K) (lvl : Instance K)
    (call : Workspace K → ρ → List K → List K → Except Fault (Workspace K × ρ × List K))
    (w : Workspace K) (ws : ρ) (k : Nat) (rhs x : List K) :
    kcycle_body dv lvl (counted call) w (ws, k) rhs x =
      (fun r => (r.1, (r.2.1, k + 2), r.2.2)) <$> kcycle_body dv lvl call w ws rhs x := by
  simp only [kcycle_body, counted, map_eq_pure_bind, bind_assoc, pure_bind, List.foldlM_cons,
    List.foldlM_nil, ne_eq, not_true_eq_false, if_false, one_ne_zero, not_false_eq_true, if_true]

end claim_termination

section call_depth_lemmas

variable {K : Type} [Field K] [DecidableEq K]

theorem callees_depth (c d : Invocation K) (h : c ∈ callees d) :
    2 * (solve_measure c).1 + (solve_measure c).2 < 2 * (solve_measure d).1 + (solve_measure d).2 := by
  obtain ⟨s, lv⟩ := d
  cases s with
  | cycle =>
    match lv, h with
    | [], h => simp [callees] at h
    | [_], h => simp [callees] at h
    | _ :: nxt :: rest, h =>
      simp only [callees, List.mem_cons, List.mem_singleton, List.not_mem_nil, or_false] at h
      rcases h with rfl | rfl
      · simp only [solve_measure, List.length_cons]
        omega
      · simp only [solve_measure, List.length_cons]
        omega
  | kcycle =>
    match lv, h with
    | [], h => simp [callees] at h
    | [_], h => simp [callees] at h
    | lvl :: nxt :: rest, h =>
      simp only [callees, List.mem_cons, List.mem_singleton, List.not_mem_nil, or_false] at h
      subst h
      simp only [solve_measure, List.length_cons]
      omega

theorem solve_fuel_enough (dv : K → K → Except Fault K) (prm : params)
    (run : Invocation K → Run K)
    (hrun : ∀ d, run d = solve_body dv prm d (fun c _ => run c)) :
    ∀ (n : Nat) (d : Invocation K), 2 * (solve_measure d).1 + (solve_measure d).2 < n →
      solve_fuel dv prm n d = some (run d) := by
  intro n
  induction n with
  | zero => intro d h; omega
  | succ n ih =>
    intro d hd
    have hc : ∀ c ∈ callees d, solve_fuel dv prm n c = some (run c) := by
      intro c hc
      have := callees_depth c d hc
      exact ih c (by omega)
    have hs : ∀ c ∈ callees d, (solve_fuel dv prm n c).isSome = true := by
      intro c h
      rw [hc c h]
      rfl
    have hg : (fun c (h : c ∈ callees d) => (solve_fuel dv prm n c).get (hs c h)) =
        (fun c _ => run c) := by
      funext c h
      apply Option.some_injective
      rw [Option.some_get]
      exact hc c h
    rw [solve_fuel, dif_pos hs, hrun d, hg]

theorem solve_fuel_short (dv : K → K → Except Fault K) (prm : params) :
    ∀ (n : Nat) (d : Invocation K), n < d.range.length → solve_fuel dv prm n d = none := by
  intro n
  induction n with
  | zero => intro d _; rfl
  | succ n ih =>
    intro d hd
    obtain ⟨s, lv⟩ := d
    match lv, hd with
    | [_], hd => simp at hd
    | lvl :: nxt :: rest, hd =>
      simp only [List.length_cons] at hd
      have hn : ¬ ∀ c ∈ callees (⟨s, lvl :: nxt :: rest⟩ : Invocation K),
          (solve_fuel dv prm n c).isSome = true := by
        intro h
        cases s with
        | cycle =>
          have h1 := h ⟨Solver.cycle, nxt :: rest⟩ (List.mem_cons_self _ _)
          rw [ih ⟨Solver.cycle, nxt :: rest⟩ (by simp only [List.length_cons]; omega)] at h1
          cases h1
        | kcycle =>
          have h1 := h ⟨Solver.cycle, lvl :: nxt :: rest⟩ (List.mem_cons_self _ _)
          rw [ih ⟨Solver.cycle, lvl :: nxt :: rest⟩
            (by simp only [List.length_cons]; omega)] at h1
          cases h1
      rw [solve_fuel, dif_neg hn]

end call_depth_lemmas

section claim_termination_statement

variable {K : Type} [Field K] [DecidableEq K]

theorem kcycle_two_passes (q : K → K → K) (prm : params) (lvl nxt : Instance K)
    (rest : List (Instance K)) (w : Workspace K) (ws : List (Workspace K)) (k : Nat)
    (rhs x : List K) (h : levels_ok (lvl :: nxt :: rest)) (ht : w.t.length = lvl.A.rows)
    (hcg : w.cg_ok lvl.A.rows) (hws : workspaces_ok (nxt :: rest) ws)
    (hr : rhs.length = lvl.A.rows) (hx : x.length = lvl.A.rows) :
    ∃ r, kcycle_on (tdiv q) prm (lvl :: nxt :: rest) w ws rhs x = Except.ok r ∧
      kcycle_body (tdiv q) lvl (counted (cycle_on (tdiv q) prm true (lvl :: nxt :: rest)))
        w (ws, k) rhs x = Except.ok (r.1, (r.2.1, k + 2), r.2.2) := by
  obtain ⟨r, hret, _⟩ := (cycle_kcycle_on_returns q prm (nxt :: rest) lvl h).2 w ws rhs x ht hcg
    hws hr hx
  refine ⟨r, hret, ?_⟩
  rw [kcycle_body_counted, ← kcycle_on_eq_body, hret]
  rfl

/-- C15: the calls that `cycle` and `kcycle` make are those of the table `callees`: the
result of an invocation is the body of its function applied to the results of its callees
and of nothing else (`cycle` on `[lvl, end)` calls `cycle` and `kcycle` on `[nxt, end)`,
`kcycle` calls `cycle` on its own range, on one level neither calls). Every callee is
lower in the lexicographic measure (number of levels, then `kcycle` before `cycle`), so
the call relation is well-founded, and `cycle` and `kcycle` are the functions that
recursion along it defines. For every range and every parameter record the run needs
calls nested no deeper than twice the number of levels plus one: with that much nesting
allowed the run is the result of `cycle`, of `kcycle`, whether a division by zero stops
the run (`fdiv`) or has a value; with less nesting than there are levels it is not
finished. The K-cycle loop makes two passes whatever the data are: for every quotient and
every callee, the body of `kcycle` run with a callee that counts its applications returns
what it returns without the counter, and the counter has advanced by exactly two; on
well-formed levels with the `cg` vectors allocated, when every division has a value, that
run does return, so that `cycle` has been applied twice. -/
theorem solve_terminates (prm : params) :
    (∀ c d : Invocation K, c ∈ callees d →
      Prod.Lex (· < ·) (· < ·) (solve_measure c) (solve_measure d)) ∧
    WellFounded (fun c d : Invocation K => c ∈ callees d) ∧
    (∀ d : Invocation K, invoke prm d = solve_body fdiv prm d (fun c _ => invoke prm c)) ∧
    (∀ d : Invocation K, invoke prm d = callees_wf.fix (solve_body fdiv prm) d) ∧
    (∀ (n : Nat) (d : Invocation K), 2 * d.range.length + 1 < n →
      solve_fuel fdiv prm n d = some (invoke prm d)) ∧
    (∀ d : Invocation K, invoke_on fdiv prm d = invoke prm d) ∧
    (∀ (dv : K → K → Except Fault K) (d : Invocation K),
      invoke_on dv prm d = solve_body dv prm d (fun c _ => invoke_on dv prm c)) ∧
    (∀ (dv : K → K → Except Fault K) (n : Nat) (d : Invocation K), 2 * d.range.length + 1 < n →
      solve_fuel dv prm n d = some (invoke_on dv prm d)) ∧
    (∀ (dv : K → K → Except Fault K) (n : Nat) (d : Invocation K), n < d.range.length →
      solve_fuel dv prm n d = none) ∧
    (∀ (lvl nxt : Instance K) (rest : List (Instance K)),
      kcycle prm (lvl :: nxt :: rest) =
        kcycle_body fdiv lvl (cycle prm true (lvl :: nxt :: rest))) ∧
    (∀ (ρ : Type) (dv : K → K → Except Fault K) (lvl : Instance K)
      (call : Workspace K → ρ → List K → List K → Except Fault (Workspace K × ρ × List K))
      (w : Workspace K) (ws : ρ) (k : Nat) (rhs x : List K),
      kcycle_body dv lvl (counted call) w (ws, k) rhs x =
        (fun r => (r.1, (r.2.1, k + 2), r.2.2)) <$> kcycle_body dv lvl call w ws rhs x) ∧
    (∀ (q : K → K → K) (lvl nxt : Instance K) (rest : List (Instance K)) (w : Workspace K)
      (ws : List (Workspace K)) (k : Nat) (rhs x : List K),
      levels_ok (lvl :: nxt :: rest) → w.t.length = lvl.A.rows → w.cg_ok lvl.A.rows →
      workspaces_ok (nxt :: rest) ws → rhs.length = lvl.A.rows → x.length = lvl.A.rows →
      ∃ r, kcycle_on (tdiv q) prm (lvl :: nxt :: rest) w ws rhs x = Except.ok r ∧
        kcycle_body (tdiv q) lvl (counted (cycle_on (tdiv q) prm true (lvl :: nxt :: rest)))
          w (ws, k) rhs x = Except.ok (r.1, (r.2.1, k + 2), r.2.2)) := by
  have hm : ∀ d : Invocation K,
      2 * (solve_measure d).1 + (solve_measure d).2 ≤ 2 * d.range.length + 1 := by
    intro d
    obtain ⟨s, lv⟩ := d
    cases s <;> simp only [solve_measure] <;> omega
  refine ⟨callees_decrease, callees_wf, invoke_eq_body prm,
    eq_fix_of_eq_body fdiv prm (invoke prm) (invoke_eq_body prm), ?_, invoke_on_fdiv prm,
    fun dv => invoke_on_eq_body dv prm, ?_, fun dv => solve_fuel_short dv prm,
    kcycle_eq_body prm, fun ρ => kcycle_body_counted, fun q => kcycle_two_passes q prm⟩
  · intro n d hn
    exact solve_fuel_enough fdiv prm (invoke prm) (invoke_eq_body prm) n d
      (lt_of_le_of_lt (hm d) hn)
  · intro dv n d hn
    exact solve_fuel_enough dv prm (invoke_on dv prm) (invoke_on_eq_body dv prm) n d
      (lt_of_le_of_lt (hm d) hn)

theorem solve_terminates_witness :
    levels_ok [exTz, exTc] ∧ exWK.t.length = exTz.A.rows ∧ exWK.cg_ok exTz.A.rows ∧
    workspaces_ok [exTc] [exWC] ∧ ([1] : List ℚ).length = exTz.A.rows ∧
    ([0] : List ℚ).length = exTz.A.rows ∧
    solve_fuel fdiv ⟨2, 1, 1, 1⟩ 6 ⟨Solver.kcycle, [exTz, exTc]⟩ =
      some (fun _ => kcycle ⟨2, 1, 1, 1⟩ [exTz, exTc]) ∧
    solve_fuel fdiv ⟨2, 1, 1, 1⟩ 1 ⟨Solver.kcycle, [exTz, exTc]⟩ = none ∧
    ∃ r, kcycle_on (tdiv (fun a b => a / b)) ⟨2, 1, 1, 1⟩ [exTz, exTc] exWK [exWC] [1] [0] =
        Except.ok r ∧
      kcycle_body (tdiv (fun a b => a / b)) exTz
        (counted (cycle_on (tdiv (fun a b => a / b)) ⟨2, 1, 1, 1⟩ true [exTz, exTc]))
        exWK ([exWC], 0) [1] [0] = Except.ok (r.1, (r.2.1, 0 + 2), r.2.2) := by
  have h := solve_terminates (K := ℚ) ⟨2, 1, 1, 1⟩
  exact ⟨by decide, rfl, by decide, by decide, rfl, rfl,
    h.2.2.2.2.1 6 ⟨Solver.kcycle, [exTz, exTc]⟩ (by decide),
    h.2.2.2.2.2.2.2.2.1 fdiv 1 ⟨Solver.kcycle, [exTz, exTc]⟩ (by decide),
    h.2.2.2.2.2.2.2.2.2.2.2 (fun a b => a / b) exTz exTc [] exWK [exWC] 0 [1] [0] (by decide) rfl
      (by decide) (by decide) rfl rfl⟩

end claim_termination_statement

end amgcl
